import Mathlib

/-!
# Corpus loader and query layer of the wildlife site

Shallow embedding of `src/web-folder/utils/preprocessed.js` and of the handler of
`GET /api/docs` in `src/rag_pipeline/src/routes/route.js`.

* A JavaScript string is a sequence of UTF-16 code units; it is modelled by a `List Char`,
  one character per code unit.
* A JavaScript value coming out of `JSON.parse` is a `JVal`.  Arrays and objects carry the
  reference under which they were allocated, because `Map` and `Set` compare them by
  reference.  JSON numbers are modelled by integers (page numbers, numeric identifiers).
* The Unicode services of the platform that the code calls (`toUpperCase`, `toLowerCase`,
  `normalize("NFD")`, and the string-to-number coercion behind `a - b`) are not code of the
  repository; they are taken as a parameter `U : Unicode`, and every theorem holds for
  every choice of them.
-/

set_option autoImplicit false

namespace Preprocessed

/-- A JavaScript string, as its sequence of code units. -/
abbrev JStr := List Char

/-- A JavaScript value as produced by `JSON.parse` (plus `undefined`, the value of a missing
property).  `ref` is the identity of an array or object. -/
inductive JVal where
  | undefined
  | null
  | bool (b : Bool)
  | num (n : Int)
  | str (s : JStr)
  | arr (ref : Nat) (items : List JVal)
  | obj (ref : Nat) (members : List (String × JVal))

namespace JVal

mutual
/-- Decidable equality of values (references and contents). -/
def decEqVal : (a b : JVal) → Decidable (a = b)
  | undefined, undefined => isTrue rfl
  | null, null => isTrue rfl
  | bool a, bool b =>
    if h : a = b then isTrue (by rw [h]) else isFalse (by intro h2; cases h2; exact h rfl)
  | num a, num b =>
    if h : a = b then isTrue (by rw [h]) else isFalse (by intro h2; cases h2; exact h rfl)
  | str a, str b =>
    if h : a = b then isTrue (by rw [h]) else isFalse (by intro h2; cases h2; exact h rfl)
  | arr r xs, arr r2 ys =>
    if h : r = r2 then
      match decEqItems xs ys with
      | isTrue h2 => isTrue (by rw [h, h2])
      | isFalse h2 => isFalse (by intro h3; cases h3; exact h2 rfl)
    else isFalse (by intro h2; cases h2; exact h rfl)
  | obj r xs, obj r2 ys =>
    if h : r = r2 then
      match decEqMembers xs ys with
      | isTrue h2 => isTrue (by rw [h, h2])
      | isFalse h2 => isFalse (by intro h3; cases h3; exact h2 rfl)
    else isFalse (by intro h2; cases h2; exact h rfl)
  | undefined, null | undefined, bool _ | undefined, num _ | undefined, str _
  | undefined, arr _ _ | undefined, obj _ _
  | null, undefined | null, bool _ | null, num _ | null, str _ | null, arr _ _ | null, obj _ _
  | bool _, undefined | bool _, null | bool _, num _ | bool _, str _ | bool _, arr _ _
  | bool _, obj _ _
  | num _, undefined | num _, null | num _, bool _ | num _, str _ | num _, arr _ _
  | num _, obj _ _
  | str _, undefined | str _, null | str _, bool _ | str _, num _ | str _, arr _ _
  | str _, obj _ _
  | arr _ _, undefined | arr _ _, null | arr _ _, bool _ | arr _ _, num _ | arr _ _, str _
  | arr _ _, obj _ _
  | obj _ _, undefined | obj _ _, null | obj _ _, bool _ | obj _ _, num _ | obj _ _, str _
  | obj _ _, arr _ _ => isFalse (by intro h; cases h)
/-- Decidable equality of item lists. -/
def decEqItems : (a b : List JVal) → Decidable (a = b)
  | [], [] => isTrue rfl
  | x :: xs, y :: ys =>
    match decEqVal x y, decEqItems xs ys with
    | isTrue h1, isTrue h2 => isTrue (by rw [h1, h2])
    | isFalse h1, _ => isFalse (by intro h; cases h; exact h1 rfl)
    | _, isFalse h2 => isFalse (by intro h; cases h; exact h2 rfl)
  | [], _ :: _ => isFalse (by intro h; cases h)
  | _ :: _, [] => isFalse (by intro h; cases h)
/-- Decidable equality of member lists. -/
def decEqMembers : (a b : List (String × JVal)) → Decidable (a = b)
  | [], [] => isTrue rfl
  | (k, x) :: xs, (k2, y) :: ys =>
    if hk : k = k2 then
      match decEqVal x y, decEqMembers xs ys with
      | isTrue h1, isTrue h2 => isTrue (by rw [hk, h1, h2])
      | isFalse h1, _ => isFalse (by intro h; cases h; exact h1 rfl)
      | _, isFalse h2 => isFalse (by intro h; cases h; exact h2 rfl)
    else isFalse (by intro h; cases h; exact hk rfl)
  | [], _ :: _ => isFalse (by intro h; cases h)
  | _ :: _, [] => isFalse (by intro h; cases h)
end

instance : DecidableEq JVal := decEqVal

/-- JavaScript truthiness (`if (x)`, `!x`, `x || y`). -/
def truthy : JVal → Bool
  | undefined => false
  | null => false
  | bool b => b
  | num n => n != 0
  | str s => !s.isEmpty
  | arr _ _ => true
  | obj _ _ => true

/-- The operator `a || b`. -/
def or (a b : JVal) : JVal := if a.truthy then a else b

/-- Property read `obj.name` on a value other than `null`/`undefined`: an own member of an
object (the last one when the JSON text repeats a key), `undefined` otherwise.  None of the
property names the loader reads exists on a prototype. -/
def get (v : JVal) (name : String) : JVal :=
  match v with
  | obj _ members =>
    match members.reverse.lookup name with
    | some x => x
    | none => undefined
  | _ => undefined

/-- `typeof v === "number"`. -/
def isNumber : JVal → Bool
  | num _ => true
  | _ => false

/-- `v === null || v === undefined`. -/
def isNullish : JVal → Bool
  | null => true
  | undefined => true
  | _ => false

mutual
/-- The conversion `String(v)`.  A number is an integer, written in decimal digits as
`String(n)` writes the integers below 10^21. -/
def toJStr : JVal → JStr
  | undefined => "undefined".toList
  | null => "null".toList
  | bool true => "true".toList
  | bool false => "false".toList
  | num n => (toString n).toList
  | str s => s
  | arr _ items => joinItems items
  | obj _ _ => "[object Object]".toList
/-- `Array.prototype.join(",")`: `null` and `undefined` items give the empty string. -/
def joinItems : List JVal → JStr
  | [] => []
  | x :: xs =>
    (match x with
      | undefined => []
      | null => []
      | bool b => toJStr (bool b)
      | num n => toJStr (num n)
      | str s => s
      | arr r items => toJStr (arr r items)
      | obj r ms => toJStr (obj r ms)) ++
    (match xs with
      | [] => []
      | y :: ys => ',' :: joinItems (y :: ys))
end

end JVal

/-- The platform services used by the loader that are not code of the repository. -/
structure Unicode where
  /-- `String.prototype.toUpperCase`. -/
  toUpperCase : JStr → JStr
  /-- `String.prototype.toLowerCase`. -/
  toLowerCase : JStr → JStr
  /-- `String.prototype.normalize("NFD")`. -/
  nfd : JStr → JStr
  /-- The coercion of a string to a number (`none` is `NaN`). -/
  stringToNumber : JStr → Option Int

/-- An instance for ASCII-only text: case mapping of the letters a–z / A–Z, no
decomposition, decimal integer literals. -/
def asciiUnicode : Unicode where
  toUpperCase := List.map Char.toUpper
  toLowerCase := List.map Char.toLower
  nfd := id
  stringToNumber := fun s => (String.mk s).toInt?

/-! ## Strings -/

/-- White space and line terminators of ECMAScript: what `trim` strips and `\s` matches. -/
def isWhiteSpace (c : Char) : Bool :=
  (9 ≤ c.toNat && c.toNat ≤ 13) || c.toNat == 32 || c.toNat == 160 || c.toNat == 5760 ||
  (8192 ≤ c.toNat && c.toNat ≤ 8202) || c.toNat == 8232 || c.toNat == 8233 ||
  c.toNat == 8239 || c.toNat == 8287 || c.toNat == 12288 || c.toNat == 65279

/-- `String.prototype.trim`. -/
def trim (s : JStr) : JStr := (s.dropWhile isWhiteSpace).rdropWhile isWhiteSpace

/-- `haystack.indexOf(needle)`; `none` stands for `-1`. -/
def indexOf (needle : JStr) : JStr → Option Nat
  | [] => if needle.isPrefixOf [] then some 0 else none
  | c :: cs =>
    if needle.isPrefixOf (c :: cs) then some 0
    else (indexOf needle cs).map (· + 1)

/-- `s.slice(a, b)` for `0 ≤ a ≤ b`. -/
def slice (s : JStr) (a b : Nat) : JStr := (s.drop a).take (b - a)

/-- `parts.join(sep)` on an array of strings. -/
def join (sep : JStr) : List JStr → JStr
  | [] => []
  | [p] => p
  | p :: q :: rest => p ++ sep ++ join sep (q :: rest)

/-- The class `[A-Z]`. -/
def isAZ (c : Char) : Bool := 65 ≤ c.toNat && c.toNat ≤ 90

/-- The group `([^A-Z]|$)` closing the pattern: one code unit outside A–Z, or the end of
the input. -/
def matchClose : JStr → Bool
  | [] => true
  | c :: _ => !isAZ c

/-- The literal `code` followed by `([^A-Z]|$)`, tried at the head of `rest`. -/
def matchCode (code rest : JStr) : Bool :=
  code.isPrefixOf rest && matchClose (rest.drop code.length)

/-- One attempt of `(^|[^A-Z])code([^A-Z]|$)` at a position: `atStart` tells whether the
position is the beginning of the input, `rest` is the input from the position on. -/
def matchHere (code : JStr) (atStart : Bool) (rest : JStr) : Bool :=
  (atStart && matchCode code rest) ||
  (match rest with
    | [] => false
    | c :: rest1 => !isAZ c && matchCode code rest1)

/-- Attempts at every position from the current one to the end of the input. -/
def testFrom (code : JStr) : Bool → JStr → Bool
  | atStart, [] => matchHere code atStart []
  | atStart, c :: cs => matchHere code atStart (c :: cs) || testFrom code false cs

/-- The test `new RegExp("(^|[^A-Z])" + code + "([^A-Z]|$)").test(s)`. -/
def reTest (code s : JStr) : Bool := testFrom code true s

/-- Replacement of every maximal run of code units satisfying `p` by `rep`
(`s.replace(/[p]+/g, rep)`); `inRun` tells whether the previous unit was in a run. -/
def replaceRuns (p : Char → Bool) (rep : JStr) : Bool → JStr → JStr
  | _, [] => []
  | inRun, c :: cs =>
    if p c then (if inRun then [] else rep) ++ replaceRuns p rep true cs
    else c :: replaceRuns p rep false cs

/-- The replacement `s.replace(/^-|-$/g, "")`: one hyphen off each end. -/
def stripEdgeHyphens (s : JStr) : JStr :=
  let s1 := match s with
    | '-' :: t => t
    | _ => s
  if s1.getLast? = some '-' then s1.dropLast else s1

/-- The class of combining diacritical marks, U+0300 to U+036F. -/
def isCombiningMark (c : Char) : Bool := 768 ≤ c.toNat && c.toNat ≤ 879

/-- The class `[a-z0-9\s-]`. -/
def isSlugChar (c : Char) : Bool :=
  (97 ≤ c.toNat && c.toNat ≤ 122) || (48 ≤ c.toNat && c.toNat ≤ 57) || isWhiteSpace c ||
  c == '-'

/-! ## `preprocessed.js` -/

/-- `findFile(candidates)`: the first candidate that exists.  A candidate path is seen
through what the file system holds there. -/
def findFile {α : Type} : List (Option α) → Option α
  | [] => none
  | some p :: _ => some p
  | none :: rest => findFile rest

/-- `normalize(str)`: `String(str || "").trim()`. -/
def normalize (str : JVal) : JStr := trim (JVal.or str (JVal.str [])).toJStr

/-- `toSlug(input)`. -/
def toSlug (U : Unicode) (input : JVal) : JStr :=
  stripEdgeHyphens
    (replaceRuns (· == '-') ['-'] false
      (replaceRuns isWhiteSpace ['-'] false
        (List.filter isSlugChar
          (List.filter (fun c => !isCombiningMark c)
            (U.nfd (U.toLowerCase (normalize input)))))))

/-- The array `statuses` of `extractIucnStatus`. -/
def statuses : List JStr :=
  ["CR".toList, "EN".toList, "VU".toList, "NT".toList, "LC".toList, "EX".toList,
   "EW".toList, "DD".toList, "NE".toList]

/-- `extractIucnStatus(text)` for a string `text`; the result is `null` or a code. -/
def extractIucnStatus (U : Unicode) (text : JStr) : JVal :=
  if text.isEmpty then JVal.null
  else
    let upper := U.toUpperCase text
    let inWindow : Option JStr :=
      match indexOf "IUCN".toList upper with
      | some idx =>
        let win := slice upper idx (idx + 120)
        statuses.find? (fun code => reTest code win)
      | none => none
    match inWindow with
    | some code => JVal.str code
    | none =>
      match statuses.find? (fun code => reTest code upper) with
      | some code => JVal.str code
      | none => JVal.null

/-- The object literal `map` of `normalizeIucnField`. -/
def iucnMap : List (JStr × JStr) :=
  [("CR".toList, "CR".toList), ("EN".toList, "EN".toList), ("VU".toList, "VU".toList),
   ("NT".toList, "NT".toList), ("LC".toList, "LC".toList), ("EX".toList, "EX".toList),
   ("EW".toList, "EW".toList), ("DD".toList, "DD".toList), ("NE".toList, "NE".toList)]

/-- `normalizeIucnField(value)`.  The lookup `map[v]` sees only the nine own keys: `v` is
upper-cased, and every key inherited from `Object.prototype` has a lower-case letter. -/
def normalizeIucnField (U : Unicode) (value : JVal) : JVal :=
  if value.isNullish then JVal.null
  else
    let v := U.toUpperCase (trim value.toJStr)
    match iucnMap.lookup v with
    | some code => JVal.or (JVal.str code) JVal.null
    | none => JVal.null

/-! ## The loader -/

/-- One line of the corpus file, seen through what `line.trim()` and `JSON.parse` make
of it. -/
inductive Line where
  /-- The trimmed line is empty. -/
  | blank
  /-- The call `JSON.parse(s)` throws. -/
  | malformed
  /-- The call `JSON.parse(s)` returns the value `v`. -/
  | parsed (v : JVal)

/-- The exception of a property read on `null` or `undefined`. -/
inductive JsError where
  | typeError
  deriving DecidableEq

/-- The aggregation record `entry` that the loop keeps for one document key.  A `Set` is
held as the list of its elements in insertion order. -/
structure Entry where
  doc_id : JVal
  sourceSet : List JVal
  pagesSet : List JVal
  chunkIds : List JVal
  textParts : List JStr
  image_url : JVal
  url : JVal
  iucn_status : JVal

/-- The `Map` from document keys to entries, in insertion order. -/
abbrev DocMap := List (JVal × Entry)

/-- The comparison `SameValueZero` of `Map` and `Set`: equality of primitives, identity of
references. -/
def sameValueZero (a b : JVal) : Bool := decide (a = b)

/-- `set.add(v)`. -/
def setAdd (set : List JVal) (v : JVal) : List JVal :=
  if set.any (fun x => sameValueZero x v) then set else set ++ [v]

/-- `map.get(key)`; `none` stands for `undefined`. -/
def mapGet : DocMap → JVal → Option Entry
  | [], _ => none
  | (k, e) :: rest, key => if sameValueZero k key then some e else mapGet rest key

/-- The effect on the map of mutating the entry stored under `key`. -/
def mapPut : DocMap → JVal → Entry → DocMap
  | [], _, _ => []
  | (k, e) :: rest, key, e1 =>
    if sameValueZero k key then (k, e1) :: rest else (k, e) :: mapPut rest key e1

/-- The expression `obj.doc_id || obj.title || obj.id || obj.url`. -/
def docKeyOf (obj : JVal) : JVal :=
  JVal.or (JVal.or (JVal.or (obj.get "doc_id") (obj.get "title")) (obj.get "id"))
    (obj.get "url")

/-- The entry created for a key seen for the first time. -/
def newEntry (docKey obj : JVal) : Entry where
  doc_id := docKey
  sourceSet := []
  pagesSet := []
  chunkIds := []
  textParts := []
  image_url := JVal.or (obj.get "image_url") JVal.null
  url := JVal.or (obj.get "url") JVal.null
  iucn_status := JVal.null

/-- The expression `obj.icun || obj.iucn || ... || obj.iucnStatus || null`. -/
def iucnFieldOf (obj : JVal) : JVal :=
  JVal.or (JVal.or (JVal.or (JVal.or (JVal.or (JVal.or (JVal.or (JVal.or
    (obj.get "icun") (obj.get "iucn")) (obj.get "iucn_status")) (obj.get "IUCN"))
    (obj.get "IUCN_status")) (obj.get "iucn_code")) (obj.get "iucn_text"))
    (obj.get "iucnStatus")) JVal.null

/-- The statement `if (obj.source) entry.sourceSet.add(obj.source)`. -/
def addSource (obj : JVal) (entry : Entry) : Entry :=
  if (obj.get "source").truthy then
    { entry with sourceSet := setAdd entry.sourceSet (obj.get "source") }
  else entry

/-- The statement `if (obj.page !== undefined && obj.page !== null)
entry.pagesSet.add(obj.page)`. -/
def addPage (obj : JVal) (entry : Entry) : Entry :=
  if !(obj.get "page").isNullish then
    { entry with pagesSet := setAdd entry.pagesSet (obj.get "page") }
  else entry

/-- The statement `if (obj.id) entry.chunkIds.push(obj.id)`. -/
def addChunkId (obj : JVal) (entry : Entry) : Entry :=
  if (obj.get "id").truthy then { entry with chunkIds := entry.chunkIds ++ [obj.get "id"] }
  else entry

/-- The statement `if (typeof obj.text === "string" && obj.text.trim())
entry.textParts.push(obj.text.trim())`. -/
def addText (obj : JVal) (entry : Entry) : Entry :=
  match obj.get "text" with
  | JVal.str t =>
    if !(trim t).isEmpty then { entry with textParts := entry.textParts ++ [trim t] }
    else entry
  | _ => entry

/-- The statement `if (!entry.image_url && obj.image_url) entry.image_url =
obj.image_url`. -/
def fillImageUrl (obj : JVal) (entry : Entry) : Entry :=
  if !entry.image_url.truthy && (obj.get "image_url").truthy then
    { entry with image_url := obj.get "image_url" }
  else entry

/-- The statement `if (!entry.url && obj.url) entry.url = obj.url`. -/
def fillUrl (obj : JVal) (entry : Entry) : Entry :=
  if !entry.url.truthy && (obj.get "url").truthy then { entry with url := obj.get "url" }
  else entry

/-- The statements computing `iucnField` and `normalized`, and `if (!entry.iucn_status &&
normalized) entry.iucn_status = normalized`. -/
def fillIucnStatus (U : Unicode) (obj : JVal) (entry : Entry) : Entry :=
  let normalized := normalizeIucnField U (iucnFieldOf obj)
  if !entry.iucn_status.truthy && normalized.truthy then
    { entry with iucn_status := normalized }
  else entry

/-- The updates that one fragment `obj` makes to the entry of its key: the statements of
the loop body after the entry has been fetched or created, in order. -/
def updateEntry (U : Unicode) (entry : Entry) (obj : JVal) : Entry :=
  fillIucnStatus U obj (fillUrl obj (fillImageUrl obj (addText obj (addChunkId obj
    (addPage obj (addSource obj entry))))))

/-- The body of the loop for a line whose parsed value `obj` is neither `null` nor
`undefined`. -/
def addFragment (U : Unicode) (map : DocMap) (obj : JVal) : DocMap :=
  let docKey := docKeyOf obj
  if !docKey.truthy then map
  else
    match mapGet map docKey with
    | some entry => mapPut map docKey (updateEntry U entry obj)
    | none => map ++ [(docKey, updateEntry U (newEntry docKey obj) obj)]

/-- The loop `for (const line of lines)` from a given state of the map.  A blank line and
a line that does not parse are skipped; on `null` the read `obj.doc_id` throws. -/
def groupLines (U : Unicode) : DocMap → List Line → Except JsError DocMap
  | map, [] => Except.ok map
  | map, Line.blank :: rest => groupLines U map rest
  | map, Line.malformed :: rest => groupLines U map rest
  | map, Line.parsed obj :: rest =>
    if obj.isNullish then Except.error JsError.typeError
    else groupLines U (addFragment U map obj) rest

/-- A `Document` of the loaded collection. -/
structure Document where
  doc_id : JVal
  slug : JStr
  source : List JVal
  pages : List JVal
  chunk_ids : List JVal
  text : JStr
  text_preview : JStr
  image_url : JVal
  url : JVal
  iucn_status : JVal

/-- The coercion `ToNumber` applied by the subtraction `a - b` (`none` is `NaN`). -/
def toNumber (U : Unicode) : JVal → Option Int
  | JVal.undefined => none
  | JVal.null => some 0
  | JVal.bool b => some (if b then 1 else 0)
  | JVal.num n => some n
  | JVal.str s => U.stringToNumber s
  | JVal.arr r items => U.stringToNumber (JVal.arr r items).toJStr
  | JVal.obj r ms => U.stringToNumber (JVal.obj r ms).toJStr

/-- The comparator `(a, b) => a - b` as `sort` reads it: a `NaN` counts as `0`. -/
def pageCompare (U : Unicode) (a b : JVal) : Int :=
  match toNumber U a, toNumber U b with
  | some x, some y => x - y
  | _, _ => 0

/-- `pages.sort((a, b) => a - b)`: the stable sort by the comparator (`a` stays before `b`
unless the comparator is positive). -/
def sortPages (U : Unicode) (pages : List JVal) : List JVal :=
  pages.insertionSort (fun a b => pageCompare U a b ≤ 0)

/-- The callback of `Array.from(map.values()).map(...)`: an entry becomes a document. -/
def toRow (U : Unicode) (entry : Entry) : Document :=
  let combinedText := join "\n\n".toList entry.textParts
  let statusFromText := extractIucnStatus U combinedText
  { doc_id := entry.doc_id
    slug := toSlug U entry.doc_id
    source := entry.sourceSet
    pages := sortPages U entry.pagesSet
    chunk_ids := entry.chunkIds
    text := combinedText
    text_preview := slice combinedText 0 600
    image_url := JVal.or entry.image_url JVal.null
    url := JVal.or entry.url JVal.null
    iucn_status := JVal.or (JVal.or entry.iucn_status statusFromText) JVal.null }

/-- The part of `loadDocs` after the file has been read: the rows built from its lines. -/
def loadRows (U : Unicode) (lines : List Line) : Except JsError (List Document) :=
  match groupLines U [] lines with
  | Except.ok map => Except.ok (map.map (fun kv => toRow U kv.2))
  | Except.error err => Except.error err

/-- `loadDocs()`: `cache` is the module variable, `candidates` the five candidate paths
seen through the lines of the file found there.  Returns the result and the new cache. -/
def loadDocs (U : Unicode) (cache : Option (List Document))
    (candidates : List (Option (List Line))) :
    Except JsError (List Document × Option (List Document)) :=
  match cache with
  | some rows => Except.ok (rows, some rows)
  | none =>
    match findFile candidates with
    | none => Except.ok ([], some [])
    | some lines =>
      match loadRows U lines with
      | Except.ok rows => Except.ok (rows, some rows)
      | Except.error err => Except.error err

/-! ## Vocabulary of the specification -/

/-- The loop throws on this line. -/
def Line.throws : Line → Bool
  | Line.parsed v => v.isNullish
  | _ => false

/-- The fragments of a file: the parsed values of its lines, in order. -/
def fragmentsOf : List Line → List JVal
  | [] => []
  | Line.parsed v :: rest => v :: fragmentsOf rest
  | _ :: rest => fragmentsOf rest

/-- The usable document keys of the fragments, in encounter order (with repetitions). -/
def usableKeys (frags : List JVal) : List JVal := (frags.map docKeyOf).filter JVal.truthy

/-- The fragments whose document key is `key`, in encounter order. -/
def sharing (key : JVal) (frags : List JVal) : List JVal :=
  frags.filter (fun f => decide (docKeyOf f = key))

/-- The keys in first-encounter order: every key once, at the place of its first
occurrence. -/
def firstEncounter (keys : List JVal) : List JVal := keys.reverse.dedup.reverse

/-- The entry of a key before any fragment has contributed to it. -/
def blankEntry (key : JVal) : Entry := newEntry key JVal.undefined

/-- The entry that the fragments sharing `key` build up. -/
def groupEntry (U : Unicode) (key : JVal) (frags : List JVal) : Entry :=
  (sharing key frags).foldl (updateEntry U) (blankEntry key)

/-- The text contribution of a fragment: its `text`, trimmed, when that is a string and
not empty after trimming. -/
def textPartOf (f : JVal) : Option JStr :=
  match f.get "text" with
  | JVal.str t => if (trim t).isEmpty then none else some (trim t)
  | _ => none

/-- The four key fields in priority order. -/
def keyFields (f : JVal) : List JVal :=
  [f.get "doc_id", f.get "title", f.get "id", f.get "url"]

/-- The names of the explicit status fields, in the order the loader reads them. -/
def iucnAliases : List String :=
  ["icun", "iucn", "iucn_status", "IUCN", "IUCN_status", "iucn_code", "iucn_text",
   "iucnStatus"]

/-- The explicit status code that a fragment yields: the trimmed, upper-cased string form
of its first truthy status field, when that is one of the nine codes. -/
def explicitCode (U : Unicode) (f : JVal) : Option JStr :=
  match (iucnAliases.map f.get).find? JVal.truthy with
  | some v =>
    if U.toUpperCase (trim v.toJStr) ∈ statuses then some (U.toUpperCase (trim v.toJStr))
    else none
  | none => none

/-- The code unit of `s` at position `i` exists and is a letter A–Z. -/
def letterAt (s : JStr) (i : Nat) : Bool :=
  match s.get? i with
  | some c => isAZ c
  | none => false

/-- The string `code` occurs in `s` at position `i` as a standalone token: neither the
unit before it nor the unit after it, when present, is a letter A–Z. -/
def standaloneAt (code s : JStr) (i : Nat) : Bool :=
  decide ((s.drop i).take code.length = code) && (i == 0 || !letterAt s (i - 1)) &&
    !letterAt s (i + code.length)

/-- The string `code` occurs standalone somewhere in `s`. -/
def occursStandalone (code s : JStr) : Bool :=
  (List.range (s.length + 1)).any (fun i => standaloneAt code s i)

/-- The string `code` occurs standalone in `s` at a position where it lies inside the
units `lo` to `hi - 1`. -/
def occursStandaloneWithin (code s : JStr) (lo hi : Nat) : Bool :=
  (List.range (s.length + 1)).any
    (fun i => decide (lo ≤ i) && decide (i + code.length ≤ hi) && standaloneAt code s i)

/-- The window of 120 units after the first `IUCN` is cut right in front of a letter A–Z:
the unit that follows the window exists and is a letter. -/
def cutBeforeLetter (upper : JStr) : Bool :=
  match indexOf "IUCN".toList upper with
  | some idx => letterAt upper (idx + 120)
  | none => false

/-- The extractor as the specification words it, by positions in the upper-cased text. -/
def extractIucnStatusSpec (U : Unicode) (text : JStr) : JVal :=
  if text = [] then JVal.null
  else
    let upper := U.toUpperCase text
    let inWindow : Option JStr :=
      match indexOf "IUCN".toList upper with
      | some idx =>
        statuses.find? (fun code => occursStandaloneWithin code upper idx (idx + 120))
      | none => none
    match inWindow with
    | some code => JVal.str code
    | none =>
      match statuses.find? (fun code => occursStandalone code upper) with
      | some code => JVal.str code
      | none => JVal.null

/-! ## Sample inputs -/

/-- A line holding the JSON object with the given members. -/
def objectLine (ref : Nat) (members : List (String × JVal)) : Line :=
  Line.parsed (JVal.obj ref members)

/-- A small corpus: two fragments of `Saola` around a blank and an unparseable line, and
one fragment keyed by its title. -/
def sampleLines : List Line :=
  [objectLine 1 [("doc_id", JVal.str "Saola".toList), ("text", JVal.str "A. IUCN: CR".toList),
      ("page", JVal.num 13), ("id", JVal.str "c7".toList)],
   Line.blank,
   Line.malformed,
   objectLine 2 [("title", JVal.str "Son Duong".toList), ("text", JVal.str " Goat. ".toList),
      ("iucn", JVal.str " vu ".toList), ("source", JVal.str "book".toList)],
   objectLine 3 [("doc_id", JVal.str "Saola".toList), ("text", JVal.str "B.".toList),
      ("page", JVal.num 12), ("source", JVal.str "wiki".toList)],
   objectLine 4 [("doc_id", JVal.str "Saola".toList), ("page", JVal.num 13),
      ("source", JVal.str "wiki".toList)]]

/-- A fragment keyed by its `title`. -/
def titledFragment : JVal :=
  JVal.obj 5 [("doc_id", JVal.str []), ("title", JVal.str "Sao la".toList),
    ("id", JVal.str "c1".toList)]

/-- A fragment with none of the four key fields. -/
def keylessFragment : JVal :=
  JVal.obj 6 [("text", JVal.str "orphan".toList), ("doc_id", JVal.null), ("id", JVal.num 0)]

/-- A fragment whose first status alias holds no code while a later alias holds one. -/
def maskedStatusFragment : JVal :=
  JVal.obj 7 [("doc_id", JVal.str "A".toList), ("icun", JVal.str "n/a".toList),
    ("iucn", JVal.str "en".toList), ("text", JVal.str "IUCN: CR".toList)]

/-- A text whose 120-unit window after `IUCN` ends between `CR` and `ITICAL`. -/
def cutWindowText : JStr :=
  "IUCN".toList ++ List.replicate 114 ' ' ++ "CRITICAL".toList

/-- A text in which the status is spelled out. -/
def spelledOutText : JStr := "IUCN Red List status: ENDANGERED".toList

/-- A text in which the phrase of the status example stands far behind the first `IUCN`,
after a standalone `CR`. -/
def farPhraseText : JStr :=
  "IUCN".toList ++ List.replicate 200 ' ' ++ "CR ".toList ++ "IUCN Red List status: EN".toList

/-- The text of the status example. -/
def statusLineText : JStr := "IUCN Red List status: EN".toList

/-! ## `getDocBySlug` -/

/-- `getDocBySlug(slug)`, where `list` is the value that `loadDocs()` returned; `none`
stands for `null`. -/
def getDocBySlug (U : Unicode) (list : List Document) (slug : JVal) : Option Document :=
  let s := U.toLowerCase (JVal.or slug (JVal.str [])).toJStr
  list.find? (fun d => decide (d.slug = s))

/-! ## `route.js`: the handler of `GET /api/docs` -/

/-- The integer that `parseInt(s, 10)` reads: leading white space is skipped, a sign is
read, then the longest run of decimal digits; `none` is `NaN`.  The rounding of the integer
to a double is not part of it: `parseInt` below adds it where the handler compares the
values. -/
def parseInt10 (s : JStr) : Option Int :=
  let s1 := s.dropWhile isWhiteSpace
  let negative : Bool := match s1 with
    | '-' :: _ => true
    | _ => false
  let s2 : JStr := match s1 with
    | '-' :: t => t
    | '+' :: t => t
    | _ => s1
  let z := s2.takeWhile Char.isDigit
  if z.isEmpty then none
  else
    let n : Nat := z.foldl (fun acc c => acc * 10 + (c.toNat - 48)) 0
    some (if negative then -(n : Int) else (n : Int))

/-- The expression `x || d` for a number `x` (`NaN` and `0` are falsy). -/
def numberOr (x : Option Int) (d : Int) : Int :=
  match x with
  | some n => if n != 0 then n else d
  | none => d

/-- The constant `page`: `Math.max(1, parseInt(req.query.page || "1", 10) || 1)`. -/
def parsePage (pageParam : JVal) : Int :=
  max 1 (numberOr (parseInt10 (JVal.or pageParam (JVal.str "1".toList)).toJStr) 1)

/-- The constant `sizeRaw`: `parseInt(req.query.pageSize || "12", 10) || 12`. -/
def parseSizeRaw (pageSizeParam : JVal) : Int :=
  numberOr (parseInt10 (JVal.or pageSizeParam (JVal.str "12".toList)).toJStr) 12

/-- The constant `pageSize`: `Math.min(Math.max(sizeRaw, 1), 50)`. -/
def parsePageSize (pageSizeParam : JVal) : Int :=
  min (max (parseSizeRaw pageSizeParam) 1) 50

/-- The conversion `(req.query.name || "").toString()` of a query parameter. -/
def paramString (param : JVal) : JStr := (JVal.or param (JVal.str [])).toJStr

/-- The function `norm` of the handler. -/
def norm (U : Unicode) (s : JVal) : JStr :=
  (U.nfd (U.toLowerCase (JVal.or s (JVal.str [])).toJStr)).filter
    (fun c => !isCombiningMark c)

/-- The function `parseList` of the handler. -/
def parseList (val : JVal) : List JStr :=
  (((JVal.or val (JVal.str [])).toJStr.splitOn ',').map trim).filter (fun x => !x.isEmpty)

/-- The function `parseBool` of the handler; `none` stands for `null`. -/
def parseBool (U : Unicode) (val : JVal) : Option Bool :=
  let v := U.toLowerCase (trim (JVal.or val (JVal.str [])).toJStr)
  if ["1".toList, "true".toList, "yes".toList, "y".toList].contains v then some true
  else if ["0".toList, "false".toList, "no".toList, "n".toList].contains v then some false
  else none

/-- `hay.includes(needle)` on strings. -/
def includes (hay needle : JStr) : Bool := (indexOf needle hay).isSome

/-- The step `// Text search`. -/
def textFilter (U : Unicode) (q : JStr) (docs : List Document) : List Document :=
  if !(trim q).isEmpty then
    let nq := norm U (JVal.str q)
    docs.filter (fun d =>
      let a := norm U d.doc_id
      let b := norm U
        (JVal.or (JVal.or (JVal.str d.text_preview) (JVal.str d.text)) (JVal.str []))
      includes a nq || includes b nq)
  else docs

/-- The step `// Facet: IUCN status`. -/
def statusFacet (U : Unicode) (statusParam : JStr) (docs : List Document) : List Document :=
  let statusList := (parseList (JVal.str statusParam)).map U.toUpperCase
  if statusList.length != 0 then
    docs.filter (fun d =>
      statusList.contains (U.toUpperCase (JVal.or d.iucn_status (JVal.str [])).toJStr))
  else docs

/-- The step `// Facet: hasImage`. -/
def imageFacet (U : Unicode) (hasImageParam : JStr) (docs : List Document) :
    List Document :=
  match parseBool U (JVal.str hasImageParam) with
  | some hasImage =>
    docs.filter (fun d =>
      let has := d.image_url.truthy
      if hasImage then has else !has)
  | none => docs

/-- The step `// Facet: source`; the `source` of a document is always an array. -/
def sourceFacet (U : Unicode) (sourceParam : JStr) (docs : List Document) : List Document :=
  let sourceList := (parseList (JVal.str sourceParam)).map (fun x => norm U (JVal.str x))
  if sourceList.length != 0 then
    docs.filter (fun d =>
      let normed := d.source.map (fun s => norm U s)
      sourceList.any (fun s => normed.contains s))
  else docs

/-- The query parameters `req.query` that the handler reads. -/
structure Query where
  q : JVal
  page : JVal
  pageSize : JVal
  status : JVal
  hasImage : JVal
  source : JVal
  sort : JVal

/-- The list `filtered` when the handler reaches `// Sorting`. -/
def filterDocs (U : Unicode) (query : Query) (docs : List Document) : List Document :=
  sourceFacet U (paramString query.source)
    (imageFacet U (paramString query.hasImage)
      (statusFacet U (paramString query.status)
        (textFilter U (paramString query.q) docs)))

/-- `Array.prototype.slice(start, stop)`: a negative index counts from the end. -/
def arraySlice {α : Type} (l : List α) (start stop : Int) : List α :=
  let len : Int := l.length
  let k : Int := if start < 0 then max (len + start) 0 else min start len
  let fin : Int := if stop < 0 then max (len + stop) 0 else min stop len
  (l.drop k.toNat).take (fin - k).toNat

/-- One element of `items` in the response. -/
structure DocItem where
  slug : JStr
  doc_id : JVal
  iucn_status : JVal
  icun : JVal
  image_url : JVal
  text_preview : JStr
  url : JVal

/-- The projection of a document in `items`. -/
def toItem (d : Document) : DocItem where
  slug := d.slug
  doc_id := d.doc_id
  iucn_status := JVal.or d.iucn_status (JVal.str [])
  icun := JVal.or d.iucn_status (JVal.str [])
  image_url := JVal.or d.image_url (JVal.str [])
  text_preview := d.text_preview
  url := JVal.or d.url (JVal.str [])

/-- The body of the response `{ items, total, page, pageSize }`. -/
structure DocsResponse where
  items : List DocItem
  total : Nat
  page : Int
  pageSize : Int

/-- The end of the handler, from `const total` on: `filtered` is the filtered and sorted
list. -/
def respond (filtered : List Document) (page pageSize : Int) : DocsResponse :=
  let total := filtered.length
  let start := (page - 1) * pageSize
  let items := (arraySlice filtered start (start + pageSize)).map toItem
  { items := items, total := total, page := page, pageSize := pageSize }

/-! ## Vocabulary of the specification: slugs and queries -/

/-- An ASCII letter or digit. -/
def isAsciiAlnum (c : Char) : Bool :=
  (65 ≤ c.toNat && c.toNat ≤ 90) || (97 ≤ c.toNat && c.toNat ≤ 122) ||
  (48 ≤ c.toNat && c.toNat ≤ 57)

/-- One of the characters a–z, 0–9. -/
def isLowerAlnum (c : Char) : Bool :=
  (97 ≤ c.toNat && c.toNat ≤ 122) || (48 ≤ c.toNat && c.toNat ≤ 57)

/-- The string made of separators and words in turn: `sep₁ w₁ sep₂ w₂ …`. -/
def sepWords : List (JStr × JStr) → JStr
  | [] => []
  | (sep, w) :: rest => sep ++ w ++ sepWords rest

/-- A word: a non-empty string of characters satisfying `p`. -/
abbrev IsRun (p : Char → Bool) (w : JStr) : Prop := w ≠ [] ∧ ∀ c ∈ w, p c = true

/-- The first of the fields `name` of the fragments that is truthy, `null` when there is
none. -/
def firstTruthy (name : String) (frags : List JVal) : JVal :=
  match (frags.map (fun f => f.get name)).find? JVal.truthy with
  | some v => v
  | none => JVal.null

/-- The normalised form of a string: lower-cased, decomposed, combining marks removed. -/
def normText (U : Unicode) (s : JStr) : JStr :=
  (U.nfd (U.toLowerCase s)).filter (fun c => !isCombiningMark c)

/-- The status of a document as the status facet reads it: its string, upper-cased, the
empty string for a document without status. -/
def statusString (U : Unicode) (d : Document) : JStr :=
  U.toUpperCase (JVal.or d.iucn_status (JVal.str [])).toJStr

/-! ## Sample inputs: slugs and queries -/

/-- The letter o with horn, U+01A1. -/
def oHorn : Char := Char.ofNat 417

/-- The letter u with horn, U+01B0. -/
def uHorn : Char := Char.ofNat 432

/-- The combining horn, U+031B. -/
def combiningHorn : Char := Char.ofNat 795

/-- The name `Sơn Dương`, in composed form. -/
def sonDuong : JStr := ['S', oHorn, 'n', ' ', 'D', uHorn, oHorn, 'n', 'g']

/-- The lower-cased name in decomposed form: every horn letter is its base letter followed
by the combining horn. -/
def decomposedSonDuong : JStr :=
  ['s', 'o', combiningHorn, 'n', ' ', 'd', 'u', combiningHorn, 'o', combiningHorn, 'n', 'g']

/-- No two neighbours are both hyphens. -/
abbrev NoHyphenPair (a b : Char) : Prop := ¬ (a = '-' ∧ b = '-')

/-- An instance for text in ASCII and the letters o-horn and u-horn: lower-casing of A–Z
and of the two capital horn letters, canonical decomposition of the two horn letters. -/
def hornUnicode : Unicode where
  toUpperCase := List.map Char.toUpper
  toLowerCase := List.map (fun c =>
    if c.toNat = 416 then oHorn else if c.toNat = 431 then uHorn else c.toLower)
  nfd := fun s => s.flatMap (fun c =>
    if c = oHorn then ['o', combiningHorn] else if c = uHorn then ['u', combiningHorn]
    else [c])
  stringToNumber := fun s => (String.mk s).toInt?

/-- Three fragments of one document with `image_url` values `null`, `x.jpg`, `y.jpg`, the
last two with a `url`. -/
def imageLines : List Line :=
  [objectLine 1 [("doc_id", JVal.str "A".toList), ("image_url", JVal.null)],
   objectLine 2 [("doc_id", JVal.str "A".toList), ("image_url", JVal.str "x.jpg".toList),
      ("url", JVal.str "u1".toList)],
   objectLine 3 [("doc_id", JVal.str "A".toList), ("image_url", JVal.str "y.jpg".toList),
      ("url", JVal.str "u2".toList)]]

/-- A corpus of one document whose name has no letter or digit of ASCII. -/
def symbolLines : List Line :=
  [objectLine 1 [("doc_id", JVal.str "???".toList), ("text", JVal.str "x".toList)]]

/-- A corpus of one document whose text holds the word `zebra` behind 600 other
characters. -/
def longTextLines : List Line :=
  [objectLine 1 [("doc_id", JVal.str "X".toList),
    ("text", JVal.str (List.replicate 600 'a' ++ "zebra".toList))]]

/-- A document with the given name, status and image. -/
def facetDoc (name : String) (status image : JVal) (source : List JVal) : Document where
  doc_id := JVal.str name.toList
  slug := name.toList
  source := source
  pages := []
  chunk_ids := []
  text := []
  text_preview := []
  image_url := image
  url := JVal.null
  iucn_status := status

/-- The documents of the facet example: EN with image, EN without image, VU with image. -/
def facetDocs : List Document :=
  [facetDoc "a" (JVal.str "EN".toList) (JVal.str "a".toList) [JVal.str "Wiki".toList],
   facetDoc "b" (JVal.str "EN".toList) JVal.null [JVal.str "book".toList],
   facetDoc "c" (JVal.str "VU".toList) (JVal.str "b".toList) []]

/-- Twenty-five documents. -/
def manyDocs : List Document := List.replicate 25 (facetDoc "d" JVal.null JVal.null [])

/-! ## `route.js`: the step `// Sorting` and the whole handler -/

/-- `arr.slice().sort(cmp)`: the stable sort by a comparator (`a` stays before `b` unless
`cmp a b` is positive). -/
def sortBy {α : Type} (cmp : α → α → Int) (l : List α) : List α :=
  l.insertionSort (fun a b => cmp a b ≤ 0)

/-- The scan of `s.match(/(\d+)/g)`: `run` is the run of digits read so far. -/
def digitRunsFrom : JStr → JStr → List JStr
  | run, [] => if run.isEmpty then [] else [run]
  | run, c :: cs =>
    if c.isDigit then digitRunsFrom (run ++ [c]) cs
    else (if run.isEmpty then [] else [run]) ++ digitRunsFrom [] cs

/-- `s.match(/(\d+)/g)`: the matches from left to right; the empty list stands for
`null`. -/
def digitRuns (s : JStr) : List JStr := digitRunsFrom [] s

/-- The function `len` of the handler: `(d.text || d.text_preview || "").length`. -/
def len (d : Document) : Int :=
  ((JVal.or (JVal.or (JVal.str d.text) (JVal.str d.text_preview))
    (JVal.str [])).toJStr.length : Nat)

/-- A value of type Number that `parseInt` returns: `NaN`, an integer that a double holds
exactly, or an infinity. -/
inductive JsNumber where
  | nan
  | finite (value : Int)
  | infinite (negative : Bool)

/-- The number of halvings that bring `n` below 2^53; `fuel` bounds the recursion. -/
def exponentOf : Nat → Nat → Nat
  | 0, _ => 0
  | fuel + 1, n => if n < 2 ^ 53 then 0 else exponentOf fuel (n / 2) + 1

/-- The Number value of a non-negative integer `n`: the nearest double, the one with the
even significand when `n` is halfway between two doubles; `none` stands for `Infinity`,
which is the value from 2^1024 − 2^970 on.  Below 2^53 every integer is its own value;
above, `q` is the significand of 53 bits, `e` the exponent and `r` the part cut off. -/
def roundToDouble (n : Nat) : Option Nat :=
  let e := exponentOf n n
  if e > 971 then none
  else
    let q := n / 2 ^ e
    let r := n % 2 ^ e
    let q1 := if 2 * r > 2 ^ e ∨ (2 * r = 2 ^ e ∧ q % 2 = 1) then q + 1 else q
    if e = 971 ∧ q1 = 2 ^ 53 then none else some (q1 * 2 ^ e)

/-- `parseInt(s, 10)` as the Number it returns: the integer read by `parseInt10`, rounded
to a double (the engine rounds the decimal text correctly).  The sign of `-0` is not
kept. -/
def parseInt (s : JStr) : JsNumber :=
  match parseInt10 s with
  | none => JsNumber.nan
  | some n =>
    match roundToDouble n.natAbs with
    | some v => JsNumber.finite (if n < 0 then -(v : Int) else (v : Int))
    | none => JsNumber.infinite (decide (n < 0))

/-- The function `score` of the handler; `chunk_ids` of a document is always an array.
The guard `Number.isFinite(n) && n > max` lets only a finite `n` replace `max`, so `max`
is always a finite double, held as the integer it is. -/
def score (d : Document) : Int :=
  d.chunk_ids.foldl (fun max id =>
    (digitRuns id.toJStr).foldl (fun max part =>
      match parseInt part with
      | JsNumber.finite n => if n > max then n else max
      | _ => max) max) 0

/-- The step `// Sorting`; `localeCompare` is `String.prototype.localeCompare` of the
platform. -/
def sortDocs (U : Unicode) (localeCompare : JStr → JStr → Int) (sortParam : JStr)
    (filtered : List Document) : List Document :=
  if (JVal.str sortParam).truthy then
    let sort := U.toLowerCase sortParam
    if sort = "name".toList then
      sortBy (fun a b => localeCompare (JVal.or a.doc_id (JVal.str [])).toJStr
        (JVal.or b.doc_id (JVal.str [])).toJStr) filtered
    else if sort = "desc_len".toList then
      sortBy (fun a b => len b - len a) filtered
    else if sort = "newest".toList then
      sortBy (fun a b => score b - score a) filtered
    else filtered
  else filtered

/-- The handler of `GET /api/docs`, where `docs` is the value that `loadDocs()`
returned. -/
def apiDocs (U : Unicode) (localeCompare : JStr → JStr → Int) (docs : List Document)
    (query : Query) : DocsResponse :=
  respond (sortDocs U localeCompare (paramString query.sort) (filterDocs U query docs))
    (parsePage query.page) (parsePageSize query.pageSize)

/-! ## `chat-widget.js` and `chat.js`: the link of a source -/

/-- The constant `slug` of `renderSources`, which the two files compute by the same
expression from the `doc_id` of a source. -/
def renderSourcesSlug (U : Unicode) (doc_id : JVal) : JStr :=
  match doc_id with
  | JVal.str s =>
    if (JVal.str s).truthy then
      stripEdgeHyphens
        (replaceRuns (· == '-') ['-'] false
          (replaceRuns isWhiteSpace ['-'] false
            (List.filter isSlugChar
              (List.filter (fun c => !isCombiningMark c)
                (U.nfd (U.toLowerCase s))))))
    else []
  | _ => []

/-! ## Vocabulary of the specification: sorting, skipped lines, separators -/

/-- A run of decimal digits read as an integer. -/
def runValue (run : JStr) : Int :=
  ((run.foldl (fun acc c => acc * 10 + (c.toNat - 48)) 0 : Nat) : Int)

/-- The greatest value of a run of digits of a chunk id, the runs read as integers, and 0
when there is none. -/
def maxRunValue (d : Document) : Int :=
  ((d.chunk_ids.flatMap (fun id => digitRuns id.toJStr)).map runValue).foldr max 0

/-- What a run of decimal digits counts for in the score: its value as a Number, that is
the nearest double, and 0 when this is `Infinity`. -/
def runNumber (run : JStr) : Int :=
  match roundToDouble (runValue run).toNat with
  | some v => (v : Int)
  | none => 0

/-- The recency score in words: the greatest Number value of a run of digits of a chunk
id, runs without a finite value left aside, and 0 when there is none. -/
def maxRunNumber (d : Document) : Int :=
  ((d.chunk_ids.flatMap (fun id => digitRuns id.toJStr)).map runNumber).foldr max 0

/-- A chunk id whose string form `String(id)` is what `toJStr` gives: anything but an
array or a number outside the safe integers (from 10^21 on a number is written with an
exponent). -/
def plainChunkId : JVal → Bool
  | JVal.num n => decide (n.natAbs < 2 ^ 53)
  | JVal.arr _ _ => false
  | _ => true

/-- The length that `desc_len` sorts by: of `text`, and of `text_preview` when `text` is
empty. -/
def descLen (d : Document) : Int :=
  if d.text ≠ [] then (d.text.length : Int) else (d.text_preview.length : Int)

/-- A line that the loader passes over: blank, not parseable, or without a usable key. -/
def Line.skipped : Line → Bool
  | Line.blank => true
  | Line.malformed => true
  | Line.parsed v => !v.isNullish && !(docKeyOf v).truthy

/-- A character that ends up as a hyphen of the slug: white space or a hyphen. -/
def isSeparator (c : Char) : Bool := isWhiteSpace c || c == '-'

/-- The number of pages that hold the `n` documents at `s` documents a page. -/
def pageCount (n s : Nat) : Nat := (n + s - 1) / s

/-! ## Sample inputs: sorting and the chat link -/

/-- A document with the given name, chunk ids and text. -/
def chunkDoc (name : String) (chunks : List JVal) (text : String) : Document where
  doc_id := JVal.str name.toList
  slug := name.toList
  source := []
  pages := []
  chunk_ids := chunks
  text := text.toList
  text_preview := text.toList.take 600
  image_url := JVal.null
  url := JVal.null
  iucn_status := JVal.null

/-- Four documents with the scores 7, 120, 7 and 0 and texts of 2, 1, 3 and 2
characters. -/
def chunkDocs : List Document :=
  [chunkDoc "a" [JVal.str "c7".toList, JVal.str "p3-5".toList] "aa",
   chunkDoc "b" [JVal.str "x120y9".toList] "b",
   chunkDoc "c" [JVal.num 7] "ccc",
   chunkDoc "d" [JVal.str "none".toList] "dd"]

/-- Two documents whose chunk ids hold 2^53 and 2^53 + 1, which are one double. -/
def roundedDocs : List Document :=
  [chunkDoc "d" [JVal.str "n9007199254740992".toList] "",
   chunkDoc "c" [JVal.str "n9007199254740993".toList] ""]

/-- Two documents: one with the chunk id 5, one whose chunk id is a run of 400 digits. -/
def overflowDocs : List Document :=
  [chunkDoc "a" [JVal.str "5".toList] "",
   chunkDoc "b" [JVal.str (List.replicate 400 '9')] ""]

/-- A corpus with the line `null` between two fragments. -/
def nullLines : List Line :=
  [objectLine 1 [("doc_id", JVal.str "A".toList)], Line.parsed JVal.null,
   objectLine 2 [("doc_id", JVal.str "B".toList)]]

/-! ## Lemmas -/

theorem mapGet_eq_none {m : DocMap} {k : JVal} : mapGet m k = none ↔ k ∉ m.map Prod.fst := by
  induction m with
  | nil => simp [mapGet]
  | cons kv rest ih =>
    obtain ⟨k1, e1⟩ := kv
    by_cases h : k1 = k
    · simp [mapGet, sameValueZero, h]
    · simp [mapGet, sameValueZero, h, ih, Ne.symm h]

theorem mapGet_map {keys : List JVal} {g : JVal → Entry} {k : JVal} (hk : k ∈ keys) :
    mapGet (keys.map (fun x => (x, g x))) k = some (g k) := by
  induction keys with
  | nil => simp at hk
  | cons a rest ih =>
    by_cases h : a = k
    · simp [mapGet, sameValueZero, h]
    · have : k ∈ rest := by
        rcases List.mem_cons.1 hk with h1 | h1
        · exact absurd h1.symm h
        · exact h1
      simp [mapGet, sameValueZero, h, ih this]

theorem mapPut_map {keys : List JVal} {g : JVal → Entry} {k : JVal} {e : Entry}
    (hnd : keys.Nodup) :
    mapPut (keys.map (fun x => (x, g x))) k e
      = keys.map (fun x => (x, if x = k then e else g x)) := by
  induction keys with
  | nil => simp [mapPut]
  | cons a rest ih =>
    have hnd2 := (List.nodup_cons.1 hnd)
    by_cases h : a = k
    · subst h
      simp only [List.map_cons, mapPut, sameValueZero, decide_True, if_true]
      congr 1
      apply List.map_congr_left
      intro x hx
      have : x ≠ a := fun hxa => hnd2.1 (hxa ▸ hx)
      simp [this]
    · simp [mapPut, sameValueZero, h, ih hnd2.2]

theorem firstEncounter_concat (ks : List JVal) (k : JVal) :
    firstEncounter (ks ++ [k]) = if k ∈ firstEncounter ks then firstEncounter ks else firstEncounter ks ++ [k] := by
  unfold firstEncounter
  rw [List.reverse_append, List.reverse_singleton, List.singleton_append]
  by_cases h : k ∈ ks.reverse
  · rw [List.dedup_cons_of_mem h]
    simp [h]
  · rw [List.dedup_cons_of_not_mem h]
    have : k ∉ ks := fun h2 => h (List.mem_reverse.2 h2)
    simp [this]

theorem mem_firstEncounter {ks : List JVal} {k : JVal} : k ∈ firstEncounter ks ↔ k ∈ ks := by
  simp [firstEncounter]

theorem nodup_firstEncounter (ks : List JVal) : (firstEncounter ks).Nodup := by
  unfold firstEncounter
  exact List.nodup_reverse.2 (List.nodup_dedup _)

section fields
variable (U : Unicode) (obj : JVal) (e : Entry)

@[simp] theorem addSource_doc_id : (addSource obj e).doc_id = e.doc_id := by
  unfold addSource; split <;> rfl
@[simp] theorem addSource_pagesSet : (addSource obj e).pagesSet = e.pagesSet := by
  unfold addSource; split <;> rfl
@[simp] theorem addSource_textParts : (addSource obj e).textParts = e.textParts := by
  unfold addSource; split <;> rfl
@[simp] theorem addSource_iucn_status : (addSource obj e).iucn_status = e.iucn_status := by
  unfold addSource; split <;> rfl
@[simp] theorem addSource_image_url : (addSource obj e).image_url = e.image_url := by
  unfold addSource; split <;> rfl
@[simp] theorem addSource_url : (addSource obj e).url = e.url := by
  unfold addSource; split <;> rfl
@[simp] theorem addSource_chunkIds : (addSource obj e).chunkIds = e.chunkIds := by
  unfold addSource; split <;> rfl

@[simp] theorem addPage_doc_id : (addPage obj e).doc_id = e.doc_id := by
  unfold addPage; split <;> rfl
@[simp] theorem addPage_sourceSet : (addPage obj e).sourceSet = e.sourceSet := by
  unfold addPage; split <;> rfl
@[simp] theorem addPage_textParts : (addPage obj e).textParts = e.textParts := by
  unfold addPage; split <;> rfl
@[simp] theorem addPage_iucn_status : (addPage obj e).iucn_status = e.iucn_status := by
  unfold addPage; split <;> rfl
@[simp] theorem addPage_image_url : (addPage obj e).image_url = e.image_url := by
  unfold addPage; split <;> rfl
@[simp] theorem addPage_url : (addPage obj e).url = e.url := by
  unfold addPage; split <;> rfl
@[simp] theorem addPage_chunkIds : (addPage obj e).chunkIds = e.chunkIds := by
  unfold addPage; split <;> rfl

@[simp] theorem addChunkId_doc_id : (addChunkId obj e).doc_id = e.doc_id := by
  unfold addChunkId; split <;> rfl
@[simp] theorem addChunkId_sourceSet : (addChunkId obj e).sourceSet = e.sourceSet := by
  unfold addChunkId; split <;> rfl
@[simp] theorem addChunkId_pagesSet : (addChunkId obj e).pagesSet = e.pagesSet := by
  unfold addChunkId; split <;> rfl
@[simp] theorem addChunkId_textParts : (addChunkId obj e).textParts = e.textParts := by
  unfold addChunkId; split <;> rfl
@[simp] theorem addChunkId_iucn_status : (addChunkId obj e).iucn_status = e.iucn_status := by
  unfold addChunkId; split <;> rfl
@[simp] theorem addChunkId_image_url : (addChunkId obj e).image_url = e.image_url := by
  unfold addChunkId; split <;> rfl
@[simp] theorem addChunkId_url : (addChunkId obj e).url = e.url := by
  unfold addChunkId; split <;> rfl

@[simp] theorem addText_doc_id : (addText obj e).doc_id = e.doc_id := by
  unfold addText; repeat' split
  all_goals rfl
@[simp] theorem addText_sourceSet : (addText obj e).sourceSet = e.sourceSet := by
  unfold addText; repeat' split
  all_goals rfl
@[simp] theorem addText_pagesSet : (addText obj e).pagesSet = e.pagesSet := by
  unfold addText; repeat' split
  all_goals rfl
@[simp] theorem addText_chunkIds : (addText obj e).chunkIds = e.chunkIds := by
  unfold addText; repeat' split
  all_goals rfl
@[simp] theorem addText_iucn_status : (addText obj e).iucn_status = e.iucn_status := by
  unfold addText; repeat' split
  all_goals rfl
@[simp] theorem addText_image_url : (addText obj e).image_url = e.image_url := by
  unfold addText; repeat' split
  all_goals rfl
@[simp] theorem addText_url : (addText obj e).url = e.url := by
  unfold addText; repeat' split
  all_goals rfl

@[simp] theorem fillImageUrl_doc_id : (fillImageUrl obj e).doc_id = e.doc_id := by
  unfold fillImageUrl; split <;> rfl
@[simp] theorem fillImageUrl_sourceSet : (fillImageUrl obj e).sourceSet = e.sourceSet := by
  unfold fillImageUrl; split <;> rfl
@[simp] theorem fillImageUrl_pagesSet : (fillImageUrl obj e).pagesSet = e.pagesSet := by
  unfold fillImageUrl; split <;> rfl
@[simp] theorem fillImageUrl_chunkIds : (fillImageUrl obj e).chunkIds = e.chunkIds := by
  unfold fillImageUrl; split <;> rfl
@[simp] theorem fillImageUrl_textParts : (fillImageUrl obj e).textParts = e.textParts := by
  unfold fillImageUrl; split <;> rfl
@[simp] theorem fillImageUrl_iucn_status :
    (fillImageUrl obj e).iucn_status = e.iucn_status := by
  unfold fillImageUrl; split <;> rfl
@[simp] theorem fillImageUrl_url : (fillImageUrl obj e).url = e.url := by
  unfold fillImageUrl; split <;> rfl

@[simp] theorem fillUrl_doc_id : (fillUrl obj e).doc_id = e.doc_id := by
  unfold fillUrl; split <;> rfl
@[simp] theorem fillUrl_sourceSet : (fillUrl obj e).sourceSet = e.sourceSet := by
  unfold fillUrl; split <;> rfl
@[simp] theorem fillUrl_pagesSet : (fillUrl obj e).pagesSet = e.pagesSet := by
  unfold fillUrl; split <;> rfl
@[simp] theorem fillUrl_chunkIds : (fillUrl obj e).chunkIds = e.chunkIds := by
  unfold fillUrl; split <;> rfl
@[simp] theorem fillUrl_textParts : (fillUrl obj e).textParts = e.textParts := by
  unfold fillUrl; split <;> rfl
@[simp] theorem fillUrl_iucn_status : (fillUrl obj e).iucn_status = e.iucn_status := by
  unfold fillUrl; split <;> rfl
@[simp] theorem fillUrl_image_url : (fillUrl obj e).image_url = e.image_url := by
  unfold fillUrl; split <;> rfl

@[simp] theorem fillIucnStatus_doc_id : (fillIucnStatus U obj e).doc_id = e.doc_id := by
  unfold fillIucnStatus; simp only []; split <;> rfl
@[simp] theorem fillIucnStatus_sourceSet :
    (fillIucnStatus U obj e).sourceSet = e.sourceSet := by
  unfold fillIucnStatus; simp only []; split <;> rfl
@[simp] theorem fillIucnStatus_pagesSet :
    (fillIucnStatus U obj e).pagesSet = e.pagesSet := by
  unfold fillIucnStatus; simp only []; split <;> rfl
@[simp] theorem fillIucnStatus_chunkIds :
    (fillIucnStatus U obj e).chunkIds = e.chunkIds := by
  unfold fillIucnStatus; simp only []; split <;> rfl
@[simp] theorem fillIucnStatus_textParts :
    (fillIucnStatus U obj e).textParts = e.textParts := by
  unfold fillIucnStatus; simp only []; split <;> rfl
@[simp] theorem fillIucnStatus_image_url :
    (fillIucnStatus U obj e).image_url = e.image_url := by
  unfold fillIucnStatus; simp only []; split <;> rfl
@[simp] theorem fillIucnStatus_url : (fillIucnStatus U obj e).url = e.url := by
  unfold fillIucnStatus; simp only []; split <;> rfl

theorem updateEntry_doc_id : (updateEntry U e obj).doc_id = e.doc_id := by
  simp [updateEntry]

theorem updateEntry_sourceSet :
    (updateEntry U e obj).sourceSet
      = if (obj.get "source").truthy then setAdd e.sourceSet (obj.get "source")
        else e.sourceSet := by
  simp only [updateEntry, fillIucnStatus_sourceSet, fillUrl_sourceSet, fillImageUrl_sourceSet,
    addText_sourceSet, addChunkId_sourceSet, addPage_sourceSet]
  unfold addSource; split <;> rfl

theorem updateEntry_pagesSet :
    (updateEntry U e obj).pagesSet
      = if (obj.get "page").isNullish then e.pagesSet
        else setAdd e.pagesSet (obj.get "page") := by
  simp only [updateEntry, fillIucnStatus_pagesSet, fillUrl_pagesSet, fillImageUrl_pagesSet,
    addText_pagesSet, addChunkId_pagesSet]
  unfold addPage
  cases h : (obj.get "page").isNullish <;> simp

theorem updateEntry_textParts :
    (updateEntry U e obj).textParts = e.textParts ++ (textPartOf obj).toList := by
  simp only [updateEntry, fillIucnStatus_textParts, fillUrl_textParts, fillImageUrl_textParts]
  unfold addText textPartOf
  split
  · split <;> simp_all
  · simp

theorem updateEntry_iucn_status :
    (updateEntry U e obj).iucn_status
      = if !e.iucn_status.truthy && (normalizeIucnField U (iucnFieldOf obj)).truthy
        then normalizeIucnField U (iucnFieldOf obj) else e.iucn_status := by
  unfold updateEntry fillIucnStatus
  simp only [fillUrl_iucn_status, fillImageUrl_iucn_status, addText_iucn_status,
    addChunkId_iucn_status, addPage_iucn_status, addSource_iucn_status]
  split <;> simp

theorem updateEntry_image_url :
    (updateEntry U e obj).image_url
      = if !e.image_url.truthy && (obj.get "image_url").truthy then obj.get "image_url"
        else e.image_url := by
  simp only [updateEntry, fillIucnStatus_image_url, fillUrl_image_url]
  unfold fillImageUrl
  simp only [addText_image_url, addChunkId_image_url, addPage_image_url, addSource_image_url]
  split <;> simp

theorem updateEntry_url :
    (updateEntry U e obj).url
      = if !e.url.truthy && (obj.get "url").truthy then obj.get "url" else e.url := by
  simp only [updateEntry, fillIucnStatus_url]
  unfold fillUrl
  simp only [fillImageUrl_url, addText_url, addChunkId_url, addPage_url, addSource_url]
  split <;> simp

theorem updateEntry_chunkIds :
    (updateEntry U e obj).chunkIds
      = if (obj.get "id").truthy then e.chunkIds ++ [obj.get "id"] else e.chunkIds := by
  simp only [updateEntry, fillIucnStatus_chunkIds, fillUrl_chunkIds, fillImageUrl_chunkIds,
    addText_chunkIds]
  unfold addChunkId
  simp only [addPage_chunkIds, addSource_chunkIds]
  split <;> simp

end fields

theorem entry_ext {a b : Entry} (h1 : a.doc_id = b.doc_id) (h2 : a.sourceSet = b.sourceSet)
    (h3 : a.pagesSet = b.pagesSet) (h4 : a.chunkIds = b.chunkIds)
    (h5 : a.textParts = b.textParts) (h6 : a.image_url = b.image_url) (h7 : a.url = b.url)
    (h8 : a.iucn_status = b.iucn_status) : a = b := by
  cases a; cases b; simp_all

theorem updateEntry_newEntry (U : Unicode) (k obj : JVal) :
    updateEntry U (newEntry k obj) obj = updateEntry U (blankEntry k) obj := by
  apply entry_ext
  · simp [updateEntry_doc_id, newEntry, blankEntry]
  · simp [updateEntry_sourceSet, newEntry, blankEntry]
  · simp [updateEntry_pagesSet, newEntry, blankEntry]
  · simp [updateEntry_chunkIds, newEntry, blankEntry]
  · simp [updateEntry_textParts, newEntry, blankEntry]
  · simp only [updateEntry_image_url, newEntry, blankEntry, JVal.or]
    have hu : (JVal.undefined.get "image_url").truthy = false := rfl
    have hn : JVal.null.truthy = false := rfl
    generalize obj.get "image_url" = v
    cases h : v.truthy <;> simp [h, hu, hn]
  · simp only [updateEntry_url, newEntry, blankEntry, JVal.or]
    have hu : (JVal.undefined.get "url").truthy = false := rfl
    have hn : JVal.null.truthy = false := rfl
    generalize obj.get "url" = v
    cases h : v.truthy <;> simp [h, hu, hn]
  · simp [updateEntry_iucn_status, newEntry, blankEntry]

theorem sharing_concat (k : JVal) (fs : List JVal) (x : JVal) :
    sharing k (fs ++ [x]) = if docKeyOf x = k then sharing k fs ++ [x] else sharing k fs := by
  unfold sharing
  rw [List.filter_append]
  by_cases h : docKeyOf x = k <;> simp [h]

theorem usableKeys_concat (fs : List JVal) (x : JVal) :
    usableKeys (fs ++ [x])
      = if (docKeyOf x).truthy then usableKeys fs ++ [docKeyOf x] else usableKeys fs := by
  unfold usableKeys
  rw [List.map_append, List.filter_append]
  cases h : (docKeyOf x).truthy <;> simp [h]

theorem truthy_of_mem_usableKeys {fs : List JVal} {k : JVal} (h : k ∈ usableKeys fs) :
    k.truthy = true := by
  unfold usableKeys at h
  exact (List.mem_filter.1 h).2

theorem mem_usableKeys {fs : List JVal} {k : JVal} :
    k ∈ usableKeys fs ↔ ∃ f ∈ fs, docKeyOf f = k ∧ k.truthy = true := by
  unfold usableKeys
  simp only [List.mem_filter, List.mem_map]
  constructor
  · rintro ⟨⟨f, hf, rfl⟩, ht⟩
    exact ⟨f, hf, rfl, ht⟩
  · rintro ⟨f, hf, rfl, ht⟩
    exact ⟨⟨f, hf, rfl⟩, ht⟩

theorem sharing_eq_nil {fs : List JVal} {k : JVal} (ht : k.truthy = true)
    (h : k ∉ usableKeys fs) : sharing k fs = [] := by
  unfold sharing
  rw [List.filter_eq_nil_iff]
  intro f hf hk
  exact h (mem_usableKeys.2 ⟨f, hf, of_decide_eq_true hk, ht⟩)

/-- The loop groups: after the fragments `fs`, the map holds the keys in first-encounter
order, each with the entry built by the fragments sharing it. -/
theorem foldl_addFragment (U : Unicode) (fs : List JVal) :
    fs.foldl (addFragment U) []
      = (firstEncounter (usableKeys fs)).map (fun k => (k, groupEntry U k fs)) := by
  induction fs using List.reverseRecOn with
  | nil => simp [usableKeys, firstEncounter]
  | append_singleton fs x ih =>
    rw [List.foldl_append, List.foldl_cons, List.foldl_nil, ih, usableKeys_concat]
    unfold addFragment
    simp only []
    cases ht : (docKeyOf x).truthy with
    | false =>
      simp only [Bool.not_false, if_true, Bool.false_eq_true, if_false]
      apply List.map_congr_left
      intro k hk
      have hkt := truthy_of_mem_usableKeys (mem_firstEncounter.1 hk)
      have hne : docKeyOf x ≠ k := by
        intro h; rw [h] at ht; rw [ht] at hkt; exact Bool.noConfusion hkt
      simp [groupEntry, sharing_concat, hne]
    | true =>
      simp only [Bool.not_true, Bool.false_eq_true, if_false, if_true]
      rw [firstEncounter_concat]
      by_cases hmem : docKeyOf x ∈ firstEncounter (usableKeys fs)
      · rw [mapGet_map hmem, if_pos hmem]
        simp only []
        rw [mapPut_map (nodup_firstEncounter _)]
        apply List.map_congr_left
        intro k hk
        by_cases hkx : k = docKeyOf x
        · subst hkx
          simp [groupEntry, sharing_concat, List.foldl_append]
        · simp [groupEntry, sharing_concat, hkx, Ne.symm hkx]
      · have hnone : mapGet ((firstEncounter (usableKeys fs)).map
            (fun k => (k, groupEntry U k fs))) (docKeyOf x) = none := by
          rw [mapGet_eq_none]
          simpa [List.map_map, Function.comp] using hmem
        rw [hnone, if_neg hmem]
        simp only [List.map_append, List.map_cons, List.map_nil]
        congr 1
        · apply List.map_congr_left
          intro k hk
          have hkx : docKeyOf x ≠ k := fun h => hmem (h ▸ hk)
          simp [groupEntry, sharing_concat, hkx]
        · have hnil : sharing (docKeyOf x) fs = [] :=
            sharing_eq_nil ht (fun h => hmem (mem_firstEncounter.2 h))
          simp [groupEntry, sharing_concat, hnil, updateEntry_newEntry]

theorem groupLines_eq (U : Unicode) (lines : List Line) (map : DocMap)
    (hok : ∀ l ∈ lines, l.throws = false) :
    groupLines U map lines = Except.ok ((fragmentsOf lines).foldl (addFragment U) map) := by
  induction lines generalizing map with
  | nil => rfl
  | cons l rest ih =>
    have hrest : ∀ l ∈ rest, l.throws = false := fun l hl => hok l (List.mem_cons_of_mem _ hl)
    cases l with
    | blank => simpa [groupLines, fragmentsOf] using ih map hrest
    | malformed => simpa [groupLines, fragmentsOf] using ih map hrest
    | parsed v =>
      have hv : v.isNullish = false := hok (Line.parsed v) (List.mem_cons_self _ _)
      simp only [groupLines, fragmentsOf, hv, Bool.false_eq_true, if_false, List.foldl_cons]
      exact ih _ hrest

theorem loadRows_eq (U : Unicode) (lines : List Line)
    (hok : ∀ l ∈ lines, l.throws = false) :
    loadRows U lines = Except.ok ((firstEncounter (usableKeys (fragmentsOf lines))).map
      (fun k => toRow U (groupEntry U k (fragmentsOf lines)))) := by
  unfold loadRows
  rw [groupLines_eq U lines [] hok, foldl_addFragment]
  simp [List.map_map, Function.comp]

/-- On a cold cache `loadDocs` returns the rows of the first candidate file that exists,
and caches them. -/
theorem loadDocs_cold (U : Unicode) (candidates : List (Option (List Line)))
    (lines : List Line) (h : findFile candidates = some lines) :
    loadDocs U none candidates = match loadRows U lines with
      | Except.ok rows => Except.ok (rows, some rows)
      | Except.error err => Except.error err := by
  simp only [loadDocs, h]

theorem foldl_updateEntry_doc_id (U : Unicode) (fs : List JVal) (e : Entry) :
    (fs.foldl (updateEntry U) e).doc_id = e.doc_id := by
  induction fs generalizing e with
  | nil => rfl
  | cons f rest ih => rw [List.foldl_cons, ih, updateEntry_doc_id]

theorem groupEntry_doc_id (U : Unicode) (k : JVal) (fs : List JVal) :
    (groupEntry U k fs).doc_id = k := by
  unfold groupEntry
  rw [foldl_updateEntry_doc_id]
  rfl

theorem toRow_doc_id (U : Unicode) (e : Entry) : (toRow U e).doc_id = e.doc_id := rfl

theorem map_doc_id_rows (U : Unicode) (ks : List JVal) (fs : List JVal) :
    (ks.map (fun k => toRow U (groupEntry U k fs))).map Document.doc_id = ks := by
  rw [List.map_map]
  conv_rhs => rw [← List.map_id ks]
  apply List.map_congr_left
  intro k _
  simp [Function.comp, toRow_doc_id, groupEntry_doc_id]

theorem pairwise_firstEncounter (ks : List JVal) :
    (firstEncounter ks).Pairwise (fun a b => ks.indexOf a < ks.indexOf b) := by
  induction ks using List.reverseRecOn with
  | nil => simp [firstEncounter]
  | append_singleton ks k ih =>
    have hstep : (firstEncounter ks).Pairwise
        (fun a b => (ks ++ [k]).indexOf a < (ks ++ [k]).indexOf b) := by
      apply List.Pairwise.imp_of_mem _ ih
      intro a b ha hb hab
      rw [List.indexOf_append_of_mem (mem_firstEncounter.1 ha),
        List.indexOf_append_of_mem (mem_firstEncounter.1 hb)]
      exact hab
    rw [firstEncounter_concat]
    by_cases hk : k ∈ firstEncounter ks
    · rw [if_pos hk]; exact hstep
    · rw [if_neg hk, List.pairwise_append]
      refine ⟨hstep, List.pairwise_singleton _ _, ?_⟩
      intro a ha b hb
      rw [List.mem_singleton] at hb
      subst hb
      have hk2 : b ∉ ks := fun h => hk (mem_firstEncounter.2 h)
      rw [List.indexOf_append_of_mem (mem_firstEncounter.1 ha),
        List.indexOf_append_of_not_mem hk2]
      have := List.indexOf_lt_length.2 (mem_firstEncounter.1 ha)
      omega

/-- Every document of the result is the row of the entry grouped under its own key. -/
theorem mem_rows {U : Unicode} {fs : List JVal} {d : Document}
    (hd : d ∈ (firstEncounter (usableKeys fs)).map (fun k => toRow U (groupEntry U k fs))) :
    d.doc_id ∈ usableKeys fs ∧ d = toRow U (groupEntry U d.doc_id fs) := by
  obtain ⟨k, hk, rfl⟩ := List.mem_map.1 hd
  have hid : (toRow U (groupEntry U k fs)).doc_id = k := by
    rw [toRow_doc_id, groupEntry_doc_id]
  rw [hid]
  exact ⟨mem_firstEncounter.1 hk, rfl⟩

theorem join_eq_intercalate (sep : JStr) (parts : List JStr) :
    join sep parts = sep.intercalate parts := by
  induction parts with
  | nil => rfl
  | cons p rest ih =>
    cases rest with
    | nil => simp [join, List.intercalate]
    | cons q rest2 =>
      rw [join, ih]
      simp [List.intercalate, List.intersperse]

theorem foldl_updateEntry_textParts (U : Unicode) (fs : List JVal) (e : Entry) :
    (fs.foldl (updateEntry U) e).textParts = e.textParts ++ fs.filterMap textPartOf := by
  induction fs generalizing e with
  | nil => simp
  | cons f rest ih =>
    rw [List.foldl_cons, ih, updateEntry_textParts]
    cases h : textPartOf f <;> simp [List.filterMap_cons, h]

theorem mem_setAdd {s : List JVal} {v x : JVal} : x ∈ setAdd s v ↔ x ∈ s ∨ x = v := by
  unfold setAdd
  split
  · rename_i h
    rw [List.any_eq_true] at h
    obtain ⟨y, hy, hyv⟩ := h
    have : y = v := of_decide_eq_true hyv
    subst this
    constructor
    · exact Or.inl
    · rintro (h | h)
      · exact h
      · rw [h]; exact hy
  · simp

theorem nodup_setAdd {s : List JVal} {v : JVal} (h : s.Nodup) : (setAdd s v).Nodup := by
  unfold setAdd
  split
  · exact h
  · rename_i hn
    rw [List.nodup_append]
    refine ⟨h, List.nodup_singleton v, ?_⟩
    intro a ha hb
    rw [List.mem_singleton] at hb
    subst hb
    apply hn
    rw [List.any_eq_true]
    exact ⟨a, ha, by simp [sameValueZero]⟩

theorem foldl_updateEntry_sourceSet_nodup (U : Unicode) (fs : List JVal) (e : Entry)
    (h : e.sourceSet.Nodup) : (fs.foldl (updateEntry U) e).sourceSet.Nodup := by
  induction fs generalizing e with
  | nil => exact h
  | cons f rest ih =>
    rw [List.foldl_cons]
    apply ih
    rw [updateEntry_sourceSet]
    split
    · exact nodup_setAdd h
    · exact h

theorem mem_foldl_updateEntry_sourceSet (U : Unicode) (fs : List JVal) (e : Entry) (v : JVal) :
    v ∈ (fs.foldl (updateEntry U) e).sourceSet
      ↔ v ∈ e.sourceSet ∨ ∃ f ∈ fs, f.get "source" = v ∧ v.truthy = true := by
  induction fs generalizing e with
  | nil => simp
  | cons f rest ih =>
    rw [List.foldl_cons, ih, updateEntry_sourceSet]
    by_cases ht : (f.get "source").truthy = true
    · rw [if_pos ht, mem_setAdd]
      constructor
      · rintro ((h | h) | ⟨g, hg, h⟩)
        · exact Or.inl h
        · exact Or.inr ⟨f, List.mem_cons_self _ _, h.symm, h ▸ ht⟩
        · exact Or.inr ⟨g, List.mem_cons_of_mem _ hg, h⟩
      · rintro (h | ⟨g, hg, h⟩)
        · exact Or.inl (Or.inl h)
        · rcases List.mem_cons.1 hg with rfl | hg
          · exact Or.inl (Or.inr h.1.symm)
          · exact Or.inr ⟨g, hg, h⟩
    · rw [if_neg ht]
      constructor
      · rintro (h | ⟨g, hg, h⟩)
        · exact Or.inl h
        · exact Or.inr ⟨g, List.mem_cons_of_mem _ hg, h⟩
      · rintro (h | ⟨g, hg, h⟩)
        · exact Or.inl h
        · rcases List.mem_cons.1 hg with rfl | hg
          · exact absurd (h.1 ▸ h.2) ht
          · exact Or.inr ⟨g, hg, h⟩

theorem foldl_updateEntry_pagesSet_nodup (U : Unicode) (fs : List JVal) (e : Entry)
    (h : e.pagesSet.Nodup) : (fs.foldl (updateEntry U) e).pagesSet.Nodup := by
  induction fs generalizing e with
  | nil => exact h
  | cons f rest ih =>
    rw [List.foldl_cons]
    apply ih
    rw [updateEntry_pagesSet]
    split
    · exact h
    · exact nodup_setAdd h

theorem mem_foldl_updateEntry_pagesSet (U : Unicode) (fs : List JVal) (e : Entry) (v : JVal) :
    v ∈ (fs.foldl (updateEntry U) e).pagesSet
      ↔ v ∈ e.pagesSet ∨ ∃ f ∈ fs, f.get "page" = v ∧ v.isNullish = false := by
  induction fs generalizing e with
  | nil => simp
  | cons f rest ih =>
    rw [List.foldl_cons, ih, updateEntry_pagesSet]
    by_cases ht : (f.get "page").isNullish = true
    · rw [if_pos ht]
      constructor
      · rintro (h | ⟨g, hg, h⟩)
        · exact Or.inl h
        · exact Or.inr ⟨g, List.mem_cons_of_mem _ hg, h⟩
      · rintro (h | ⟨g, hg, h⟩)
        · exact Or.inl h
        · rcases List.mem_cons.1 hg with rfl | hg
          · rw [h.1, h.2] at ht; exact Bool.noConfusion ht
          · exact Or.inr ⟨g, hg, h⟩
    · rw [if_neg ht, mem_setAdd]
      have ht2 : (f.get "page").isNullish = false := by simpa using ht
      constructor
      · rintro ((h | h) | ⟨g, hg, h⟩)
        · exact Or.inl h
        · exact Or.inr ⟨f, List.mem_cons_self _ _, h.symm, h ▸ ht2⟩
        · exact Or.inr ⟨g, List.mem_cons_of_mem _ hg, h⟩
      · rintro (h | ⟨g, hg, h⟩)
        · exact Or.inl (Or.inl h)
        · rcases List.mem_cons.1 hg with rfl | hg
          · exact Or.inl (Or.inr h.1.symm)
          · exact Or.inr ⟨g, hg, h⟩

theorem mem_sharing {k f : JVal} {fs : List JVal} :
    f ∈ sharing k fs ↔ f ∈ fs ∧ docKeyOf f = k := by
  simp [sharing]

theorem eq_map_num_of_forall {l : List JVal} (h : ∀ v ∈ l, ∃ n, v = JVal.num n) :
    ∃ ns : List Int, l = ns.map JVal.num := by
  induction l with
  | nil => exact ⟨[], rfl⟩
  | cons v rest ih =>
    obtain ⟨n, hn⟩ := h v (List.mem_cons_self _ _)
    obtain ⟨ns, hns⟩ := ih (fun w hw => h w (List.mem_cons_of_mem _ hw))
    exact ⟨n :: ns, by rw [hn, hns]; rfl⟩

theorem sortPages_nums (U : Unicode) (ns : List Int) :
    sortPages U (ns.map JVal.num) = (ns.insertionSort (· ≤ ·)).map JVal.num := by
  unfold sortPages
  symm
  apply List.map_insertionSort
  intro a _ b _
  simp only [pageCompare, toNumber]
  omega

theorem or_assoc (a b c : JVal) : JVal.or (JVal.or a b) c = JVal.or a (JVal.or b c) := by
  unfold JVal.or
  cases h : a.truthy <;> simp [h]

theorem foldr_or_eq (l : List JVal) (z : JVal) :
    l.foldr JVal.or z = match l.find? JVal.truthy with
      | some v => v
      | none => z := by
  induction l with
  | nil => rfl
  | cons a rest ih =>
    rw [List.foldr_cons, ih]
    unfold JVal.or
    cases h : a.truthy <;> simp [List.find?, h]

theorem iucnFieldOf_eq (f : JVal) :
    iucnFieldOf f = match (iucnAliases.map f.get).find? JVal.truthy with
      | some v => v
      | none => JVal.null := by
  rw [← foldr_or_eq]
  simp only [iucnFieldOf, iucnAliases, List.map, List.foldr, or_assoc]

theorem lookup_iucnMap (v : JStr) :
    iucnMap.lookup v = if v ∈ statuses then some v else none := by
  have hmap : iucnMap = statuses.map (fun c => (c, c)) := by decide
  rw [hmap]
  generalize statuses = l
  induction l with
  | nil => simp [List.lookup]
  | cons c rest ih =>
    by_cases h : v = c
    · subst h; simp [List.lookup]
    · have h2 : (v == c) = false := by simpa using h
      simp [List.lookup, h2, ih, h]

theorem truthy_str_of_mem_statuses {c : JStr} (h : c ∈ statuses) :
    (JVal.str c).truthy = true := by
  have : ∀ x ∈ statuses, (JVal.str x).truthy = true := by decide
  exact this c h

theorem isNullish_of_truthy {v : JVal} (h : v.truthy = true) : v.isNullish = false := by
  cases v <;> simp_all [JVal.truthy, JVal.isNullish]

theorem normalizeIucnField_iucnFieldOf (U : Unicode) (f : JVal) :
    normalizeIucnField U (iucnFieldOf f) = match explicitCode U f with
      | some c => JVal.str c
      | none => JVal.null := by
  rw [iucnFieldOf_eq]
  unfold explicitCode
  cases hfind : (iucnAliases.map f.get).find? JVal.truthy with
  | none => simp [normalizeIucnField, JVal.isNullish]
  | some v =>
    have hv : v.truthy = true := by simpa using List.find?_some hfind
    simp only [normalizeIucnField, isNullish_of_truthy hv, Bool.false_eq_true, if_false,
      lookup_iucnMap]
    by_cases hmem : U.toUpperCase (trim v.toJStr) ∈ statuses
    · simp only [if_pos hmem, JVal.or, truthy_str_of_mem_statuses hmem, if_true]
    · simp only [if_neg hmem]

theorem explicitCode_mem_statuses {U : Unicode} {f : JVal} {c : JStr}
    (h : explicitCode U f = some c) : c ∈ statuses := by
  unfold explicitCode at h
  split at h
  · split at h
    · rename_i hmem
      cases h
      exact hmem
    · cases h
  · cases h

theorem truthy_normalizeIucnField (U : Unicode) (f : JVal) :
    (normalizeIucnField U (iucnFieldOf f)).truthy = (explicitCode U f).isSome := by
  rw [normalizeIucnField_iucnFieldOf]
  cases h : explicitCode U f with
  | none => rfl
  | some c => simpa using truthy_str_of_mem_statuses (explicitCode_mem_statuses h)

theorem foldl_updateEntry_iucn_status (U : Unicode) (fs : List JVal) (e : Entry)
    (he : e.iucn_status = JVal.null) :
    (fs.foldl (updateEntry U) e).iucn_status
      = match fs.find? (fun f => (explicitCode U f).isSome) with
        | some f => normalizeIucnField U (iucnFieldOf f)
        | none => JVal.null := by
  induction fs generalizing e with
  | nil => simpa using he
  | cons f rest ih =>
    rw [List.foldl_cons]
    have hupd := updateEntry_iucn_status U f e
    rw [he, truthy_normalizeIucnField] at hupd
    cases hsome : (explicitCode U f).isSome with
    | false =>
      rw [hsome] at hupd
      rw [ih _ (by simpa using hupd)]
      simp [List.find?, hsome]
    | true =>
      rw [hsome] at hupd
      have hst : (updateEntry U e f).iucn_status = normalizeIucnField U (iucnFieldOf f) := by
        simpa [JVal.truthy] using hupd
      have hstable : ∀ (l : List JVal) (e1 : Entry), e1.iucn_status.truthy = true →
          (l.foldl (updateEntry U) e1).iucn_status = e1.iucn_status := by
        intro l
        induction l with
        | nil => intro e1 _; rfl
        | cons g l2 ih2 =>
          intro e1 h1
          have h2 : (updateEntry U e1 g).iucn_status = e1.iucn_status := by
            rw [updateEntry_iucn_status]; simp [h1]
          rw [List.foldl_cons, ih2 _ (by rw [h2]; exact h1), h2]
      rw [hstable _ _ (by rw [hst, truthy_normalizeIucnField]; exact hsome), hst]
      simp [List.find?, hsome]

theorem extractIucnStatus_cases (U : Unicode) (text : JStr) :
    extractIucnStatus U text = JVal.null
      ∨ ∃ c ∈ statuses, extractIucnStatus U text = JVal.str c := by
  unfold extractIucnStatus
  simp only []
  split
  · exact Or.inl rfl
  · split
    · rename_i code hcode
      right
      refine ⟨code, ?_, rfl⟩
      split at hcode
      · exact List.mem_of_find?_eq_some hcode
      · cases hcode
    · split
      · rename_i code hcode
        exact Or.inr ⟨code, List.mem_of_find?_eq_some hcode, rfl⟩
      · exact Or.inl rfl

theorem or_null_extract (U : Unicode) (text : JStr) :
    JVal.or (JVal.or JVal.null (extractIucnStatus U text)) JVal.null
      = extractIucnStatus U text := by
  rcases extractIucnStatus_cases U text with h | ⟨c, hc, h⟩
  · rw [h]; rfl
  · rw [h]
    have ht := truthy_str_of_mem_statuses hc
    have hn : JVal.null.truthy = false := rfl
    simp only [JVal.or, hn, ht, Bool.false_eq_true, if_false, if_true]

theorem groupEntry_iucn_status (U : Unicode) (k : JVal) (fs : List JVal) :
    (groupEntry U k fs).iucn_status
      = match (sharing k fs).find? (fun f => (explicitCode U f).isSome) with
        | some f => normalizeIucnField U (iucnFieldOf f)
        | none => JVal.null := by
  unfold groupEntry
  exact foldl_updateEntry_iucn_status U _ _ rfl

theorem toRow_iucn_status (U : Unicode) (e : Entry) :
    (toRow U e).iucn_status
      = JVal.or (JVal.or e.iucn_status (extractIucnStatus U (toRow U e).text)) JVal.null := rfl

theorem groupLines_skip (U : Unicode) (f : JVal) (hf : f.isNullish = false)
    (hkey : (docKeyOf f).truthy = false) (before after : List Line) (map : DocMap) :
    groupLines U map (before ++ Line.parsed f :: after)
      = groupLines U map (before ++ after) := by
  induction before generalizing map with
  | nil =>
    simp only [List.nil_append, groupLines, hf, Bool.false_eq_true, if_false]
    simp [addFragment, hkey]
  | cons l rest ih =>
    cases l with
    | blank => simpa [groupLines] using ih map
    | malformed => simpa [groupLines] using ih map
    | parsed v =>
      simp only [List.cons_append, groupLines]
      split
      · rfl
      · exact ih _

theorem docKeyOf_find (f : JVal) :
    (∀ k, (keyFields f).find? JVal.truthy = some k → docKeyOf f = k ∧ k.truthy = true) ∧
    ((keyFields f).find? JVal.truthy = none → (docKeyOf f).truthy = false) := by
  unfold keyFields docKeyOf JVal.or
  cases h1 : (f.get "doc_id").truthy <;> cases h2 : (f.get "title").truthy <;>
    cases h3 : (f.get "id").truthy <;> cases h4 : (f.get "url").truthy <;>
    simp [List.find?, h1, h2, h3, h4]

theorem letterAt_cons_zero (c : Char) (t : JStr) : letterAt (c :: t) 0 = isAZ c := by
  simp [letterAt]

theorem letterAt_cons_succ (c : Char) (t : JStr) (i : Nat) :
    letterAt (c :: t) (i + 1) = letterAt t i := by
  simp [letterAt]

theorem letterAt_append_right (pre t : JStr) (k : Nat) :
    letterAt (pre ++ t) (pre.length + k) = letterAt t k := by
  induction pre with
  | nil => simp
  | cons c rest ih =>
    rw [List.cons_append, List.length_cons, Nat.add_right_comm, letterAt_cons_succ, ih]

theorem letterAt_drop (s : JStr) (a k : Nat) : letterAt (s.drop a) k = letterAt s (a + k) := by
  simp [letterAt, List.getElem?_drop]

theorem letterAt_take (s : JStr) (m k : Nat) :
    letterAt (s.take m) k = (decide (k < m) && letterAt s k) := by
  by_cases h : k < m
  · simp [letterAt, List.getElem?_take_of_lt h, h]
  · have : (s.take m).get? k = none := by
      rw [List.get?_eq_none]
      exact Nat.le_trans (List.length_take_le _ _) (Nat.le_of_not_lt h)
    unfold letterAt
    rw [this]
    simp [h]

theorem matchClose_drop (s : JStr) (n : Nat) : matchClose (s.drop n) = !letterAt s n := by
  induction n generalizing s with
  | zero => cases s <;> simp [matchClose, letterAt]
  | succ n ih =>
    cases s with
    | nil => simp [matchClose, letterAt]
    | cons c t => rw [List.drop_succ_cons, ih, letterAt_cons_succ]

theorem isPrefixOf_eq_decide (code s : JStr) :
    code.isPrefixOf s = decide (s.take code.length = code) := by
  rw [Bool.eq_iff_iff, List.isPrefixOf_iff_prefix, List.prefix_iff_eq_take]
  simp [eq_comm]

theorem standaloneAt_zero (code s : JStr) : standaloneAt code s 0 = matchCode code s := by
  unfold standaloneAt matchCode
  rw [matchClose_drop, isPrefixOf_eq_decide]
  simp

theorem standaloneAt_succ (code pre : JStr) (c : Char) (post : JStr) :
    standaloneAt code (pre ++ c :: post) (pre.length + 1) = (!isAZ c && matchCode code post) := by
  unfold standaloneAt matchCode
  have hdrop : (pre ++ c :: post).drop (pre.length + 1) = post := by
    rw [← List.drop_drop]
    simp
  have hprev : letterAt (pre ++ c :: post) (pre.length + 1 - 1) = isAZ c := by
    have := letterAt_append_right pre (c :: post) 0
    simpa [letterAt_cons_zero] using this
  have hnext : letterAt (pre ++ c :: post) (pre.length + 1 + code.length)
      = letterAt post code.length := by
    have := letterAt_append_right pre (c :: post) (code.length + 1)
    rw [letterAt_cons_succ] at this
    rw [← this]
    congr 1
    omega
  rw [hdrop, hprev, hnext, matchClose_drop, isPrefixOf_eq_decide]
  cases decide (post.take code.length = code) <;> cases isAZ c <;>
    cases letterAt post code.length <;> rfl

theorem testFrom_iff (code : JStr) (atStart : Bool) (rest : JStr) :
    testFrom code atStart rest = true
      ↔ (atStart = true ∧ matchCode code rest = true)
        ∨ ∃ pre c post, rest = pre ++ c :: post ∧ isAZ c = false ∧ matchCode code post = true := by
  induction rest generalizing atStart with
  | nil => simp [testFrom, matchHere]
  | cons c cs ih =>
    simp only [testFrom, matchHere, Bool.or_eq_true, Bool.and_eq_true, ih false,
      Bool.not_eq_true']
    constructor
    · rintro ((h | h) | (h | ⟨pre, c2, post, h1, h2, h3⟩))
      · exact Or.inl h
      · exact Or.inr ⟨[], c, cs, rfl, h.1, h.2⟩
      · exact absurd h.1 (by simp)
      · exact Or.inr ⟨c :: pre, c2, post, by rw [h1]; rfl, h2, h3⟩
    · rintro (h | ⟨pre, c2, post, h1, h2, h3⟩)
      · exact Or.inl (Or.inl h)
      · cases pre with
        | nil =>
          simp only [List.nil_append, List.cons.injEq] at h1
          obtain ⟨rfl, rfl⟩ := h1
          exact Or.inl (Or.inr ⟨h2, h3⟩)
        | cons p pre2 =>
          simp only [List.cons_append, List.cons.injEq] at h1
          obtain ⟨rfl, rfl⟩ := h1
          exact Or.inr (Or.inr ⟨pre2, c2, post, rfl, h2, h3⟩)

theorem lt_length_of_standaloneAt {code s : JStr} {i : Nat} (hne : code ≠ [])
    (h : standaloneAt code s i = true) : i + code.length ≤ s.length := by
  unfold standaloneAt at h
  simp only [Bool.and_eq_true, decide_eq_true_eq] at h
  have h1 := congrArg List.length h.1.1
  rw [List.length_take, List.length_drop] at h1
  have hpos : 0 < code.length := List.length_pos.2 hne
  omega

theorem reTest_iff (code s : JStr) (hne : code ≠ []) :
    reTest code s = true ↔ ∃ i, standaloneAt code s i = true := by
  unfold reTest
  rw [testFrom_iff]
  constructor
  · rintro (⟨-, h⟩ | ⟨pre, c, post, rfl, h2, h3⟩)
    · exact ⟨0, by rw [standaloneAt_zero]; exact h⟩
    · exact ⟨pre.length + 1, by rw [standaloneAt_succ]; simp [h2, h3]⟩
  · rintro ⟨i, hi⟩
    cases i with
    | zero => exact Or.inl ⟨rfl, by rw [← standaloneAt_zero]; exact hi⟩
    | succ j =>
      have hlen := lt_length_of_standaloneAt hne hi
      have hpos : 0 < code.length := List.length_pos.2 hne
      have hj : j < s.length := by omega
      right
      refine ⟨s.take j, s[j], s.drop (j + 1), ?_, ?_⟩
      · rw [← List.drop_eq_getElem_cons hj, List.take_append_drop]
      · have hdec : s = s.take j ++ s[j] :: s.drop (j + 1) := by
          rw [← List.drop_eq_getElem_cons hj, List.take_append_drop]
        have hl : (s.take j).length = j := by
          rw [List.length_take]; omega
        have := standaloneAt_succ code (s.take j) s[j] (s.drop (j + 1))
        rw [← hdec, hl, hi] at this
        simpa using this.symm

theorem occursStandalone_iff (code s : JStr) (hne : code ≠ []) :
    occursStandalone code s = true ↔ ∃ i, standaloneAt code s i = true := by
  unfold occursStandalone
  rw [List.any_eq_true]
  constructor
  · rintro ⟨i, -, hi⟩
    exact ⟨i, hi⟩
  · rintro ⟨i, hi⟩
    have := lt_length_of_standaloneAt hne hi
    exact ⟨i, List.mem_range.2 (by omega), hi⟩

theorem reTest_eq_occursStandalone (code s : JStr) (hne : code ≠ []) :
    reTest code s = occursStandalone code s := by
  rw [Bool.eq_iff_iff, reTest_iff code s hne, occursStandalone_iff code s hne]

theorem statuses_facts : ∀ c ∈ statuses, c.length = 2 ∧ c.head? ≠ some 'I' := by decide

theorem head?_of_occurrence {code l : JStr} (hne : code ≠ [])
    (h : l.take code.length = code) : l.head? = code.head? := by
  cases code with
  | nil => exact absurd rfl hne
  | cons c t =>
    cases l with
    | nil => simp at h
    | cons a l2 =>
      simp only [List.length_cons, List.take_succ_cons, List.cons.injEq] at h
      simp [h.1]

theorem standaloneAt_window {code s : JStr} {idx j : Nat}
    (hcut : letterAt s (idx + 120) = false) (hj : 1 ≤ j) (hj2 : j + code.length ≤ 120) :
    standaloneAt code ((s.drop idx).take 120) j = standaloneAt code s (idx + j) := by
  unfold standaloneAt
  have hocc : (((s.drop idx).take 120).drop j).take code.length
      = (s.drop (idx + j)).take code.length := by
    rw [List.drop_take, List.take_take, List.drop_drop]
    congr 1
    omega
  have hprev : letterAt ((s.drop idx).take 120) (j - 1) = letterAt s (idx + j - 1) := by
    rw [letterAt_take, letterAt_drop]
    have : j - 1 < 120 := by omega
    simp only [this, decide_True, Bool.true_and]
    congr 1
    omega
  have hnext : letterAt ((s.drop idx).take 120) (j + code.length)
      = letterAt s (idx + j + code.length) := by
    rw [letterAt_take, letterAt_drop]
    by_cases h : j + code.length < 120
    · simp only [h, decide_True, Bool.true_and]
      congr 1
      omega
    · have he : idx + j + code.length = idx + 120 := by omega
      rw [he, hcut]
      simp [h]
  have h0 : (j == 0) = false := by
    cases j with
    | zero => omega
    | succ k => rfl
  have h1 : (idx + j == 0) = false := by
    cases hij : idx + j with
    | zero => omega
    | succ k => rfl
  rw [hocc, hprev, hnext, h0, h1]

theorem standaloneAt_head_ne {code l : JStr} {a : Char} (hne : code ≠ [])
    (hhead : code.head? ≠ some a) (hl : l.head? = some a) (s : JStr) (i : Nat)
    (hdrop : s.drop i = l) : standaloneAt code s i = false := by
  unfold standaloneAt
  have : ¬ (s.drop i).take code.length = code := by
    intro h
    rw [hdrop] at h
    have := head?_of_occurrence hne h
    rw [hl] at this
    exact hhead this.symm
  simp [this]

theorem window_iff {code s : JStr} {idx : Nat} (hcode : code ∈ statuses)
    (hI : (s.drop idx).head? = some 'I') (hcut : letterAt s (idx + 120) = false) :
    (∃ j, standaloneAt code ((s.drop idx).take 120) j = true)
      ↔ ∃ i, idx ≤ i ∧ i + code.length ≤ idx + 120 ∧ standaloneAt code s i = true := by
  obtain ⟨hlen, hhead⟩ := statuses_facts code hcode
  have hne : code ≠ [] := by
    intro h; rw [h] at hlen; simp at hlen
  have hwin0 : standaloneAt code ((s.drop idx).take 120) 0 = false := by
    apply standaloneAt_head_ne hne hhead _ _ 0 rfl
    rw [List.drop_zero]
    cases hd : s.drop idx with
    | nil => rw [hd] at hI; simp at hI
    | cons a t => rw [hd] at hI; simpa using hI
  have hs0 : standaloneAt code s idx = false :=
    standaloneAt_head_ne hne hhead hI s idx rfl
  constructor
  · rintro ⟨j, hj⟩
    have hle := lt_length_of_standaloneAt hne hj
    have hwl : ((s.drop idx).take 120).length ≤ 120 := List.length_take_le _ _
    have hj1 : 1 ≤ j := by
      cases j with
      | zero => rw [hwin0] at hj; exact Bool.noConfusion hj
      | succ k => omega
    refine ⟨idx + j, by omega, by omega, ?_⟩
    rw [← standaloneAt_window hcut hj1 (by omega)]
    exact hj
  · rintro ⟨i, hi1, hi2, hi3⟩
    have hne2 : i ≠ idx := by
      intro h; rw [h, hs0] at hi3; exact Bool.noConfusion hi3
    refine ⟨i - idx, ?_⟩
    rw [standaloneAt_window hcut (by omega) (by omega)]
    have : idx + (i - idx) = i := by omega
    rw [this]
    exact hi3

theorem occursStandaloneWithin_iff (code s : JStr) (lo hi : Nat) (hne : code ≠ []) :
    occursStandaloneWithin code s lo hi = true
      ↔ ∃ i, lo ≤ i ∧ i + code.length ≤ hi ∧ standaloneAt code s i = true := by
  unfold occursStandaloneWithin
  rw [List.any_eq_true]
  constructor
  · rintro ⟨i, -, hi⟩
    simp only [Bool.and_eq_true, decide_eq_true_eq] at hi
    exact ⟨i, hi.1.1, hi.1.2, hi.2⟩
  · rintro ⟨i, h1, h2, h3⟩
    have := lt_length_of_standaloneAt hne h3
    refine ⟨i, List.mem_range.2 (by omega), ?_⟩
    simp [h1, h2, h3]

theorem indexOf_some {needle s : JStr} {i : Nat} (h : indexOf needle s = some i) :
    needle.isPrefixOf (s.drop i) = true := by
  induction s generalizing i with
  | nil =>
    unfold indexOf at h
    split at h
    · rename_i hp
      cases h
      exact hp
    · cases h
  | cons c cs ih =>
    unfold indexOf at h
    split at h
    · rename_i hp
      cases h
      exact hp
    · cases hrec : indexOf needle cs with
      | none => rw [hrec] at h; cases h
      | some k =>
        rw [hrec] at h
        cases h
        exact ih hrec

theorem reTest_window (code s : JStr) (idx : Nat) (hcode : code ∈ statuses)
    (hidx : indexOf "IUCN".toList s = some idx) (hcut : letterAt s (idx + 120) = false) :
    reTest code (slice s idx (idx + 120)) = occursStandaloneWithin code s idx (idx + 120) := by
  obtain ⟨hlen, -⟩ := statuses_facts code hcode
  have hne : code ≠ [] := by
    intro h; rw [h] at hlen; simp at hlen
  have hI : (s.drop idx).head? = some 'I' := by
    have hp := indexOf_some hidx
    rw [List.isPrefixOf_iff_prefix] at hp
    obtain ⟨t, ht⟩ := hp
    rw [← ht]
    rfl
  have hslice : slice s idx (idx + 120) = (s.drop idx).take 120 := by
    unfold slice
    congr 1
    omega
  rw [hslice, Bool.eq_iff_iff, reTest_iff _ _ hne, occursStandaloneWithin_iff _ _ _ _ hne]
  exact window_iff hcode hI hcut

theorem find?_congr_mem {α : Type} {p q : α → Bool} {l : List α}
    (h : ∀ x ∈ l, p x = q x) : l.find? p = l.find? q := by
  induction l with
  | nil => rfl
  | cons a rest ih =>
    have ha := h a (List.mem_cons_self _ _)
    have hrest := ih (fun x hx => h x (List.mem_cons_of_mem _ hx))
    simp [List.find?, ha, hrest]

theorem ne_nil_of_mem_statuses {c : JStr} (h : c ∈ statuses) : c ≠ [] := by
  intro hc
  have := (statuses_facts c h).1
  rw [hc] at this
  simp at this

theorem extractIucnStatus_eq_spec (U : Unicode) (text : JStr)
    (hcut : ∀ idx, indexOf "IUCN".toList (U.toUpperCase text) = some idx →
      letterAt (U.toUpperCase text) (idx + 120) = false) :
    extractIucnStatus U text = extractIucnStatusSpec U text := by
  unfold extractIucnStatus extractIucnStatusSpec
  by_cases ht : text = []
  · simp [ht]
  · have hemp : text.isEmpty = false := by
      cases text with
      | nil => exact absurd rfl ht
      | cons a t => rfl
    simp only [hemp, Bool.false_eq_true, if_false, ht]
    have hfall : statuses.find? (fun code => reTest code (U.toUpperCase text))
        = statuses.find? (fun code => occursStandalone code (U.toUpperCase text)) :=
      find?_congr_mem (fun c hc => reTest_eq_occursStandalone c _ (ne_nil_of_mem_statuses hc))
    rw [hfall]
    cases hidx : indexOf "IUCN".toList (U.toUpperCase text) with
    | none => rfl
    | some idx =>
      have hwin : statuses.find?
            (fun code => reTest code (slice (U.toUpperCase text) idx (idx + 120)))
          = statuses.find?
            (fun code => occursStandaloneWithin code (U.toUpperCase text) idx (idx + 120)) :=
        find?_congr_mem (fun c hc => reTest_window c _ idx hc hidx (hcut idx hidx))
      simp only [hwin]

/-! ## The claims -/


/-- C1: on every sequence of lines on which the loop does not throw, `loadDocs` produces
exactly one document per distinct usable document key: the `doc_id` values of the result
are pairwise distinct, they are exactly the usable keys occurring in the input (each the
value carried by a fragment), and the documents stand in the order in which their keys are
first encountered. -/
theorem loadRows_one_document_per_key (U : Unicode) (lines : List Line)
    (hok : ∀ l ∈ lines, l.throws = false) :
    ∃ docs, loadRows U lines = Except.ok docs ∧
      (docs.map Document.doc_id).Nodup ∧
      (∀ k, k ∈ docs.map Document.doc_id ↔ k ∈ usableKeys (fragmentsOf lines)) ∧
      (docs.map Document.doc_id).Pairwise (fun a b =>
        (usableKeys (fragmentsOf lines)).indexOf a
          < (usableKeys (fragmentsOf lines)).indexOf b) := by
  refine ⟨_, loadRows_eq U lines hok, ?_, ?_, ?_⟩
  · rw [map_doc_id_rows]; exact nodup_firstEncounter _
  · intro k; rw [map_doc_id_rows]; exact mem_firstEncounter
  · rw [map_doc_id_rows]; exact pairwise_firstEncounter _

/-- Witness of C1 on the sample corpus: two documents, `Saola` before `Son Duong`. -/
theorem loadRows_one_document_per_key_witness :
    (∀ l ∈ sampleLines, l.throws = false) ∧
    ∃ docs, loadRows asciiUnicode sampleLines = Except.ok docs ∧
      (docs.map Document.doc_id).Nodup ∧
      (∀ k, k ∈ docs.map Document.doc_id ↔ k ∈ usableKeys (fragmentsOf sampleLines)) ∧
      (docs.map Document.doc_id).Pairwise (fun a b =>
        (usableKeys (fragmentsOf sampleLines)).indexOf a
          < (usableKeys (fragmentsOf sampleLines)).indexOf b) :=
  ⟨by decide, loadRows_one_document_per_key asciiUnicode sampleLines (by decide)⟩

/-- C2: the `text` of every document is the list of the trimmed `text` values of the
fragments sharing its key that are strings and not empty after trimming, in encounter
order, joined with a blank line. -/
theorem loadRows_text_joined (U : Unicode) (lines : List Line)
    (hok : ∀ l ∈ lines, l.throws = false) :
    ∃ docs, loadRows U lines = Except.ok docs ∧
      ∀ d ∈ docs, d.text
        = List.intercalate "\n\n".toList
            ((sharing d.doc_id (fragmentsOf lines)).filterMap textPartOf) := by
  refine ⟨_, loadRows_eq U lines hok, ?_⟩
  intro d hd
  obtain ⟨-, hrow⟩ := mem_rows hd
  generalize d.doc_id = k at hrow
  subst hrow
  show join _ (groupEntry U k (fragmentsOf lines)).textParts = _
  rw [join_eq_intercalate]
  unfold groupEntry
  rw [foldl_updateEntry_textParts]
  rfl

/-- Witness of C2 on the sample corpus, where the texts `A. IUCN: CR` and `B.` of `Saola`
give `A. IUCN: CR`, a blank line, `B.`. -/
theorem loadRows_text_joined_witness :
    ((∀ l ∈ sampleLines, l.throws = false) ∧
      (loadRows asciiUnicode sampleLines).toOption.map (List.map Document.text)
        = some ["A. IUCN: CR\n\nB.".toList, "Goat.".toList]) ∧
    ∃ docs, loadRows asciiUnicode sampleLines = Except.ok docs ∧
      ∀ d ∈ docs, d.text
        = List.intercalate "\n\n".toList
            ((sharing d.doc_id (fragmentsOf sampleLines)).filterMap textPartOf) :=
  ⟨by decide, loadRows_text_joined asciiUnicode sampleLines (by decide)⟩

/-- C3: when every `page` value of the fragments is a number (or is absent or `null`), the
`pages` of every document are numbers in strictly ascending order, hence without
duplicates, and they are exactly the `page` numbers of the fragments sharing its key. -/
theorem loadRows_pages_sorted (U : Unicode) (lines : List Line)
    (hok : ∀ l ∈ lines, l.throws = false)
    (hnum : ∀ f ∈ fragmentsOf lines,
      ((f.get "page").isNullish || (f.get "page").isNumber) = true) :
    ∃ docs, loadRows U lines = Except.ok docs ∧
      ∀ d ∈ docs, ∃ ns : List Int, d.pages = ns.map JVal.num ∧ ns.Sorted (· < ·) ∧
        ∀ n, n ∈ ns
          ↔ ∃ f ∈ sharing d.doc_id (fragmentsOf lines), f.get "page" = JVal.num n := by
  refine ⟨_, loadRows_eq U lines hok, ?_⟩
  intro d hd
  obtain ⟨-, hrow⟩ := mem_rows hd
  generalize d.doc_id = k at hrow
  subst hrow
  have hmem : ∀ v, v ∈ (groupEntry U k (fragmentsOf lines)).pagesSet
      ↔ ∃ f ∈ sharing k (fragmentsOf lines), f.get "page" = v ∧ v.isNullish = false := by
    intro v
    unfold groupEntry
    rw [mem_foldl_updateEntry_pagesSet]
    simp [blankEntry, newEntry]
  have hnd : (groupEntry U k (fragmentsOf lines)).pagesSet.Nodup :=
    foldl_updateEntry_pagesSet_nodup U _ _ List.nodup_nil
  obtain ⟨ns, hns⟩ := eq_map_num_of_forall (l := (groupEntry U k (fragmentsOf lines)).pagesSet)
    (by
      intro v hv
      obtain ⟨f, hf, hfv, hnn⟩ := (hmem v).1 hv
      have h := hnum f (mem_sharing.1 hf).1
      rw [hfv, hnn] at h
      cases v <;> simp_all [JVal.isNumber])
  refine ⟨ns.insertionSort (· ≤ ·), ?_, ?_, ?_⟩
  · show sortPages U (groupEntry U k (fragmentsOf lines)).pagesSet = _
    rw [hns, sortPages_nums]
  · apply List.Sorted.lt_of_le (List.sorted_insertionSort _ _)
    rw [hns] at hnd
    exact (List.perm_insertionSort _ _).nodup_iff.2 (List.Nodup.of_map _ hnd)
  · intro n
    rw [List.mem_insertionSort]
    constructor
    · intro hn
      have : JVal.num n ∈ (groupEntry U k (fragmentsOf lines)).pagesSet := by
        rw [hns]; exact List.mem_map_of_mem _ hn
      obtain ⟨f, hf, hfv, -⟩ := (hmem _).1 this
      exact ⟨f, hf, hfv⟩
    · rintro ⟨f, hf, hfv⟩
      have : JVal.num n ∈ (groupEntry U k (fragmentsOf lines)).pagesSet :=
        (hmem _).2 ⟨f, hf, hfv, rfl⟩
      rw [hns] at this
      obtain ⟨m, hm, hmn⟩ := List.mem_map.1 this
      cases hmn
      exact hm

/-- Witness of C3 on the sample corpus: the pages 13, 12, 13 of `Saola` give 12, 13. -/
theorem loadRows_pages_sorted_witness :
    ((∀ l ∈ sampleLines, l.throws = false) ∧
      (∀ f ∈ fragmentsOf sampleLines,
        ((f.get "page").isNullish || (f.get "page").isNumber) = true) ∧
      (loadRows asciiUnicode sampleLines).toOption.map (List.map Document.pages)
        = some [[JVal.num 12, JVal.num 13], []]) ∧
    ∃ docs, loadRows asciiUnicode sampleLines = Except.ok docs ∧
      ∀ d ∈ docs, ∃ ns : List Int, d.pages = ns.map JVal.num ∧ ns.Sorted (· < ·) ∧
        ∀ n, n ∈ ns
          ↔ ∃ f ∈ sharing d.doc_id (fragmentsOf sampleLines), f.get "page" = JVal.num n :=
  ⟨by decide, loadRows_pages_sorted asciiUnicode sampleLines (by decide) (by decide)⟩

/-- C4: the `source` list of every document has no duplicates, and its elements are
exactly the truthy (non-empty) `source` values of the fragments sharing its key. -/
theorem loadRows_source_union (U : Unicode) (lines : List Line)
    (hok : ∀ l ∈ lines, l.throws = false) :
    ∃ docs, loadRows U lines = Except.ok docs ∧
      ∀ d ∈ docs, d.source.Nodup ∧
        ∀ v, v ∈ d.source
          ↔ ∃ f ∈ sharing d.doc_id (fragmentsOf lines), f.get "source" = v ∧ v.truthy = true := by
  refine ⟨_, loadRows_eq U lines hok, ?_⟩
  intro d hd
  obtain ⟨-, hrow⟩ := mem_rows hd
  generalize d.doc_id = k at hrow
  subst hrow
  constructor
  · show (groupEntry U k (fragmentsOf lines)).sourceSet.Nodup
    exact foldl_updateEntry_sourceSet_nodup U _ _ List.nodup_nil
  · intro v
    show v ∈ (groupEntry U k (fragmentsOf lines)).sourceSet ↔ _
    unfold groupEntry
    rw [mem_foldl_updateEntry_sourceSet]
    simp [blankEntry, newEntry]

/-- Witness of C4 on the sample corpus: `wiki`, given twice for `Saola`, is kept once. -/
theorem loadRows_source_union_witness :
    ((∀ l ∈ sampleLines, l.throws = false) ∧
      (loadRows asciiUnicode sampleLines).toOption.map (List.map Document.source)
        = some [[JVal.str "wiki".toList], [JVal.str "book".toList]]) ∧
    ∃ docs, loadRows asciiUnicode sampleLines = Except.ok docs ∧
      ∀ d ∈ docs, d.source.Nodup ∧
        ∀ v, v ∈ d.source
          ↔ ∃ f ∈ sharing d.doc_id (fragmentsOf sampleLines),
              f.get "source" = v ∧ v.truthy = true :=
  ⟨by decide, loadRows_source_union asciiUnicode sampleLines (by decide)⟩

/-- C5: the document key of a fragment is the first truthy (non-empty) value among
`doc_id`, `title`, `id`, `url`, in that order; and a fragment with none of the four is
discarded: the loaded collection is the one obtained without its line. -/
theorem docKey_priority_and_keyless_discarded (U : Unicode) (f : JVal) :
    (∀ k, (keyFields f).find? JVal.truthy = some k → docKeyOf f = k ∧ k.truthy = true) ∧
    ((keyFields f).find? JVal.truthy = none → f.isNullish = false →
      ∀ before after : List Line,
        loadRows U (before ++ Line.parsed f :: after) = loadRows U (before ++ after)) := by
  refine ⟨(docKeyOf_find f).1, ?_⟩
  intro hnone hf before after
  unfold loadRows
  rw [groupLines_skip U f hf ((docKeyOf_find f).2 hnone)]

/-- Witness of C5: a fragment with an empty `doc_id` is keyed by its `title`, and the
sample corpus loads the same with a keyless fragment inserted. -/
theorem docKey_priority_and_keyless_discarded_witness :
    ((keyFields titledFragment).find? JVal.truthy = some (JVal.str "Sao la".toList) ∧
      (keyFields keylessFragment).find? JVal.truthy = none ∧
      keylessFragment.isNullish = false) ∧
    (docKeyOf titledFragment = JVal.str "Sao la".toList ∧
      (JVal.str "Sao la".toList).truthy = true) ∧
    loadRows asciiUnicode (sampleLines ++ Line.parsed keylessFragment :: sampleLines)
      = loadRows asciiUnicode (sampleLines ++ sampleLines) :=
  ⟨by decide,
    (docKey_priority_and_keyless_discarded asciiUnicode titledFragment).1 _ (by decide),
    (docKey_priority_and_keyless_discarded asciiUnicode keylessFragment).2 (by decide)
      (by decide) sampleLines sampleLines⟩

/-- C6 as stated fails: the only fragment of document `A` carries the explicit status
field `iucn` with value `en`, whose trimmed, upper-cased form `EN` is one of the nine codes,
yet the document gets `CR`, inferred from its text: the fragment also carries `icun` with a
value that is no code, and only the first truthy alias is looked at. -/
theorem explicit_status_masked_by_earlier_alias :
    fragmentsOf [Line.parsed maskedStatusFragment] = [maskedStatusFragment] ∧
    "iucn" ∈ iucnAliases ∧
    asciiUnicode.toUpperCase (trim (maskedStatusFragment.get "iucn").toJStr) = "EN".toList ∧
    "EN".toList ∈ statuses ∧
    (loadRows asciiUnicode [Line.parsed maskedStatusFragment]).toOption.map
        (List.map (fun d => (d.doc_id, d.iucn_status)))
      = some [(docKeyOf maskedStatusFragment, JVal.str "CR".toList)] := by
  decide

/-- C6 (amended): the explicit status value of a fragment is its first truthy field among
the aliases `icun`, `iucn`, `iucn_status`, `IUCN`, `IUCN_status`, `iucn_code`, `iucn_text`,
`iucnStatus`, in that order.  If for some fragment sharing the key of a document the
trimmed, upper-cased string form of that value is one of the nine codes, then the
`iucn_status` of the document is the code of the first such fragment in encounter order,
whatever the text of the document and the later fragments. -/
theorem loadRows_explicit_status_wins (U : Unicode) (lines : List Line)
    (hok : ∀ l ∈ lines, l.throws = false) :
    ∃ docs, loadRows U lines = Except.ok docs ∧
      ∀ d ∈ docs, ∀ f c,
        (sharing d.doc_id (fragmentsOf lines)).find? (fun g => (explicitCode U g).isSome)
            = some f →
        explicitCode U f = some c →
        d.iucn_status = JVal.str c := by
  refine ⟨_, loadRows_eq U lines hok, ?_⟩
  intro d hd f c hfind hcode
  obtain ⟨-, hrow⟩ := mem_rows hd
  generalize d.doc_id = k at hrow hfind
  subst hrow
  rw [toRow_iucn_status, groupEntry_iucn_status, hfind]
  simp only [normalizeIucnField_iucnFieldOf, hcode]
  have ht := truthy_str_of_mem_statuses (explicitCode_mem_statuses hcode)
  simp only [JVal.or, ht, if_true]

/-- Witness of C6 (amended) on the sample corpus: `Son Duong` has the explicit value
` vu ` and gets `VU`. -/
theorem loadRows_explicit_status_wins_witness :
    ((∀ l ∈ sampleLines, l.throws = false) ∧
      (loadRows asciiUnicode sampleLines).toOption.map
          (List.map (fun d => (d.doc_id, d.iucn_status)))
        = some [(JVal.str "Saola".toList, JVal.str "CR".toList),
            (JVal.str "Son Duong".toList, JVal.str "VU".toList)] ∧
      ((sharing (JVal.str "Son Duong".toList) (fragmentsOf sampleLines)).find?
          (fun g => (explicitCode asciiUnicode g).isSome)).map (explicitCode asciiUnicode)
        = some (some "VU".toList)) ∧
    ∃ docs, loadRows asciiUnicode sampleLines = Except.ok docs ∧
      ∀ d ∈ docs, ∀ f c,
        (sharing d.doc_id (fragmentsOf sampleLines)).find?
            (fun g => (explicitCode asciiUnicode g).isSome) = some f →
        explicitCode asciiUnicode f = some c →
        d.iucn_status = JVal.str c :=
  ⟨by decide, loadRows_explicit_status_wins asciiUnicode sampleLines (by decide)⟩

/-- C7: when no fragment sharing the key of a document yields a valid explicit status
code, the `iucn_status` of the document is the result of the heuristic extractor on its
final joined `text` (`null` when the extractor finds nothing). -/
theorem loadRows_status_from_text (U : Unicode) (lines : List Line)
    (hok : ∀ l ∈ lines, l.throws = false) :
    ∃ docs, loadRows U lines = Except.ok docs ∧
      ∀ d ∈ docs,
        (∀ f ∈ sharing d.doc_id (fragmentsOf lines), explicitCode U f = none) →
        d.iucn_status = extractIucnStatus U d.text := by
  refine ⟨_, loadRows_eq U lines hok, ?_⟩
  intro d hd hnone
  obtain ⟨-, hrow⟩ := mem_rows hd
  generalize d.doc_id = k at hrow hnone
  subst hrow
  have hfind : (sharing k (fragmentsOf lines)).find? (fun g => (explicitCode U g).isSome)
      = none := by
    rw [List.find?_eq_none]
    intro g hg
    simp [hnone g hg]
  rw [toRow_iucn_status, groupEntry_iucn_status, hfind]
  exact or_null_extract U _

/-- Witness of C7 on the sample corpus: no fragment of `Saola` has an explicit status, and
the document gets `CR` from its text. -/
theorem loadRows_status_from_text_witness :
    ((∀ l ∈ sampleLines, l.throws = false) ∧
      (∀ f ∈ sharing (JVal.str "Saola".toList) (fragmentsOf sampleLines),
        explicitCode asciiUnicode f = none) ∧
      (loadRows asciiUnicode sampleLines).toOption.map
          (List.map (fun d => (d.doc_id, d.iucn_status)))
        = some [(JVal.str "Saola".toList, JVal.str "CR".toList),
            (JVal.str "Son Duong".toList, JVal.str "VU".toList)]) ∧
    ∃ docs, loadRows asciiUnicode sampleLines = Except.ok docs ∧
      ∀ d ∈ docs,
        (∀ f ∈ sharing d.doc_id (fragmentsOf sampleLines),
          explicitCode asciiUnicode f = none) →
        d.iucn_status = extractIucnStatus asciiUnicode d.text :=
  ⟨by decide, loadRows_status_from_text asciiUnicode sampleLines (by decide)⟩

/-- C8: the `iucn_status` of every document returned by `loadDocs` is `null` or one of the
nine codes CR, EN, VU, NT, LC, EX, EW, DD, NE. -/
theorem loadRows_status_valid (U : Unicode) (lines : List Line)
    (hok : ∀ l ∈ lines, l.throws = false) :
    ∃ docs, loadRows U lines = Except.ok docs ∧
      ∀ d ∈ docs, d.iucn_status = JVal.null ∨ ∃ c ∈ statuses, d.iucn_status = JVal.str c := by
  refine ⟨_, loadRows_eq U lines hok, ?_⟩
  intro d hd
  obtain ⟨-, hrow⟩ := mem_rows hd
  generalize d.doc_id = k at hrow
  subst hrow
  rw [toRow_iucn_status, groupEntry_iucn_status]
  cases hfind : (sharing k (fragmentsOf lines)).find? (fun g => (explicitCode U g).isSome) with
  | none =>
    simp only []
    rw [or_null_extract]
    exact extractIucnStatus_cases U _
  | some f =>
    have hsome : (explicitCode U f).isSome = true := by simpa using List.find?_some hfind
    obtain ⟨c, hc⟩ := Option.isSome_iff_exists.1 hsome
    have hmem := explicitCode_mem_statuses hc
    have ht := truthy_str_of_mem_statuses hmem
    right
    refine ⟨c, hmem, ?_⟩
    simp only [normalizeIucnField_iucnFieldOf, hc, JVal.or, ht, if_true]

/-- Witness of C8 on the sample corpus. -/
theorem loadRows_status_valid_witness :
    (∀ l ∈ sampleLines, l.throws = false) ∧
    ∃ docs, loadRows asciiUnicode sampleLines = Except.ok docs ∧
      ∀ d ∈ docs, d.iucn_status = JVal.null ∨ ∃ c ∈ statuses, d.iucn_status = JVal.str c :=
  ⟨by decide, loadRows_status_valid asciiUnicode sampleLines (by decide)⟩

set_option maxRecDepth 100000 in
/-- C9 fails on the code: for the text `IUCN`, 114 blanks, `CRITICAL`, the window of 120
units ends right after `CR`, the pattern takes the end of the window for the end of the
token, and `extractIucnStatus` returns `CR`, although `CR` occurs nowhere in the upper-cased
text as a standalone token (its only occurrence is followed by the letter `I`). -/
theorem extractIucnStatus_window_cut_returns_embedded_code :
    extractIucnStatus asciiUnicode cutWindowText = JVal.str "CR".toList ∧
    letterAt (asciiUnicode.toUpperCase cutWindowText) 120 = true ∧
    ¬ ∃ i, standaloneAt "CR".toList (asciiUnicode.toUpperCase cutWindowText) i = true := by
  refine ⟨by decide, by decide, ?_⟩
  rw [← occursStandalone_iff _ _ (by decide)]
  decide

set_option maxRecDepth 100000 in
/-- C10 as stated fails in its last sentence.  The text `IUCN Red List status: ENDANGERED`
contains `IUCN Red List status: EN` and has no standalone `CR` in the window, yet the
extractor returns `null`: the `EN` of the text is followed by a letter.  And in the text
`IUCN`, 200 blanks, `CR IUCN Red List status: EN` the window after the first `IUCN` holds
no code at all, and the scan of the whole text returns `CR`. -/
theorem extractIucnStatus_phrase_without_EN :
    (spelledOutText = statusLineText ++ "DANGERED".toList ∧
      indexOf "IUCN".toList (asciiUnicode.toUpperCase spelledOutText) = some 0 ∧
      reTest "CR".toList (slice (asciiUnicode.toUpperCase spelledOutText) 0 120) = false ∧
      occursStandaloneWithin "CR".toList (asciiUnicode.toUpperCase spelledOutText) 0 120
        = false ∧
      extractIucnStatus asciiUnicode spelledOutText = JVal.null) ∧
    (farPhraseText = "IUCN".toList ++ List.replicate 200 ' ' ++ "CR ".toList ++ statusLineText ∧
      indexOf "IUCN".toList (asciiUnicode.toUpperCase farPhraseText) = some 0 ∧
      reTest "CR".toList (slice (asciiUnicode.toUpperCase farPhraseText) 0 120) = false ∧
      occursStandaloneWithin "CR".toList (asciiUnicode.toUpperCase farPhraseText) 0 120
        = false ∧
      extractIucnStatus asciiUnicode farPhraseText = JVal.str "CR".toList) := by
  decide

/-- C10 (amended): for every text whose window of 120 units after the first `IUCN` is not
cut right in front of a letter A–Z, the extractor agrees with the position-wise reading: if
the upper-cased text contains `IUCN` and some code occurs as a standalone token inside the
120 units starting at the first `IUCN`, the result is the first such code in the order CR,
EN, VU, NT, LC, EX, EW, DD, NE; otherwise it is the first code in that order that occurs
standalone anywhere in the text, `null` if none does, and `null` for the empty text.  In
particular, when `EN` occurs standalone in that window and `CR` does not, the result is
`EN`. -/
theorem extractIucnStatus_by_positions (U : Unicode) (text : JStr)
    (hcut : cutBeforeLetter (U.toUpperCase text) = false) :
    extractIucnStatus U text = extractIucnStatusSpec U text ∧
    (text ≠ [] → ∀ idx, indexOf "IUCN".toList (U.toUpperCase text) = some idx →
      occursStandaloneWithin "EN".toList (U.toUpperCase text) idx (idx + 120) = true →
      occursStandaloneWithin "CR".toList (U.toUpperCase text) idx (idx + 120) = false →
      extractIucnStatus U text = JVal.str "EN".toList) := by
  have hcut2 : ∀ idx, indexOf "IUCN".toList (U.toUpperCase text) = some idx →
      letterAt (U.toUpperCase text) (idx + 120) = false := by
    intro idx hidx
    unfold cutBeforeLetter at hcut
    rw [hidx] at hcut
    exact hcut
  have hspec := extractIucnStatus_eq_spec U text hcut2
  refine ⟨hspec, ?_⟩
  intro ht idx hidx hEN hCR
  rw [hspec]
  unfold extractIucnStatusSpec
  simp only [ht, if_false, hidx, statuses, List.find?, hEN, hCR]

/-- Witness of C10 (amended): the text `IUCN Red List status: EN` yields `EN`. -/
theorem extractIucnStatus_by_positions_witness :
    cutBeforeLetter (asciiUnicode.toUpperCase statusLineText) = false ∧
    extractIucnStatus asciiUnicode statusLineText
      = extractIucnStatusSpec asciiUnicode statusLineText ∧
    extractIucnStatus asciiUnicode statusLineText = JVal.str "EN".toList :=
  ⟨by decide, (extractIucnStatus_by_positions asciiUnicode statusLineText (by decide)).1,
    (extractIucnStatus_by_positions asciiUnicode statusLineText (by decide)).2 (by decide) 0
      (by decide) (by decide) (by decide)⟩

/-! ## Lemmas: first-wins fields, slugs, queries -/

theorem toJStr_or_str (s : JStr) : (JVal.or (JVal.str s) (JVal.str [])).toJStr = s := by
  cases s with
  | nil => rfl
  | cons c t => rfl

theorem foldl_updateEntry_image_url (U : Unicode) (fs : List JVal) (e : Entry) :
    (fs.foldl (updateEntry U) e).image_url
      = if e.image_url.truthy then e.image_url
        else match (fs.map (fun f => f.get "image_url")).find? JVal.truthy with
          | some v => v
          | none => e.image_url := by
  induction fs generalizing e with
  | nil => simp
  | cons f rest ih =>
    rw [List.foldl_cons, ih, updateEntry_image_url]
    cases he : e.image_url.truthy <;> cases hf : (f.get "image_url").truthy <;>
      simp [List.find?, he, hf]

theorem foldl_updateEntry_url (U : Unicode) (fs : List JVal) (e : Entry) :
    (fs.foldl (updateEntry U) e).url
      = if e.url.truthy then e.url
        else match (fs.map (fun f => f.get "url")).find? JVal.truthy with
          | some v => v
          | none => e.url := by
  induction fs generalizing e with
  | nil => simp
  | cons f rest ih =>
    rw [List.foldl_cons, ih, updateEntry_url]
    cases he : e.url.truthy <;> cases hf : (f.get "url").truthy <;>
      simp [List.find?, he, hf]

theorem or_null_firstTruthy (name : String) (frags : List JVal) :
    JVal.or (firstTruthy name frags) JVal.null = firstTruthy name frags := by
  unfold firstTruthy
  cases h : (frags.map (fun f => f.get name)).find? JVal.truthy with
  | none => rfl
  | some v =>
    have hv : v.truthy = true := by simpa using List.find?_some h
    simp [JVal.or, hv]

theorem groupEntry_image_url (U : Unicode) (k : JVal) (fs : List JVal) :
    (groupEntry U k fs).image_url = firstTruthy "image_url" (sharing k fs) := by
  unfold groupEntry
  rw [foldl_updateEntry_image_url]
  rfl

theorem groupEntry_url (U : Unicode) (k : JVal) (fs : List JVal) :
    (groupEntry U k fs).url = firstTruthy "url" (sharing k fs) := by
  unfold groupEntry
  rw [foldl_updateEntry_url]
  rfl

/-! ## The claims C11 to C20 -/

/-- C11: the `image_url` of every document is the first truthy (non-empty) `image_url` of
the fragments sharing its key, in encounter order, and `null` when no fragment has one;
likewise for `url`.  A later fragment never overrides the value. -/
theorem loadRows_first_wins (U : Unicode) (lines : List Line)
    (hok : ∀ l ∈ lines, l.throws = false) :
    ∃ docs, loadRows U lines = Except.ok docs ∧
      ∀ d ∈ docs,
        d.image_url = firstTruthy "image_url" (sharing d.doc_id (fragmentsOf lines)) ∧
        d.url = firstTruthy "url" (sharing d.doc_id (fragmentsOf lines)) := by
  refine ⟨_, loadRows_eq U lines hok, ?_⟩
  intro d hd
  obtain ⟨-, hrow⟩ := mem_rows hd
  generalize d.doc_id = k at hrow
  subst hrow
  constructor
  · show JVal.or (groupEntry U k (fragmentsOf lines)).image_url JVal.null = _
    rw [groupEntry_image_url, or_null_firstTruthy]
  · show JVal.or (groupEntry U k (fragmentsOf lines)).url JVal.null = _
    rw [groupEntry_url, or_null_firstTruthy]

/-- Witness of C11: the `image_url` values `null`, `x.jpg`, `y.jpg` give `x.jpg`. -/
theorem loadRows_first_wins_witness :
    ((∀ l ∈ imageLines, l.throws = false) ∧
      (loadRows asciiUnicode imageLines).toOption.map
          (List.map (fun d => (d.image_url, d.url)))
        = some [(JVal.str "x.jpg".toList, JVal.str "u1".toList)]) ∧
    ∃ docs, loadRows asciiUnicode imageLines = Except.ok docs ∧
      ∀ d ∈ docs,
        d.image_url = firstTruthy "image_url" (sharing d.doc_id (fragmentsOf imageLines)) ∧
        d.url = firstTruthy "url" (sharing d.doc_id (fragmentsOf imageLines)) :=
  ⟨by decide, loadRows_first_wins asciiUnicode imageLines (by decide)⟩

theorem ascii_facts : ∀ n : Fin 128,
    (isAsciiAlnum (Char.ofNat n) = true →
      isLowerAlnum (Char.ofNat n).toLower = true ∧ isWhiteSpace (Char.ofNat n) = false) ∧
    (isLowerAlnum (Char.ofNat n) = true →
      isSlugChar (Char.ofNat n) = true ∧ isWhiteSpace (Char.ofNat n) = false ∧
      Char.ofNat n ≠ '-' ∧ isCombiningMark (Char.ofNat n) = false) := by
  decide

theorem toNat_lt_of_isAsciiAlnum {c : Char} (h : isAsciiAlnum c = true) : c.toNat < 128 := by
  unfold isAsciiAlnum at h
  simp only [Bool.or_eq_true, Bool.and_eq_true, decide_eq_true_eq] at h
  omega

theorem toNat_lt_of_isLowerAlnum {c : Char} (h : isLowerAlnum c = true) : c.toNat < 128 := by
  unfold isLowerAlnum at h
  simp only [Bool.or_eq_true, Bool.and_eq_true, decide_eq_true_eq] at h
  omega

theorem isAsciiAlnum_facts {c : Char} (h : isAsciiAlnum c = true) :
    isLowerAlnum c.toLower = true ∧ isWhiteSpace c = false := by
  have := (ascii_facts ⟨c.toNat, toNat_lt_of_isAsciiAlnum h⟩).1
  simp only [Char.ofNat_toNat] at this
  exact this h

theorem isLowerAlnum_facts {c : Char} (h : isLowerAlnum c = true) :
    isSlugChar c = true ∧ isWhiteSpace c = false ∧ c ≠ '-' ∧ isCombiningMark c = false := by
  have := (ascii_facts ⟨c.toNat, toNat_lt_of_isLowerAlnum h⟩).2
  simp only [Char.ofNat_toNat] at this
  exact this h

theorem isWhiteSpace_facts {c : Char} (h : isWhiteSpace c = true) :
    isSlugChar c = true ∧ c ≠ '-' ∧ isCombiningMark c = false := by
  refine ⟨?_, ?_, ?_⟩
  · unfold isSlugChar
    simp [h]
  · intro hc
    rw [hc] at h
    exact absurd h (by decide)
  · unfold isWhiteSpace at h
    unfold isCombiningMark
    simp only [Bool.or_eq_true, Bool.and_eq_true, decide_eq_true_eq, beq_iff_eq] at h
    simp only [Bool.and_eq_false_iff, decide_eq_false_iff_not]
    omega

theorem replaceRuns_word {p : Char → Bool} {rep : JStr} (w s : JStr) (b : Bool)
    (hne : w ≠ []) (hw : ∀ c ∈ w, p c = false) :
    replaceRuns p rep b (w ++ s) = w ++ replaceRuns p rep false s := by
  induction w generalizing b with
  | nil => exact absurd rfl hne
  | cons a t ih =>
    have ha : ¬ p a = true := by simp [hw a (List.mem_cons_self _ _)]
    rw [List.cons_append, replaceRuns, if_neg ha]
    cases t with
    | nil => rfl
    | cons a2 t2 =>
      rw [ih false (by simp) (fun c hc => hw c (List.mem_cons_of_mem _ hc))]
      rfl

theorem replaceRuns_in_run {p : Char → Bool} {rep : JStr} (sep s : JStr)
    (hsep : ∀ c ∈ sep, p c = true) :
    replaceRuns p rep true (sep ++ s) = replaceRuns p rep true s := by
  induction sep with
  | nil => rfl
  | cons a t ih =>
    rw [List.cons_append, replaceRuns, if_pos (hsep a (List.mem_cons_self _ _)), if_pos rfl,
      List.nil_append, ih (fun c hc => hsep c (List.mem_cons_of_mem _ hc))]

theorem replaceRuns_sep {p : Char → Bool} {rep : JStr} (sep s : JStr)
    (hne : sep ≠ []) (hsep : ∀ c ∈ sep, p c = true) :
    replaceRuns p rep false (sep ++ s) = rep ++ replaceRuns p rep true s := by
  cases sep with
  | nil => exact absurd rfl hne
  | cons a t =>
    rw [List.cons_append, replaceRuns, if_pos (hsep a (List.mem_cons_self _ _)),
      if_neg (by simp), replaceRuns_in_run t s (fun c hc => hsep c (List.mem_cons_of_mem _ hc))]

theorem replaceRuns_sepWords {p : Char → Bool} {rep : JStr} (w : JStr)
    (rest : List (JStr × JStr)) (b : Bool) (hne : w ≠ []) (hw : ∀ c ∈ w, p c = false)
    (hrest : ∀ q ∈ rest, IsRun p q.1 ∧ q.2 ≠ [] ∧ ∀ c ∈ q.2, p c = false) :
    replaceRuns p rep b (w ++ sepWords rest)
      = w ++ sepWords (rest.map (fun q => (rep, q.2))) := by
  induction rest generalizing w b with
  | nil =>
    rw [replaceRuns_word w _ b hne hw]
    rfl
  | cons q r ih =>
    obtain ⟨sep, w2⟩ := q
    obtain ⟨hs, hw2ne, hw2⟩ := hrest (sep, w2) (List.mem_cons_self _ _)
    have hr : ∀ q ∈ r, IsRun p q.1 ∧ q.2 ≠ [] ∧ ∀ c ∈ q.2, p c = false :=
      fun q hq => hrest q (List.mem_cons_of_mem _ hq)
    rw [replaceRuns_word w _ b hne hw]
    simp only [sepWords, List.map_cons, List.append_assoc]
    rw [replaceRuns_sep sep _ hs.1 hs.2, ih w2 true hw2ne hw2 hr]

theorem getLast?_sepWords {q : Char → Prop} (w : JStr) (rest : List (JStr × JStr))
    (hne : w ≠ []) (hw : ∀ c ∈ w, q c) (hrest : ∀ x ∈ rest, x.2 ≠ [] ∧ ∀ c ∈ x.2, q c) :
    ∃ c, (w ++ sepWords rest).getLast? = some c ∧ q c := by
  induction rest generalizing w with
  | nil =>
    rw [sepWords, List.append_nil]
    cases hl : w.getLast? with
    | none => exact absurd (List.getLast?_eq_none_iff.1 hl) hne
    | some c => exact ⟨c, rfl, hw c (List.mem_of_getLast?_eq_some hl)⟩
  | cons x r ih =>
    obtain ⟨sep, w2⟩ := x
    obtain ⟨hw2ne, hw2⟩ := hrest (sep, w2) (List.mem_cons_self _ _)
    obtain ⟨c, hc, hqc⟩ := ih w2 hw2ne hw2 (fun x hx => hrest x (List.mem_cons_of_mem _ hx))
    refine ⟨c, ?_, hqc⟩
    have hne2 : w2 ++ sepWords r ≠ [] := by
      intro h
      exact hw2ne (List.append_eq_nil.1 h).1
    have : w ++ sepWords ((sep, w2) :: r) = (w ++ sep) ++ (w2 ++ sepWords r) := by
      simp [sepWords, List.append_assoc]
    rw [this, List.getLast?_append_of_ne_nil _ hne2, hc]

theorem stripEdgeHyphens_id (s : JStr) (hh : s.head? ≠ some '-')
    (hl : s.getLast? ≠ some '-') : stripEdgeHyphens s = s := by
  cases s with
  | nil => rfl
  | cons a t =>
    have ha : a ≠ '-' := by
      intro h
      apply hh
      simp [h]
    have hkey : stripEdgeHyphens (a :: t)
        = if (a :: t).getLast? = some '-' then (a :: t).dropLast else a :: t := by
      unfold stripEdgeHyphens
      split
      · rename_i t2 heq
        cases heq
        exact absurd rfl ha
      · rfl
    rw [hkey, if_neg hl]

theorem sepWords_hyphen (w : JStr) (rest : List (JStr × JStr)) :
    w ++ sepWords (rest.map (fun q => (['-'], q.2)))
      = List.intercalate ['-'] (w :: rest.map Prod.snd) := by
  induction rest generalizing w with
  | nil => simp [sepWords, List.intercalate]
  | cons x r ih =>
    obtain ⟨sep, w2⟩ := x
    have := ih w2
    simp only [List.intercalate, List.map_cons, sepWords, List.intersperse_cons_cons,
      List.flatten_cons] at this ⊢
    rw [← this]
    simp [List.append_assoc]

theorem trim_core (lead x trail : JStr) (hlead : ∀ c ∈ lead, isWhiteSpace c = true)
    (htrail : ∀ c ∈ trail, isWhiteSpace c = true)
    (hhead : ∃ c, x.head? = some c ∧ isWhiteSpace c = false)
    (hlast : ∃ c, x.getLast? = some c ∧ isWhiteSpace c = false) :
    trim (lead ++ x ++ trail) = x := by
  unfold trim
  obtain ⟨a, ha, hwa⟩ := hhead
  obtain ⟨z, hz, hwz⟩ := hlast
  have hx : ∃ t, x = a :: t := by
    cases x with
    | nil => simp at ha
    | cons b t => simp at ha; exact ⟨t, by rw [ha]⟩
  obtain ⟨t, rfl⟩ := hx
  rw [List.append_assoc, List.dropWhile_append_of_pos hlead, List.cons_append,
    List.dropWhile_cons_of_neg (by simp [hwa]), ← List.cons_append]
  unfold List.rdropWhile
  have hrev : (a :: t).reverse = z :: (a :: t).dropLast.reverse := by
    have := List.dropLast_append_getLast? z hz
    conv_lhs => rw [← this]
    simp
  rw [List.reverse_append,
    List.dropWhile_append_of_pos (fun c hc => htrail c (List.mem_reverse.1 hc)), hrev,
    List.dropWhile_cons_of_neg (by simp [hwz]), ← hrev, List.reverse_reverse]

/-- Once the trimmed, lower-cased, decomposed input without its combining marks consists
of words of a–z, 0–9 separated by runs of white space, the slug is the words joined by
hyphens. -/
theorem toSlug_of_decomposed (U : Unicode) (input : JVal) (w : JStr)
    (rest : List (JStr × JStr))
    (hD : List.filter (fun c => !isCombiningMark c) (U.nfd (U.toLowerCase (normalize input)))
      = w ++ sepWords rest)
    (hw : IsRun isLowerAlnum w)
    (hrest : ∀ q ∈ rest, IsRun isWhiteSpace q.1 ∧ IsRun isLowerAlnum q.2) :
    toSlug U input = List.intercalate ['-'] (w :: rest.map Prod.snd) := by
  unfold toSlug
  rw [hD]
  have hall : ∀ c ∈ w ++ sepWords rest, isSlugChar c = true := by
    have : ∀ (r : List (JStr × JStr)), (∀ q ∈ r, IsRun isWhiteSpace q.1 ∧
        IsRun isLowerAlnum q.2) → ∀ c ∈ sepWords r, isSlugChar c = true := by
      intro r
      induction r with
      | nil => intro _ c hc; simp [sepWords] at hc
      | cons q r ih =>
        intro hr c hc
        obtain ⟨sep, w2⟩ := q
        obtain ⟨hs, hw2⟩ := hr (sep, w2) (List.mem_cons_self _ _)
        simp only [sepWords, List.mem_append] at hc
        rcases hc with (hc | hc) | hc
        · exact (isWhiteSpace_facts (hs.2 c hc)).1
        · exact (isLowerAlnum_facts (hw2.2 c hc)).1
        · exact ih (fun q hq => hr q (List.mem_cons_of_mem _ hq)) c hc
    intro c hc
    rcases List.mem_append.1 hc with h | h
    · exact (isLowerAlnum_facts (hw.2 c h)).1
    · exact this rest hrest c h
  rw [List.filter_eq_self.2 hall]
  rw [replaceRuns_sepWords w rest false hw.1
    (fun c hc => (isLowerAlnum_facts (hw.2 c hc)).2.1)
    (fun q hq => ⟨(hrest q hq).1, (hrest q hq).2.1,
      fun c hc => (isLowerAlnum_facts ((hrest q hq).2.2 c hc)).2.1⟩)]
  have hne : ∀ c, isLowerAlnum c = true → (c == '-') = false := by
    intro c hc
    simpa using (isLowerAlnum_facts hc).2.2.1
  rw [replaceRuns_sepWords w _ false hw.1 (fun c hc => hne c (hw.2 c hc))
    (by
      intro q hq
      obtain ⟨x, hx, rfl⟩ := List.mem_map.1 hq
      exact ⟨⟨by simp, by simp⟩, (hrest x hx).2.1,
        fun c hc => hne c ((hrest x hx).2.2 c hc)⟩)]
  rw [List.map_map]
  have hmap : ((fun q : JStr × JStr => (['-'], q.2)) ∘ fun q : JStr × JStr => (['-'], q.2))
      = fun q : JStr × JStr => (['-'], q.2) := rfl
  rw [hmap, stripEdgeHyphens_id, sepWords_hyphen]
  · cases hwc : w with
    | nil => exact absurd hwc hw.1
    | cons a t =>
      have := (isLowerAlnum_facts (hw.2 a (by rw [hwc]; exact List.mem_cons_self _ _))).2.2.1
      simpa using this
  · obtain ⟨c, hc, hqc⟩ := getLast?_sepWords (q := fun c => isLowerAlnum c = true) w
      (rest.map (fun q => (['-'], q.2))) hw.1 hw.2
      (by
        intro x hx
        obtain ⟨y, hy, rfl⟩ := List.mem_map.1 hx
        exact (hrest y hy).2)
    rw [hc]
    intro h
    cases h
    exact (isLowerAlnum_facts hqc).2.2.1 rfl


theorem map_sepWords (g : Char → Char) (rest : List (JStr × JStr)) :
    (sepWords rest).map g = sepWords (rest.map (fun q => (q.1.map g, q.2.map g))) := by
  induction rest with
  | nil => rfl
  | cons q r ih =>
    obtain ⟨sep, w⟩ := q
    simp only [sepWords, List.map_append, List.map_cons, ih]

theorem toLower_of_isWhiteSpace (c : Char) (h : isWhiteSpace c = true) :
    isWhiteSpace c.toLower = true := by
  have hc : c.toLower = c := by
    unfold Char.toLower
    unfold isWhiteSpace at h
    simp only [Bool.or_eq_true, Bool.and_eq_true, decide_eq_true_eq, beq_iff_eq] at h
    have : ¬ (c.toNat ≥ 65 ∧ c.toNat ≤ 90) := by omega
    simp only [this, if_false]
  rw [hc]
  exact h

/-- C12: for every input made of one or more words of ASCII letters and digits separated
by runs of white space, with optional white space around, on a platform whose lower-casing
and decomposition act on such text character by character (letters to lower case, digits
unchanged, white space to white space), `toSlug` returns the lower-cased words joined by
single hyphens.  And when the platform decomposes the lower-cased `Sơn Dương` into base
letters and combining horns, `toSlug` maps it to `son-duong`. -/
theorem toSlug_words (U : Unicode) :
    (∀ (g : Char → Char) (lead trail w : JStr) (rest : List (JStr × JStr)),
      (∀ c ∈ lead, isWhiteSpace c = true) → (∀ c ∈ trail, isWhiteSpace c = true) →
      IsRun isAsciiAlnum w →
      (∀ q ∈ rest, IsRun isWhiteSpace q.1 ∧ IsRun isAsciiAlnum q.2) →
      (∀ c, isAsciiAlnum c = true → g c = c.toLower) →
      (∀ c, isWhiteSpace c = true → isWhiteSpace (g c) = true) →
      U.nfd (U.toLowerCase (w ++ sepWords rest)) = (w ++ sepWords rest).map g →
      toSlug U (JVal.str (lead ++ w ++ sepWords rest ++ trail))
        = List.intercalate ['-']
            ((w :: rest.map Prod.snd).map (List.map Char.toLower))) ∧
    (U.nfd (U.toLowerCase sonDuong) = decomposedSonDuong →
      toSlug U (JVal.str sonDuong) = "son-duong".toList) := by
  constructor
  · intro g lead trail w rest hlead htrail hw hrest hg1 hg2 hU
    have hhead : ∃ c, (w ++ sepWords rest).head? = some c ∧ isWhiteSpace c = false := by
      cases hwc : w with
      | nil => exact absurd hwc hw.1
      | cons a t =>
        exact ⟨a, rfl, (isAsciiAlnum_facts (hw.2 a (by rw [hwc]; exact List.mem_cons_self _ _))).2⟩
    have hlast : ∃ c, (w ++ sepWords rest).getLast? = some c ∧ isWhiteSpace c = false := by
      obtain ⟨c, hc, hq⟩ := getLast?_sepWords (q := fun c => isAsciiAlnum c = true) w rest
        hw.1 hw.2 (fun x hx => (hrest x hx).2)
      exact ⟨c, hc, (isAsciiAlnum_facts hq).2⟩
    have hnorm : normalize (JVal.str (lead ++ w ++ sepWords rest ++ trail))
        = w ++ sepWords rest := by
      unfold normalize
      rw [toJStr_or_str, List.append_assoc lead w (sepWords rest)]
      exact trim_core lead _ trail hlead htrail hhead hlast
    have hwl : IsRun isLowerAlnum (w.map g) := by
      refine ⟨by simpa using hw.1, ?_⟩
      intro c hc
      obtain ⟨a, ha, rfl⟩ := List.mem_map.1 hc
      rw [hg1 a (hw.2 a ha)]
      exact (isAsciiAlnum_facts (hw.2 a ha)).1
    have hrl : ∀ q ∈ rest.map (fun q => (q.1.map g, q.2.map g)),
        IsRun isWhiteSpace q.1 ∧ IsRun isLowerAlnum q.2 := by
      intro q hq
      obtain ⟨x, hx, rfl⟩ := List.mem_map.1 hq
      obtain ⟨hs, hx2⟩ := hrest x hx
      refine ⟨⟨by simpa using hs.1, ?_⟩, ⟨by simpa using hx2.1, ?_⟩⟩
      · intro c hc
        obtain ⟨a, ha, rfl⟩ := List.mem_map.1 hc
        exact hg2 a (hs.2 a ha)
      · intro c hc
        obtain ⟨a, ha, rfl⟩ := List.mem_map.1 hc
        rw [hg1 a (hx2.2 a ha)]
        exact (isAsciiAlnum_facts (hx2.2 a ha)).1
    have hshape : (w ++ sepWords rest).map g
        = w.map g ++ sepWords (rest.map (fun q => (q.1.map g, q.2.map g))) := by
      rw [List.map_append, map_sepWords]
    have hD : List.filter (fun c => !isCombiningMark c)
        (U.nfd (U.toLowerCase (normalize (JVal.str (lead ++ w ++ sepWords rest ++ trail)))))
        = w.map g ++ sepWords (rest.map (fun q => (q.1.map g, q.2.map g))) := by
      rw [hnorm, hU, hshape, List.filter_eq_self]
      intro c hc
      have : isCombiningMark c = false := by
        rcases List.mem_append.1 hc with h | h
        · exact (isLowerAlnum_facts (hwl.2 c h)).2.2.2
        · have hsw : ∀ (r : List (JStr × JStr)),
              (∀ q ∈ r, IsRun isWhiteSpace q.1 ∧ IsRun isLowerAlnum q.2) →
              ∀ c ∈ sepWords r, isCombiningMark c = false := by
            intro r
            induction r with
            | nil => intro _ c hc; simp [sepWords] at hc
            | cons q r ih =>
              intro hr c hc
              obtain ⟨sep, w2⟩ := q
              obtain ⟨hs, hw2⟩ := hr (sep, w2) (List.mem_cons_self _ _)
              simp only [sepWords, List.mem_append] at hc
              rcases hc with (hc | hc) | hc
              · exact (isWhiteSpace_facts (hs.2 c hc)).2.2
              · exact (isLowerAlnum_facts (hw2.2 c hc)).2.2.2
              · exact ih (fun q hq => hr q (List.mem_cons_of_mem _ hq)) c hc
          exact hsw _ hrl c h
      simp [this]
    rw [toSlug_of_decomposed U _ _ _ hD hwl hrl]
    congr 1
    simp only [List.map_cons, List.map_map]
    congr 1
    · exact List.map_congr_left (fun c hc => hg1 c (hw.2 c hc))
    · apply List.map_congr_left
      intro q hq
      exact List.map_congr_left (fun c hc => hg1 c ((hrest q hq).2.2 c hc))
  · intro hex
    have hn : normalize (JVal.str sonDuong) = sonDuong := by decide
    unfold toSlug
    rw [hn, hex]
    decide

/-- Witness of C12: ` Son  Duong9 ` gives `son-duong9`, and `Sơn Dương` gives
`son-duong`. -/
theorem toSlug_words_witness :
    ((∀ c ∈ " ".toList, isWhiteSpace c = true) ∧ (∀ c ∈ "\t ".toList, isWhiteSpace c = true) ∧
      IsRun isAsciiAlnum "Son".toList ∧
      (∀ q ∈ [("  ".toList, "Duong9".toList)],
        IsRun isWhiteSpace q.1 ∧ IsRun isAsciiAlnum q.2) ∧
      hornUnicode.nfd (hornUnicode.toLowerCase sonDuong) = decomposedSonDuong) ∧
    toSlug hornUnicode (JVal.str (" ".toList ++ "Son".toList
        ++ sepWords [("  ".toList, "Duong9".toList)] ++ "\t ".toList))
      = List.intercalate ['-']
          (("Son".toList :: [("  ".toList, "Duong9".toList)].map Prod.snd).map
            (List.map Char.toLower)) ∧
    toSlug hornUnicode (JVal.str sonDuong) = "son-duong".toList :=
  ⟨by decide,
    (toSlug_words hornUnicode).1 Char.toLower " ".toList "\t ".toList "Son".toList
      [("  ".toList, "Duong9".toList)] (by decide) (by decide) (by decide)
      (by decide) (fun _ _ => rfl) toLower_of_isWhiteSpace (by decide),
    (toSlug_words hornUnicode).2 (by decide)⟩

theorem mem_replaceRuns {p : Char → Bool} {rep : JStr} {b : Bool} {s : JStr} {c : Char}
    (h : c ∈ replaceRuns p rep b s) : c ∈ rep ∨ (c ∈ s ∧ p c = false) := by
  induction s generalizing b with
  | nil => simp [replaceRuns] at h
  | cons a t ih =>
    unfold replaceRuns at h
    by_cases hp : p a = true
    · rw [if_pos hp] at h
      rcases List.mem_append.1 h with h1 | h1
      · left
        split at h1
        · simp at h1
        · exact h1
      · rcases ih h1 with h2 | h2
        · exact Or.inl h2
        · exact Or.inr ⟨List.mem_cons_of_mem _ h2.1, h2.2⟩
    · rw [if_neg hp] at h
      rcases List.mem_cons.1 h with h1 | h1
      · right
        rw [h1]
        exact ⟨List.mem_cons_self _ _, by simpa using hp⟩
      · rcases ih h1 with h2 | h2
        · exact Or.inl h2
        · exact Or.inr ⟨List.mem_cons_of_mem _ h2.1, h2.2⟩

theorem chain_collapse_hyphens (s : JStr) (b : Bool) :
    (replaceRuns (· == '-') ['-'] b s).Chain' NoHyphenPair ∧
    (b = true → (replaceRuns (· == '-') ['-'] b s).head? ≠ some '-') := by
  induction s generalizing b with
  | nil => simp [replaceRuns]
  | cons a t ih =>
    unfold replaceRuns
    by_cases hp : a = '-'
    · have hpa : (a == '-') = true := by simpa using hp
      rw [if_pos hpa]
      obtain ⟨hc, hh⟩ := ih true
      cases b with
      | true =>
        rw [if_pos rfl, List.nil_append]
        exact ⟨hc, fun _ => hh rfl⟩
      | false =>
        rw [if_neg (by simp), List.singleton_append]
        constructor
        · rw [List.chain'_cons']
          refine ⟨?_, hc⟩
          intro y hy hpair
          apply hh rfl
          rw [Option.mem_def] at hy
          rw [hy, hpair.2]
        · intro h
          cases h
    · have hpa : ¬ (a == '-') = true := by simpa using hp
      rw [if_neg hpa]
      obtain ⟨hc, -⟩ := ih false
      constructor
      · rw [List.chain'_cons']
        exact ⟨fun y _ hpair => hp hpair.1, hc⟩
      · intro _ h
        apply hp
        simpa using h

theorem stripEdgeHyphens_spec (s : JStr) (hc : s.Chain' NoHyphenPair) :
    (stripEdgeHyphens s).head? ≠ some '-' ∧ (stripEdgeHyphens s).getLast? ≠ some '-' ∧
    (stripEdgeHyphens s).Chain' NoHyphenPair ∧ ∀ c ∈ stripEdgeHyphens s, c ∈ s := by
  -- the string after the leading hyphen is taken off
  have hs1 : ∃ s1 : JStr, (stripEdgeHyphens s
        = if s1.getLast? = some '-' then s1.dropLast else s1) ∧
      s1 <:+ s ∧ s1.head? ≠ some '-' := by
    cases s with
    | nil => exact ⟨[], rfl, List.suffix_refl _, by simp⟩
    | cons a t =>
      by_cases ha : a = '-'
      · subst ha
        refine ⟨t, rfl, List.suffix_cons _ _, ?_⟩
        intro hh
        rw [List.chain'_cons'] at hc
        exact hc.1 '-' (by simp [hh]) ⟨rfl, rfl⟩
      · refine ⟨a :: t, ?_, List.suffix_refl _, by simpa using ha⟩
        unfold stripEdgeHyphens
        split
        · rename_i t2 heq
          cases heq
          exact absurd rfl ha
        · rfl
  obtain ⟨s1, heq, hsuf, hhead⟩ := hs1
  have hc1 : s1.Chain' NoHyphenPair := hc.suffix hsuf
  rw [heq]
  by_cases hlast : s1.getLast? = some '-'
  · rw [if_pos hlast]
    have hdec : s1.dropLast ++ ['-'] = s1 := List.dropLast_append_getLast? '-' hlast
    refine ⟨?_, ?_, hc1.prefix (List.dropLast_prefix _), ?_⟩
    · rw [List.head?_dropLast]
      split
      · exact hhead
      · simp
    · intro hl2
      have hdec2 : s1.dropLast.dropLast ++ ['-'] = s1.dropLast :=
        List.dropLast_append_getLast? '-' hl2
      rw [← hdec, ← hdec2, List.append_assoc] at hc1
      have := (List.chain'_append.1 hc1).2.1
      simp [NoHyphenPair] at this
    · intro c hcm
      exact hsuf.subset ((List.dropLast_prefix _).subset hcm)
  · rw [if_neg hlast]
    exact ⟨hhead, hlast, hc1, fun c hcm => hsuf.subset hcm⟩

theorem isSlugChar_cases {c : Char} (h : isSlugChar c = true) :
    isLowerAlnum c = true ∨ isWhiteSpace c = true ∨ c = '-' := by
  unfold isSlugChar at h
  unfold isLowerAlnum
  simp only [Bool.or_eq_true, beq_iff_eq] at h ⊢
  tauto

/-- C13: for every input, the output of `toSlug` consists only of the characters a–z, 0–9
and `-`, does not begin with `-`, does not end with `-`, and has no two consecutive `-`. -/
theorem toSlug_shape (U : Unicode) (input : JVal) :
    (∀ c ∈ toSlug U input, isLowerAlnum c = true ∨ c = '-') ∧
    (toSlug U input).head? ≠ some '-' ∧
    (toSlug U input).getLast? ≠ some '-' ∧
    (toSlug U input).Chain' NoHyphenPair := by
  unfold toSlug
  obtain ⟨h1, h2, h3, h4⟩ := stripEdgeHyphens_spec _ (chain_collapse_hyphens
    (replaceRuns isWhiteSpace ['-'] false
      (List.filter isSlugChar
        (List.filter (fun c => !isCombiningMark c)
          (U.nfd (U.toLowerCase (normalize input)))))) false).1
  refine ⟨?_, h1, h2, h3⟩
  intro c hc
  rcases mem_replaceRuns (h4 c hc) with hm | ⟨hm, hne⟩
  · right; simpa using hm
  · rcases mem_replaceRuns hm with hm2 | ⟨hm2, hws⟩
    · right; simpa using hm2
    · rcases isSlugChar_cases (List.mem_filter.1 hm2).2 with h | h | h
      · exact Or.inl h
      · rw [h] at hws; exact Bool.noConfusion hws
      · exact Or.inr h

/-- Witness of C13: the slug of ` --Sơn Dương   x!-- ` is `son-duong-x`. -/
theorem toSlug_shape_witness :
    toSlug hornUnicode (JVal.str (" --".toList ++ sonDuong ++ "   x!-- ".toList))
      = "son-duong-x".toList ∧
    ((∀ c ∈ toSlug hornUnicode (JVal.str (" --".toList ++ sonDuong ++ "   x!-- ".toList)),
        isLowerAlnum c = true ∨ c = '-') ∧
      (toSlug hornUnicode
        (JVal.str (" --".toList ++ sonDuong ++ "   x!-- ".toList))).head? ≠ some '-' ∧
      (toSlug hornUnicode
        (JVal.str (" --".toList ++ sonDuong ++ "   x!-- ".toList))).getLast? ≠ some '-' ∧
      (toSlug hornUnicode
        (JVal.str (" --".toList ++ sonDuong ++ "   x!-- ".toList))).Chain' NoHyphenPair) :=
  ⟨by decide,
    toSlug_shape hornUnicode (JVal.str (" --".toList ++ sonDuong ++ "   x!-- ".toList))⟩

theorem getDocBySlug_str (U : Unicode) (list : List Document) (s : JStr) :
    getDocBySlug U list (JVal.str s)
      = list.find? (fun d => decide (d.slug = U.toLowerCase s)) := by
  unfold getDocBySlug
  rw [toJStr_or_str]

/-- C14: for every collection and every slug string `s`, `getDocBySlug(s)` returns the
first document, in collection order, whose slug equals the lower-cased `s`, and `null` when
there is none; hence lookups whose strings have the same lower-cased form return the same
document, and of several documents with one slug the earliest is returned. -/
theorem getDocBySlug_first_match (U : Unicode) (list : List Document) (s : JStr) :
    (∀ d, getDocBySlug U list (JVal.str s) = some d ↔
      d.slug = U.toLowerCase s ∧
        ∃ before after, list = before ++ d :: after ∧
          ∀ x ∈ before, x.slug ≠ U.toLowerCase s) ∧
    (getDocBySlug U list (JVal.str s) = none ↔ ∀ d ∈ list, d.slug ≠ U.toLowerCase s) ∧
    (∀ s2, U.toLowerCase s2 = U.toLowerCase s →
      getDocBySlug U list (JVal.str s2) = getDocBySlug U list (JVal.str s)) := by
  refine ⟨?_, ?_, ?_⟩
  · intro d
    rw [getDocBySlug_str, List.find?_eq_some]
    simp
  · rw [getDocBySlug_str, List.find?_eq_none]
    simp
  · intro s2 h
    rw [getDocBySlug_str, getDocBySlug_str, h]

/-- Witness of C14 on a list of three documents: `B` finds the second one. -/
theorem getDocBySlug_first_match_witness :
    (asciiUnicode.toLowerCase "B".toList = asciiUnicode.toLowerCase "b".toList ∧
      (getDocBySlug asciiUnicode facetDocs (JVal.str "B".toList)).map Document.doc_id
        = some (JVal.str "b".toList)) ∧
    getDocBySlug asciiUnicode facetDocs (JVal.str "B".toList)
      = getDocBySlug asciiUnicode facetDocs (JVal.str "b".toList) :=
  ⟨by decide,
    (getDocBySlug_first_match asciiUnicode facetDocs "b".toList).2.2 "B".toList (by decide)⟩

/-- C15 as stated fails: the corpus of the one document named `???` gives it the empty
slug, and the lookup with the empty slug, or with a missing one, returns that document,
not `null`. -/
theorem getDocBySlug_empty_slug_found :
    (loadRows asciiUnicode symbolLines).toOption.map
        (fun docs => (docs.map Document.slug,
          (getDocBySlug asciiUnicode docs (JVal.str [])).map Document.doc_id,
          (getDocBySlug asciiUnicode docs JVal.undefined).map Document.doc_id))
      = some ([[]], some (JVal.str "???".toList), some (JVal.str "???".toList)) := by
  decide

/-- C15 (amended): on every loaded collection in which no document has the empty slug, a
lookup with an empty or missing slug returns `null`; on every loaded collection, a lookup
with a slug whose lower-cased form is the slug of no document returns `null`.  The lookup
is a total function of the collection: it raises no error. -/
theorem getDocBySlug_not_found (U : Unicode) (list : List Document) :
    (U.toLowerCase [] = [] → (∀ d ∈ list, d.slug ≠ []) →
      getDocBySlug U list (JVal.str []) = none ∧
      getDocBySlug U list JVal.undefined = none ∧
      getDocBySlug U list JVal.null = none) ∧
    (∀ s, (∀ d ∈ list, d.slug ≠ U.toLowerCase s) →
      getDocBySlug U list (JVal.str s) = none) := by
  constructor
  · intro hU hne
    have h : list.find? (fun d => decide (d.slug = U.toLowerCase [])) = none := by
      rw [List.find?_eq_none]
      intro d hd
      rw [hU]
      simpa using hne d hd
    exact ⟨h, h, h⟩
  · intro s hne
    rw [getDocBySlug_str, List.find?_eq_none]
    intro d hd
    simpa using hne d hd

/-- Witness of C15 (amended) on a list of three documents with non-empty slugs. -/
theorem getDocBySlug_not_found_witness :
    ((asciiUnicode.toLowerCase [] = [] ∧ ∀ d ∈ facetDocs, d.slug ≠ []) ∧
      ∀ d ∈ facetDocs, d.slug ≠ asciiUnicode.toLowerCase "Tiger".toList) ∧
    (getDocBySlug asciiUnicode facetDocs (JVal.str []) = none ∧
      getDocBySlug asciiUnicode facetDocs JVal.undefined = none ∧
      getDocBySlug asciiUnicode facetDocs JVal.null = none) ∧
    getDocBySlug asciiUnicode facetDocs (JVal.str "Tiger".toList) = none :=
  ⟨by decide, (getDocBySlug_not_found asciiUnicode facetDocs).1 (by decide) (by decide),
    (getDocBySlug_not_found asciiUnicode facetDocs).2 "Tiger".toList (by decide)⟩

theorem includes_iff (hay needle : JStr) : includes hay needle = true ↔ needle <:+: hay := by
  unfold includes
  induction hay with
  | nil =>
    unfold indexOf
    by_cases h : needle.isPrefixOf [] = true
    · simp only [h, if_true, Option.isSome_some, true_iff]
      exact (List.isPrefixOf_iff_prefix.1 h).isInfix
    · simp only [h, if_false, Option.isSome_none, Bool.false_eq_true, false_iff]
      intro hinf
      apply h
      rw [List.isPrefixOf_iff_prefix]
      rw [List.infix_nil] at hinf
      rw [hinf]
  | cons c cs ih =>
    unfold indexOf
    rw [List.infix_cons_iff, ← ih]
    by_cases h : needle.isPrefixOf (c :: cs) = true
    · simp only [h, if_true, Option.isSome_some, true_iff]
      exact Or.inl (List.isPrefixOf_iff_prefix.1 h)
    · have h2 : ¬ needle <+: c :: cs := fun hp => h (List.isPrefixOf_iff_prefix.2 hp)
      simp [h, h2]

theorem norm_str (U : Unicode) (s : JStr) : norm U (JVal.str s) = normText U s := by
  unfold norm normText
  rw [toJStr_or_str]

theorem text_preview_of_loadRows {U : Unicode} {lines : List Line} {docs : List Document}
    (hload : loadRows U lines = Except.ok docs) :
    ∀ d ∈ docs, d.text_preview = d.text.take 600 := by
  unfold loadRows at hload
  cases hg : groupLines U [] lines with
  | error err => rw [hg] at hload; cases hload
  | ok map =>
    rw [hg] at hload
    cases hload
    intro d hd
    obtain ⟨kv, -, rfl⟩ := List.mem_map.1 hd
    show slice (toRow U kv.2).text 0 600 = List.take 600 (toRow U kv.2).text
    simp [slice]

theorem preview_or_text {d : Document} (h : d.text_preview = d.text.take 600) :
    JVal.or (JVal.or (JVal.str d.text_preview) (JVal.str d.text)) (JVal.str [])
      = JVal.str d.text_preview := by
  cases hp : d.text_preview with
  | cons c t => rfl
  | nil =>
    rw [hp] at h
    have ht : d.text = [] := by
      cases htext : d.text with
      | nil => rfl
      | cons a b => rw [htext] at h; simp at h
    rw [ht]
    rfl

set_option maxRecDepth 1000000 in
/-- C16 as stated fails: in the corpus of the one document `X` whose text is 600 letters
`a` followed by `zebra`, the normalised text contains the normalised query `zebra`, yet the
text filter drops the document: it searches the preview of 600 characters, not the text. -/
theorem textFilter_ignores_text_beyond_preview :
    trim "zebra".toList ≠ [] ∧
    (loadRows asciiUnicode longTextLines).toOption.map
        (fun docs =>
          (docs.map (fun d => includes (norm asciiUnicode (JVal.str d.text))
              (norm asciiUnicode (JVal.str "zebra".toList))),
            (textFilter asciiUnicode "zebra".toList docs).length))
      = some ([true], 0) := by
  decide

/-- C16 (amended): on every loaded collection, for every query that is non-empty after
trimming, the text filter keeps, in collection order, exactly the documents whose
normalised `doc_id` or normalised `text_preview` (the first 600 characters of `text`)
contains the normalised query as a substring, where normalisation lower-cases, decomposes
and strips the combining marks; a query that is empty after trimming keeps every
document. -/
theorem textFilter_searches_preview (U : Unicode) (lines : List Line) (docs : List Document)
    (hload : loadRows U lines = Except.ok docs) (q : JStr) :
    (trim q = [] → textFilter U q docs = docs) ∧
    (trim q ≠ [] →
      textFilter U q docs
        = docs.filter (fun d => decide (normText U q <:+: norm U d.doc_id ∨
            normText U q <:+: normText U d.text_preview))) := by
  constructor
  · intro hq
    unfold textFilter
    simp [hq]
  · intro hq
    unfold textFilter
    have hne : (!(trim q).isEmpty) = true := by
      cases htq : trim q with
      | nil => exact absurd htq hq
      | cons a b => rfl
    simp only [hne, if_true]
    apply List.filter_congr
    intro d hd
    rw [preview_or_text (text_preview_of_loadRows hload d hd), norm_str, norm_str,
      Bool.eq_iff_iff]
    simp only [Bool.or_eq_true, includes_iff, decide_eq_true_eq]

/-- Witness of C16 (amended) on the sample corpus: the query `GOAT` keeps `Son Duong`. -/
theorem textFilter_searches_preview_witness :
    (trim " ".toList = [] ∧ trim "GOAT".toList ≠ [] ∧
      (loadRows asciiUnicode sampleLines).toOption.map
          (fun docs => (textFilter asciiUnicode "GOAT".toList docs).map Document.doc_id)
        = some [JVal.str "Son Duong".toList]) ∧
    ∃ docs, loadRows asciiUnicode sampleLines = Except.ok docs ∧
      textFilter asciiUnicode " ".toList docs = docs ∧
      textFilter asciiUnicode "GOAT".toList docs
        = docs.filter (fun d => decide (
            normText asciiUnicode "GOAT".toList <:+: norm asciiUnicode d.doc_id ∨
            normText asciiUnicode "GOAT".toList <:+: normText asciiUnicode d.text_preview)) :=
  ⟨by decide,
    (loadRows_eq asciiUnicode sampleLines (by decide)).symm ▸
      ⟨_, rfl,
        (textFilter_searches_preview asciiUnicode sampleLines _
          (loadRows_eq asciiUnicode sampleLines (by decide)) " ".toList).1 (by decide),
        (textFilter_searches_preview asciiUnicode sampleLines _
          (loadRows_eq asciiUnicode sampleLines (by decide)) "GOAT".toList).2 (by decide)⟩⟩

theorem filter_filter_and {α : Type} (p q : α → Bool) (l : List α) :
    (l.filter p).filter q = l.filter (fun x => p x && q x) := by
  rw [List.filter_filter]
  congr 1
  funext x
  exact Bool.and_comm _ _

theorem statusFacet_eq (U : Unicode) (statusParam : JStr) (docs : List Document) :
    statusFacet U statusParam docs
      = docs.filter (fun d => decide (parseList (JVal.str statusParam) = [] ∨
          statusString U d ∈ (parseList (JVal.str statusParam)).map U.toUpperCase)) := by
  unfold statusFacet statusString
  cases hS : parseList (JVal.str statusParam) with
  | nil => simp
  | cons x rest =>
    simp only [List.map_cons, List.length_cons]
    have hne : ((List.map U.toUpperCase rest).length + 1 != 0) = true := by simp
    rw [if_pos hne]
    apply List.filter_congr
    intro d _
    simp

theorem imageFacet_eq (U : Unicode) (hasImageParam : JStr) (docs : List Document) :
    imageFacet U hasImageParam docs
      = docs.filter (fun d => decide (parseBool U (JVal.str hasImageParam) = none ∨
          (parseBool U (JVal.str hasImageParam) = some true ∧ d.image_url.truthy = true) ∨
          (parseBool U (JVal.str hasImageParam) = some false ∧ d.image_url.truthy = false))) := by
  unfold imageFacet
  cases hb : parseBool U (JVal.str hasImageParam) with
  | none => simp
  | some b =>
    cases b <;> simp

theorem mem_parseList_ne_nil {val : JVal} {x : JStr} (h : x ∈ parseList val) : x ≠ [] := by
  unfold parseList at h
  have := (List.mem_filter.1 h).2
  intro hx
  rw [hx] at this
  simp at this

theorem textFilter_blank (U : Unicode) (q : JStr) (docs : List Document)
    (hq : trim q = []) : textFilter U q docs = docs := by
  unfold textFilter
  simp [hq]

theorem sourceFacet_none (U : Unicode) (sourceParam : JStr) (docs : List Document)
    (h : parseList (JVal.str sourceParam) = []) : sourceFacet U sourceParam docs = docs := by
  unfold sourceFacet
  simp [h]

/-- C17: the status facet and the image facet compose by logical AND.  With `S` the list
of requested statuses and `b` the requested image flag, the two steps keep, in collection
order, exactly the documents that satisfy both (`S` is empty, or the upper-cased status of
the document is among the upper-cased members of `S`) and (`b` is unset, or `b` is true and
`image_url` is truthy, or `b` is false and `image_url` is not truthy); this is the list
`filtered` before sorting when there is no text query and no source facet; and a document
without status is kept by no non-empty `S`. -/
theorem facets_compose_by_and (U : Unicode) (statusParam hasImageParam : JStr)
    (docs : List Document) :
    imageFacet U hasImageParam (statusFacet U statusParam docs)
      = docs.filter (fun d => decide (
          (parseList (JVal.str statusParam) = [] ∨
            statusString U d ∈ (parseList (JVal.str statusParam)).map U.toUpperCase) ∧
          (parseBool U (JVal.str hasImageParam) = none ∨
            (parseBool U (JVal.str hasImageParam) = some true ∧ d.image_url.truthy = true) ∨
            (parseBool U (JVal.str hasImageParam) = some false ∧
              d.image_url.truthy = false)))) ∧
    (∀ query : Query, paramString query.status = statusParam →
      paramString query.hasImage = hasImageParam → trim (paramString query.q) = [] →
      parseList (JVal.str (paramString query.source)) = [] →
      filterDocs U query docs = imageFacet U hasImageParam (statusFacet U statusParam docs)) ∧
    (U.toUpperCase [] = [] → (∀ s, U.toUpperCase s = [] → s = []) →
      parseList (JVal.str statusParam) ≠ [] →
      ∀ d ∈ docs, d.iucn_status = JVal.null →
        d ∉ imageFacet U hasImageParam (statusFacet U statusParam docs)) := by
  have hmain : imageFacet U hasImageParam (statusFacet U statusParam docs)
      = docs.filter (fun d => decide (
          (parseList (JVal.str statusParam) = [] ∨
            statusString U d ∈ (parseList (JVal.str statusParam)).map U.toUpperCase) ∧
          (parseBool U (JVal.str hasImageParam) = none ∨
            (parseBool U (JVal.str hasImageParam) = some true ∧ d.image_url.truthy = true) ∨
            (parseBool U (JVal.str hasImageParam) = some false ∧
              d.image_url.truthy = false)))) := by
    rw [imageFacet_eq, statusFacet_eq, filter_filter_and]
    apply List.filter_congr
    intro d _
    simp only [Bool.decide_and]
  refine ⟨hmain, ?_, ?_⟩
  · intro query h1 h2 h3 h4
    unfold filterDocs
    rw [sourceFacet_none U _ _ h4, textFilter_blank U _ _ h3, h1, h2]
  · intro hU0 hU1 hS d _ hnull hmem
    rw [hmain] at hmem
    have hd := (List.mem_filter.1 hmem).2
    simp only [decide_eq_true_eq] at hd
    rcases hd.1 with h | h
    · exact hS h
    · obtain ⟨x, hx, hxu⟩ := List.mem_map.1 h
      have hst : statusString U d = [] := by
        unfold statusString
        rw [hnull]
        exact hU0
      rw [hst] at hxu
      exact mem_parseList_ne_nil hx (hU1 x hxu)

/-- Witness of C17: of the documents EN with image, EN without image, VU with image, the
request `status=EN`, `hasImage=true` keeps the first one only. -/
theorem facets_compose_by_and_witness :
    ((asciiUnicode.toUpperCase [] = [] ∧ parseList (JVal.str "EN".toList) ≠ []) ∧
      (imageFacet asciiUnicode "true".toList
          (statusFacet asciiUnicode "EN".toList facetDocs)).map Document.doc_id
        = [JVal.str "a".toList]) ∧
    (imageFacet asciiUnicode "true".toList (statusFacet asciiUnicode "EN".toList facetDocs)
      = facetDocs.filter (fun d => decide (
          (parseList (JVal.str "EN".toList) = [] ∨
            statusString asciiUnicode d
              ∈ (parseList (JVal.str "EN".toList)).map asciiUnicode.toUpperCase) ∧
          (parseBool asciiUnicode (JVal.str "true".toList) = none ∨
            (parseBool asciiUnicode (JVal.str "true".toList) = some true ∧
              d.image_url.truthy = true) ∨
            (parseBool asciiUnicode (JVal.str "true".toList) = some false ∧
              d.image_url.truthy = false))))) :=
  ⟨by decide, (facets_compose_by_and asciiUnicode "EN".toList "true".toList facetDocs).1⟩

/-- C18: when the list of requested source values is empty the source facet keeps every
document; otherwise it keeps, in collection order, exactly the documents that have at least
one `source` value whose normalised form equals the normalised form of at least one
requested value. -/
theorem sourceFacet_any_of (U : Unicode) (sourceParam : JStr) (docs : List Document) :
    (parseList (JVal.str sourceParam) = [] → sourceFacet U sourceParam docs = docs) ∧
    (parseList (JVal.str sourceParam) ≠ [] →
      sourceFacet U sourceParam docs
        = docs.filter (fun d => decide (∃ v ∈ d.source,
            ∃ r ∈ parseList (JVal.str sourceParam), norm U v = norm U (JVal.str r)))) := by
  refine ⟨sourceFacet_none U sourceParam docs, ?_⟩
  intro hne
  unfold sourceFacet
  have hlen : (((parseList (JVal.str sourceParam)).map
      (fun x => norm U (JVal.str x))).length != 0) = true := by
    simpa using hne
  simp only [hlen, if_true]
  apply List.filter_congr
  intro d _
  rw [Bool.eq_iff_iff]
  simp only [List.any_eq_true, decide_eq_true_eq, List.mem_map, List.contains_iff_exists_mem_beq,
    beq_iff_eq]
  constructor
  · rintro ⟨s, ⟨r, hr, rfl⟩, w, ⟨v, hv, rfl⟩, hvs⟩
    exact ⟨v, hv, r, hr, hvs.symm⟩
  · rintro ⟨v, hv, r, hr, hvs⟩
    exact ⟨_, ⟨r, hr, rfl⟩, _, ⟨v, hv, rfl⟩, hvs.symm⟩

/-- Witness of C18: the request `WIKI, x` keeps the one document with source `Wiki`. -/
theorem sourceFacet_any_of_witness :
    (parseList (JVal.str "WIKI, x".toList) ≠ [] ∧
      (sourceFacet asciiUnicode "WIKI, x".toList facetDocs).map Document.doc_id
        = [JVal.str "a".toList] ∧
      parseList (JVal.str " , ".toList) = []) ∧
    sourceFacet asciiUnicode " , ".toList facetDocs = facetDocs ∧
    sourceFacet asciiUnicode "WIKI, x".toList facetDocs
      = facetDocs.filter (fun d => decide (∃ v ∈ d.source,
          ∃ r ∈ parseList (JVal.str "WIKI, x".toList),
            norm asciiUnicode v = norm asciiUnicode (JVal.str r))) :=
  ⟨by decide, (sourceFacet_any_of asciiUnicode " , ".toList facetDocs).1 (by decide),
    (sourceFacet_any_of asciiUnicode "WIKI, x".toList facetDocs).2 (by decide)⟩

theorem arraySlice_nat {α : Type} (l : List α) (a c : Nat) :
    arraySlice l (a : Int) ((a : Int) + (c : Int)) = (l.drop a).take c := by
  unfold arraySlice
  have h1 : ¬ ((a : Int) < 0) := by omega
  have h2 : ¬ ((a : Int) + (c : Int) < 0) := by omega
  simp only [h1, h2, if_false]
  by_cases hle : a ≤ l.length
  · have hk : (min (a : Int) (l.length : Int)).toNat = a := by omega
    rw [hk, List.take_eq_take, List.length_drop]
    omega
  · have hk : (min (a : Int) (l.length : Int)).toNat = l.length := by omega
    rw [hk, List.drop_eq_nil_of_le (Nat.le_refl _), List.drop_eq_nil_of_le (by omega)]
    simp

theorem length_arraySlice_le {α : Type} (l : List α) (start size : Int) (h0 : 0 ≤ start)
    (hs : 0 ≤ size) : ((arraySlice l start (start + size)).length : Int) ≤ size := by
  obtain ⟨a, rfl⟩ := Int.eq_ofNat_of_zero_le h0
  obtain ⟨c, rfl⟩ := Int.eq_ofNat_of_zero_le hs
  rw [arraySlice_nat, List.length_take]
  omega

/-- C19: for every filtered list `F`, page number `p ≥ 1` and page size `s`, the response
has `total = |F|` and `items` are the projections of the elements of `F` from position
`(p − 1)·s` up to, not including, `(p − 1)·s + s`; hence there are
`min(s, |F| − (p − 1)·s)` items (the difference cut at 0), and a page beyond the end has
no item and the same total. -/
theorem respond_page (F : List Document) (p s : Nat) (hp : 1 ≤ p) :
    (respond F (p : Int) (s : Int)).total = F.length ∧
    (respond F (p : Int) (s : Int)).items = ((F.drop ((p - 1) * s)).take s).map toItem ∧
    (respond F (p : Int) (s : Int)).items.length = min s (F.length - (p - 1) * s) ∧
    (F.length ≤ (p - 1) * s →
      (respond F (p : Int) (s : Int)).items = [] ∧
      (respond F (p : Int) (s : Int)).total = F.length) := by
  have hstart : ((p : Int) - 1) * (s : Int) = (((p - 1) * s : Nat) : Int) := by
    obtain ⟨k, rfl⟩ : ∃ k, p = k + 1 := ⟨p - 1, by omega⟩
    simp
  have hitems : (respond F (p : Int) (s : Int)).items
      = ((F.drop ((p - 1) * s)).take s).map toItem := by
    show (arraySlice F (((p : Int) - 1) * (s : Int)) (((p : Int) - 1) * (s : Int) + (s : Int))).map
      toItem = _
    rw [hstart, arraySlice_nat]
  refine ⟨rfl, hitems, ?_, ?_⟩
  · rw [hitems, List.length_map, List.length_take, List.length_drop]
  · intro hbeyond
    refine ⟨?_, rfl⟩
    rw [hitems, List.drop_eq_nil_of_le hbeyond]
    simp

/-- Witness of C19: of 25 documents with page size 12, page 1 has 12 items, page 3 has 1,
page 4 has none, and the total is 25 each time. -/
theorem respond_page_witness :
    ((1 ≤ 1 ∧ 1 ≤ 3 ∧ 1 ≤ 4 ∧ manyDocs.length ≤ (4 - 1) * 12) ∧
      (respond manyDocs 1 12).items.length = 12 ∧ (respond manyDocs 1 12).total = 25 ∧
      (respond manyDocs 3 12).items.length = 1 ∧ (respond manyDocs 3 12).total = 25) ∧
    (respond manyDocs ((1 : Nat) : Int) ((12 : Nat) : Int)).items.length
      = min 12 (manyDocs.length - (1 - 1) * 12) ∧
    (respond manyDocs ((3 : Nat) : Int) ((12 : Nat) : Int)).items.length
      = min 12 (manyDocs.length - (3 - 1) * 12) ∧
    ((respond manyDocs ((4 : Nat) : Int) ((12 : Nat) : Int)).items = [] ∧
      (respond manyDocs ((4 : Nat) : Int) ((12 : Nat) : Int)).total = manyDocs.length) :=
  ⟨by decide, (respond_page manyDocs 1 12 (by decide)).2.2.1,
    (respond_page manyDocs 3 12 (by decide)).2.2.1,
    (respond_page manyDocs 4 12 (by decide)).2.2.2 (by decide)⟩

/-- C20: whatever the `pageSize` and `page` parameters of the request are (a number,
missing, or not numeric), the effective page size lies between 1 and 50, the effective page
number is at least 1, both are echoed in the response, and the response holds at most 50
items. -/
theorem page_size_bounds (pageParam pageSizeParam : JVal) (F : List Document) :
    1 ≤ parsePageSize pageSizeParam ∧ parsePageSize pageSizeParam ≤ 50 ∧
    1 ≤ parsePage pageParam ∧
    (respond F (parsePage pageParam) (parsePageSize pageSizeParam)).pageSize
      = parsePageSize pageSizeParam ∧
    (respond F (parsePage pageParam) (parsePageSize pageSizeParam)).page
      = parsePage pageParam ∧
    (respond F (parsePage pageParam) (parsePageSize pageSizeParam)).items.length ≤ 50 := by
  have h1 : 1 ≤ parsePageSize pageSizeParam := by
    unfold parsePageSize; omega
  have h2 : parsePageSize pageSizeParam ≤ 50 := by
    unfold parsePageSize; omega
  have h3 : 1 ≤ parsePage pageParam := by
    unfold parsePage; omega
  refine ⟨h1, h2, h3, rfl, rfl, ?_⟩
  show ((arraySlice F _ _).map toItem).length ≤ 50
  rw [List.length_map]
  have hstart : 0 ≤ (parsePage pageParam - 1) * parsePageSize pageSizeParam :=
    Int.mul_nonneg (by omega) (by omega)
  have := length_arraySlice_le F _ (parsePageSize pageSizeParam) hstart (by omega)
  omega

/-- Witness of C20: the requested sizes 500, -5, 0, `abc` and a missing one give 50, 1, 12,
12 and 12; the requested pages 0 and `x` give 1. -/
theorem page_size_bounds_witness :
    (parsePageSize (JVal.str "500".toList) = 50 ∧ parsePageSize (JVal.str "-5".toList) = 1 ∧
      parsePageSize (JVal.str "0".toList) = 12 ∧ parsePageSize (JVal.str "abc".toList) = 12 ∧
      parsePageSize JVal.undefined = 12 ∧ parsePage (JVal.str "0".toList) = 1 ∧
      parsePage (JVal.str "x".toList) = 1 ∧ parsePage (JVal.str "3".toList) = 3) ∧
    (1 ≤ parsePageSize (JVal.str "500".toList) ∧ parsePageSize (JVal.str "500".toList) ≤ 50 ∧
      1 ≤ parsePage (JVal.str "0".toList) ∧
      (respond manyDocs (parsePage (JVal.str "0".toList))
          (parsePageSize (JVal.str "500".toList))).pageSize
        = parsePageSize (JVal.str "500".toList) ∧
      (respond manyDocs (parsePage (JVal.str "0".toList))
          (parsePageSize (JVal.str "500".toList))).page
        = parsePage (JVal.str "0".toList) ∧
      (respond manyDocs (parsePage (JVal.str "0".toList))
          (parsePageSize (JVal.str "500".toList))).items.length ≤ 50) :=
  ⟨by decide, page_size_bounds (JVal.str "0".toList) (JVal.str "500".toList) manyDocs⟩

/-! ## Lemmas: sorting, pages, slugs of slugs -/

theorem orderedInsert_filter_key {α : Type} (key : α → Int) (v : Int) (a : α) (l : List α) :
    (List.orderedInsert (fun a b => key b - key a ≤ 0) a l).filter (fun d => decide (key d = v))
      = (a :: l).filter (fun d => decide (key d = v)) := by
  induction l with
  | nil => rfl
  | cons b t ih =>
    rw [List.orderedInsert]
    by_cases h : key b - key a ≤ 0
    · rw [if_pos h]
    · rw [if_neg h, List.filter_cons, ih]
      by_cases ha : key a = v
      · have hb : ¬ key b = v := by omega
        simp [List.filter_cons, ha, hb]
      · simp [List.filter_cons, ha]

theorem sortBy_desc {α : Type} (key : α → Int) (l : List α) :
    (sortBy (fun a b => key b - key a) l).Perm l ∧
    (sortBy (fun a b => key b - key a) l).Pairwise (fun a b => key b ≤ key a) ∧
    ∀ v, (sortBy (fun a b => key b - key a) l).filter (fun d => decide (key d = v))
      = l.filter (fun d => decide (key d = v)) := by
  refine ⟨List.perm_insertionSort _ l, ?_, ?_⟩
  · haveI : IsTotal α (fun a b => key b - key a ≤ 0) := ⟨fun a b => by
      show key b - key a ≤ 0 ∨ key a - key b ≤ 0
      omega⟩
    haveI : IsTrans α (fun a b => key b - key a ≤ 0) := ⟨fun a b c hab hbc => by
      show key c - key a ≤ 0
      have h1 : key b - key a ≤ 0 := hab
      have h2 : key c - key b ≤ 0 := hbc
      omega⟩
    have hs := List.sorted_insertionSort (fun a b => key b - key a ≤ 0) l
    exact List.Pairwise.imp (fun {a b} (h : key b - key a ≤ 0) => by omega) hs
  · intro v
    unfold sortBy
    induction l with
    | nil => rfl
    | cons a t ih =>
      rw [List.insertionSort, orderedInsert_filter_key, List.filter_cons, List.filter_cons, ih]

theorem foldl_max_eq (xs : List Int) (m : Int) (hm : 0 ≤ m) :
    xs.foldl (fun m x => if x > m then x else m) m = max m (xs.foldr max 0) := by
  induction xs generalizing m with
  | nil => simp [hm]
  | cons x t ih =>
    rw [List.foldl_cons, List.foldr_cons]
    by_cases h : x > m
    · rw [if_pos h, ih x (by omega)]
      omega
    · rw [if_neg h, ih m hm]
      omega

theorem len_eq_descLen (d : Document) : len d = descLen d := by
  unfold len descLen JVal.or
  cases h : d.text with
  | nil =>
    cases h2 : d.text_preview with
    | nil => simp [JVal.truthy, JVal.toJStr]
    | cons a t => simp [JVal.truthy, JVal.toJStr]
  | cons a t => simp [JVal.truthy, JVal.toJStr]

theorem digitRunsFrom_digits (run ds rest : JStr) (hds : ∀ c ∈ ds, c.isDigit = true)
    (hrest : ∀ c, rest.head? = some c → c.isDigit = false) :
    digitRunsFrom run (ds ++ rest)
      = (if (run ++ ds).isEmpty then [] else [run ++ ds]) ++ digitRuns rest := by
  induction ds generalizing run with
  | nil =>
    cases rest with
    | nil => simp [digitRunsFrom, digitRuns]
    | cons c cs =>
      have hc : c.isDigit = false := hrest c rfl
      simp [digitRunsFrom, digitRuns, hc]
  | cons a t ih =>
    have ha : a.isDigit = true := hds a (List.mem_cons_self _ _)
    rw [List.cons_append, digitRunsFrom, if_pos ha,
      ih (run ++ [a]) (fun c hc => hds c (List.mem_cons_of_mem _ hc))]
    simp

theorem digitRuns_gap (gap s : JStr) (hgap : ∀ c ∈ gap, c.isDigit = false) :
    digitRuns (gap ++ s) = digitRuns s := by
  induction gap with
  | nil => rfl
  | cons a t ih =>
    have ha : a.isDigit = false := hgap a (List.mem_cons_self _ _)
    have := ih (fun c hc => hgap c (List.mem_cons_of_mem _ hc))
    unfold digitRuns at this ⊢
    rw [List.cons_append, digitRunsFrom]
    simp [ha, this]

theorem digitRuns_run (gap run rest : JStr) (hgap : ∀ c ∈ gap, c.isDigit = false)
    (hne : run ≠ []) (hrun : ∀ c ∈ run, c.isDigit = true)
    (hrest : ∀ c, rest.head? = some c → c.isDigit = false) :
    digitRuns (gap ++ run ++ rest) = run :: digitRuns rest := by
  rw [List.append_assoc, digitRuns_gap _ _ hgap]
  unfold digitRuns
  rw [digitRunsFrom_digits [] run rest hrun hrest]
  simp [hne, digitRuns]

theorem mem_digitRunsFrom {run s r : JStr} (hrun : ∀ c ∈ run, c.isDigit = true)
    (h : r ∈ digitRunsFrom run s) : r ≠ [] ∧ ∀ c ∈ r, c.isDigit = true := by
  induction s generalizing run with
  | nil =>
    unfold digitRunsFrom at h
    split at h
    · simp at h
    · rename_i hne
      simp only [List.mem_singleton] at h
      subst h
      exact ⟨by simpa using hne, hrun⟩
  | cons a t ih =>
    unfold digitRunsFrom at h
    by_cases ha : a.isDigit = true
    · rw [if_pos ha] at h
      apply @ih (run ++ [a]) _ h
      intro c hc
      rcases List.mem_append.1 hc with h1 | h1
      · exact hrun c h1
      · simp only [List.mem_singleton] at h1
        rw [h1]; exact ha
    · rw [if_neg ha] at h
      rcases List.mem_append.1 h with h1 | h1
      · split at h1
        · simp at h1
        · rename_i hne
          simp only [List.mem_singleton] at h1
          subst h1
          exact ⟨by simpa using hne, hrun⟩
      · exact @ih [] (by simp) h1

theorem not_ws_of_isDigit {c : Char} (h : c.isDigit = true) :
    isWhiteSpace c = false ∧ c ≠ '-' ∧ c ≠ '+' := by
  have h1 : 48 ≤ c.toNat ∧ c.toNat ≤ 57 := by
    unfold Char.isDigit at h
    simp only [Bool.and_eq_true, decide_eq_true_eq] at h
    have a := h.1
    have b := h.2
    rw [ge_iff_le, UInt32.le_def] at a
    rw [UInt32.le_def] at b
    exact ⟨a, b⟩
  refine ⟨?_, ?_, ?_⟩
  · unfold isWhiteSpace
    simp only [Bool.or_eq_false_iff, Bool.and_eq_false_iff, decide_eq_false_iff_not,
      beq_eq_false_iff_ne, ne_eq]
    omega
  · intro hc; rw [hc] at h1; revert h1; decide
  · intro hc; rw [hc] at h1; revert h1; decide


theorem parseInt10_cons (a : Char) (t : JStr) (h1 : isWhiteSpace a = false) (h2 : a ≠ '-')
    (h3 : a ≠ '+') :
    parseInt10 (a :: t) = if ((a :: t).takeWhile Char.isDigit).isEmpty then none
      else some (runValue ((a :: t).takeWhile Char.isDigit)) := by
  have key : ∀ (m2 : JStr) (m1 : Bool), m2 = a :: t → m1 = false →
      (if (m2.takeWhile Char.isDigit).isEmpty then none
        else some (if m1 = true
          then -(((m2.takeWhile Char.isDigit).foldl
            (fun acc c => acc * 10 + (c.toNat - 48)) 0 : Nat) : Int)
          else (((m2.takeWhile Char.isDigit).foldl
            (fun acc c => acc * 10 + (c.toNat - 48)) 0 : Nat) : Int)))
      = if ((a :: t).takeWhile Char.isDigit).isEmpty then none
        else some (runValue ((a :: t).takeWhile Char.isDigit)) := by
    intro m2 m1 e2 e1
    subst e2 e1
    simp [runValue]
  unfold parseInt10
  simp only [List.dropWhile_cons, h1, Bool.false_eq_true, if_false]
  apply key
  · split
    · rename_i heq; cases heq; exact absurd rfl h2
    · rename_i heq; cases heq; exact absurd rfl h3
    · rfl
  · split
    · rename_i heq; cases heq; exact absurd rfl h2
    · rfl

theorem parseInt10_minus (t : JStr) :
    parseInt10 ('-' :: t) = if (t.takeWhile Char.isDigit).isEmpty then none
      else some (-(runValue (t.takeWhile Char.isDigit))) := by
  unfold parseInt10
  simp only [List.dropWhile_cons, show isWhiteSpace '-' = false by decide, Bool.false_eq_true,
    if_false]
  simp [runValue]


theorem parseInt10_digits (z : JStr) (hne : z ≠ []) (hz : ∀ c ∈ z, c.isDigit = true) :
    parseInt10 z = some (runValue z) := by
  cases z with
  | nil => exact absurd rfl hne
  | cons a t =>
    obtain ⟨h1, h2, h3⟩ := not_ws_of_isDigit (hz a (List.mem_cons_self _ _))
    have htw : (a :: t).takeWhile Char.isDigit = a :: t := by
      rw [List.takeWhile_eq_self_iff]
      exact hz
    rw [parseInt10_cons a t h1 h2 h3, htw]
    rfl

theorem foldr_max_nonneg (xs : List Int) : 0 ≤ xs.foldr max 0 := by
  induction xs with
  | nil => simp
  | cons x t ih => simp only [List.foldr_cons]; omega

theorem foldr_max_init (xs : List Int) (b : Int) (hb : 0 ≤ b) :
    xs.foldr max b = max (xs.foldr max 0) b := by
  induction xs with
  | nil => simp [hb]
  | cons x t ih => simp only [List.foldr_cons, ih]; omega

theorem roundToDouble_small (n : Nat) (h : n < 2 ^ 53) : roundToDouble n = some n := by
  have he : exponentOf n n = 0 := by
    cases n with
    | zero => rfl
    | succ k => rw [exponentOf, if_pos h]
  unfold roundToDouble
  simp [he, Nat.mod_one]

theorem runNumber_nonneg (r : JStr) : 0 ≤ runNumber r := by
  unfold runNumber
  split
  · exact Int.ofNat_nonneg _
  · exact le_refl 0

theorem runNumber_small (r : JStr) (h : runValue r < 2 ^ 53) : runNumber r = runValue r := by
  have hk : ((runValue r).toNat : Int) = runValue r := Int.toNat_of_nonneg (by
    unfold runValue
    exact Int.ofNat_nonneg _)
  have hlt : (runValue r).toNat < 2 ^ 53 := by
    have : ((runValue r).toNat : Int) < 2 ^ 53 := by rw [hk]; exact h
    exact_mod_cast this
  unfold runNumber
  rw [roundToDouble_small _ hlt]
  exact hk

theorem parseInt_run (r : JStr) (hne : r ≠ []) (hd : ∀ c ∈ r, c.isDigit = true) :
    parseInt r = JsNumber.finite (runNumber r) ∨
    (parseInt r = JsNumber.infinite false ∧ runNumber r = 0) := by
  have hk : (runValue r).natAbs = (runValue r).toNat := by
    unfold runValue
    simp
  have hpos : ¬ runValue r < 0 := by
    unfold runValue
    simp
  unfold parseInt runNumber
  rw [parseInt10_digits r hne hd]
  simp only [hk]
  cases roundToDouble (runValue r).toNat with
  | none => right; simp [hpos]
  | some v => left; simp [hpos]

theorem foldl_runs_max (f : Int → JStr → Int)
    (hf : ∀ m r, 0 ≤ m → r ≠ [] → (∀ c ∈ r, c.isDigit = true) →
      f m r = if runNumber r > m then runNumber r else m)
    (ids : List JVal) (m : Int) (hm : 0 ≤ m) :
    ids.foldl (fun max id => (digitRuns id.toJStr).foldl f max) m
      = max m (((ids.flatMap (fun id => digitRuns id.toJStr)).map runNumber).foldr max 0) := by
  have runs : ∀ (rs : List JStr), (∀ r ∈ rs, r ≠ [] ∧ ∀ c ∈ r, c.isDigit = true) →
      ∀ m : Int, 0 ≤ m → rs.foldl f m = max m ((rs.map runNumber).foldr max 0) := by
    intro rs
    induction rs with
    | nil => intro _ m hm; simp [hm]
    | cons r t ih =>
      intro hrs m hm
      obtain ⟨hne, hdig⟩ := hrs r (List.mem_cons_self _ _)
      have hn := runNumber_nonneg r
      rw [List.foldl_cons, hf m r hm hne hdig, List.map_cons, List.foldr_cons]
      by_cases h : runNumber r > m
      · rw [if_pos h, ih (fun x hx => hrs x (List.mem_cons_of_mem _ hx)) _ hn]
        omega
      · rw [if_neg h, ih (fun x hx => hrs x (List.mem_cons_of_mem _ hx)) _ hm]
        omega
  have inner : ∀ (s : JStr) (m : Int), 0 ≤ m →
      (digitRuns s).foldl f m = max m (((digitRuns s).map runNumber).foldr max 0) :=
    fun s m hm => runs _ (fun r hr => @mem_digitRunsFrom [] _ _ (by simp) hr) m hm
  induction ids generalizing m with
  | nil => simp [hm]
  | cons id t ih =>
    simp only [List.foldl_cons]
    rw [inner _ m hm, ih _ (by omega)]
    simp only [List.flatMap_cons, List.map_append, List.foldr_append]
    rw [foldr_max_init _ _ (foldr_max_nonneg _)]
    have := foldr_max_nonneg ((digitRuns id.toJStr).map runNumber)
    omega

theorem score_eq_maxRunNumber (d : Document) : score d = maxRunNumber d := by
  unfold score maxRunNumber
  refine (foldl_runs_max _ ?_ _ 0 (le_refl 0)).trans ?_
  · intro m r hm hne hd
    show (match parseInt r with
      | JsNumber.finite n => if n > m then n else m
      | _ => m) = _
    rcases parseInt_run r hne hd with h | ⟨h, h0⟩
    · rw [h]
    · rw [h, h0]
      show m = _
      rw [if_neg (by omega)]
  · have := foldr_max_nonneg
      ((d.chunk_ids.flatMap (fun id => digitRuns id.toJStr)).map runNumber)
    omega

theorem maxRunNumber_eq_maxRunValue (d : Document)
    (h : ∀ id ∈ d.chunk_ids, ∀ run ∈ digitRuns id.toJStr, runValue run < 2 ^ 53) :
    maxRunNumber d = maxRunValue d := by
  unfold maxRunNumber maxRunValue
  congr 1
  apply List.map_congr_left
  intro r hr
  obtain ⟨id, hid, hrun⟩ := List.mem_flatMap.1 hr
  exact runNumber_small r (h id hid r hrun)

theorem toString_ofNat (m : Nat) : (toString (m : Int)).toList = Nat.toDigits 10 m := by
  rfl

theorem toString_negSucc (m : Nat) :
    (toString (Int.negSucc m)).toList = '-' :: Nat.toDigits 10 (m + 1) := by
  rfl

/-- The digits of a number, most significant first, and the digits before them. -/
theorem toDigitsCore_spec (fuel n : Nat) (ds : List Char) (hfuel : n < fuel) :
    ∃ z : List Char, Nat.toDigitsCore 10 fuel n ds = z ++ ds ∧ z ≠ [] ∧
      (∀ c ∈ z, c.isDigit = true) ∧
      z.foldl (fun acc c => acc * 10 + (c.toNat - 48)) 0 = n := by
  induction fuel generalizing n ds with
  | zero => omega
  | succ f ih =>
    have hd : (Nat.digitChar (n % 10)).isDigit = true ∧
        (Nat.digitChar (n % 10)).toNat - 48 = n % 10 := by
      have : n % 10 < 10 := Nat.mod_lt _ (by decide)
      interval_cases (n % 10) <;> decide
    unfold Nat.toDigitsCore
    by_cases h0 : n / 10 = 0
    · simp only [h0, if_true]
      refine ⟨[Nat.digitChar (n % 10)], rfl, by simp, ?_, ?_⟩
      · simpa using hd.1
      · simp only [List.foldl_cons, List.foldl_nil, hd.2]
        omega
    · simp only [h0, if_false]
      obtain ⟨z, hz, hne, hdig, hval⟩ := ih (n / 10) (Nat.digitChar (n % 10) :: ds) (by omega)
      refine ⟨z ++ [Nat.digitChar (n % 10)], ?_, by simp, ?_, ?_⟩
      · rw [hz]; simp
      · intro c hc
        rcases List.mem_append.1 hc with h | h
        · exact hdig c h
        · simp only [List.mem_singleton] at h
          rw [h]; exact hd.1
      · rw [List.foldl_append, hval]
        simp only [List.foldl_cons, List.foldl_nil, hd.2]
        omega

theorem toDigits_spec (n : Nat) :
    Nat.toDigits 10 n ≠ [] ∧ (∀ c ∈ Nat.toDigits 10 n, c.isDigit = true) ∧
    runValue (Nat.toDigits 10 n) = n := by
  obtain ⟨z, hz, hne, hdig, hval⟩ := toDigitsCore_spec (n + 1) n [] (by omega)
  unfold Nat.toDigits
  rw [hz, List.append_nil]
  exact ⟨hne, hdig, by unfold runValue; rw [hval]⟩

theorem parseInt10_toString (n : Int) : parseInt10 (toString n).toList = some n := by
  cases n with
  | ofNat m =>
    obtain ⟨hne, hdig, hval⟩ := toDigits_spec m
    rw [show (toString (Int.ofNat m)).toList = Nat.toDigits 10 m from rfl,
      parseInt10_digits _ hne hdig, hval]
    rfl
  | negSucc m =>
    obtain ⟨hne, hdig, hval⟩ := toDigits_spec (m + 1)
    have htw : (Nat.toDigits 10 (m + 1)).takeWhile Char.isDigit = Nat.toDigits 10 (m + 1) := by
      rw [List.takeWhile_eq_self_iff]
      exact hdig
    rw [toString_negSucc, parseInt10_minus, htw, hval]
    have : ¬ (Nat.toDigits 10 (m + 1)).isEmpty = true := by simpa using hne
    rw [if_neg this]
    rfl

theorem parsePageSize_of_parse (s : JStr) (n : Int) (hs : parseInt10 s = some n) :
    parsePageSize (JVal.str s) = if n = 0 then 12 else min (max n 1) 50 := by
  have hne : s ≠ [] := by
    intro h
    rw [h, show parseInt10 [] = none from rfl] at hs
    cases hs
  have hor : (JVal.or (JVal.str s) (JVal.str "12".toList)).toJStr = s := by
    cases s with
    | nil => exact absurd rfl hne
    | cons a t => rfl
  unfold parsePageSize parseSizeRaw
  rw [hor, hs]
  unfold numberOr
  by_cases h0 : n = 0
  · subst h0
    rfl
  · have : (n != 0) = true := by simpa using h0
    simp only [this, if_true, h0, if_false]

theorem sortDocs_of_sort (U : Unicode) (localeCompare : JStr → JStr → Int) (sortParam : JStr)
    (F : List Document) (hne : sortParam ≠ []) :
    (U.toLowerCase sortParam = "desc_len".toList →
      sortDocs U localeCompare sortParam F = sortBy (fun a b => len b - len a) F) ∧
    (U.toLowerCase sortParam = "newest".toList →
      sortDocs U localeCompare sortParam F = sortBy (fun a b => score b - score a) F) := by
  have ht : (JVal.str sortParam).truthy = true := by
    cases sortParam with
    | nil => exact absurd rfl hne
    | cons a t => rfl
  constructor
  · intro h
    simp only [sortDocs, ht, if_true, h]
    rw [if_neg (by decide)]
  · intro h
    simp only [sortDocs, ht, if_true, h]
    rw [if_neg (by decide), if_neg (by decide)]

theorem groupLines_throws (U : Unicode) (lines : List Line) (map : DocMap)
    (h : ∃ l ∈ lines, l.throws = true) :
    groupLines U map lines = Except.error JsError.typeError := by
  induction lines generalizing map with
  | nil =>
    obtain ⟨l, hl, -⟩ := h
    cases hl
  | cons l rest ih =>
    have hrest : l.throws = false → ∃ l ∈ rest, l.throws = true := by
      intro hl
      obtain ⟨x, hx, hxt⟩ := h
      rcases List.mem_cons.1 hx with e | e
      · rw [e, hl] at hxt; cases hxt
      · exact ⟨x, e, hxt⟩
    cases l with
    | blank => exact ih map (hrest rfl)
    | malformed => exact ih map (hrest rfl)
    | parsed v =>
      unfold groupLines
      by_cases hv : v.isNullish = true
      · rw [if_pos hv]
      · rw [if_neg hv]
        exact ih _ (hrest (by simpa [Line.throws] using hv))

theorem groupLines_filter_skipped (U : Unicode) (lines : List Line) (map : DocMap)
    (hok : ∀ l ∈ lines, l.throws = false) :
    groupLines U map (lines.filter (fun l => !l.skipped)) = groupLines U map lines := by
  induction lines generalizing map with
  | nil => rfl
  | cons l rest ih =>
    have hrest : ∀ l ∈ rest, l.throws = false := fun l hl => hok l (List.mem_cons_of_mem _ hl)
    cases l with
    | blank => simpa [List.filter_cons, Line.skipped, groupLines] using ih map hrest
    | malformed => simpa [List.filter_cons, Line.skipped, groupLines] using ih map hrest
    | parsed v =>
      have hv : v.isNullish = false := hok (Line.parsed v) (List.mem_cons_self _ _)
      by_cases hkey : (docKeyOf v).truthy = true
      · have hs : (!(Line.parsed v).skipped) = true := by simp [Line.skipped, hv, hkey]
        rw [List.filter_cons, if_pos hs]
        simp only [groupLines, hv, Bool.false_eq_true, if_false]
        exact ih _ hrest
      · have hkey2 : (docKeyOf v).truthy = false := by simpa using hkey
        have hs : ¬ (!(Line.parsed v).skipped) = true := by simp [Line.skipped, hv, hkey2]
        rw [List.filter_cons, if_neg hs, ih map hrest]
        simp only [groupLines, hv, Bool.false_eq_true, if_false]
        simp [addFragment, hkey2]

theorem respond_items (F : List Document) (i s : Nat) :
    (respond F ((i + 1 : Nat) : Int) (s : Int)).items
      = ((F.drop (i * s)).take s).map toItem := by
  have hstart : (((i + 1 : Nat) : Int) - 1) * (s : Int) = ((i * s : Nat) : Int) := by
    simp
  show (arraySlice F ((((i + 1 : Nat) : Int) - 1) * (s : Int))
    ((((i + 1 : Nat) : Int) - 1) * (s : Int) + (s : Int))).map toItem = _
  rw [hstart, arraySlice_nat]

theorem flatMap_pages {α : Type} (F : List α) (s n : Nat) :
    (List.range n).flatMap (fun i => (F.drop (i * s)).take s) = F.take (n * s) := by
  induction n with
  | zero => simp
  | succ n ih =>
    rw [List.range_succ, List.flatMap_append, ih, Nat.succ_mul, List.take_add]
    simp

theorem le_pageCount_mul (n s : Nat) (hs : 1 ≤ s) : n ≤ pageCount n s * s := by
  unfold pageCount
  have h := Nat.lt_mul_div_succ (n + s - 1) (show 0 < s by omega)
  rw [Nat.mul_add, Nat.mul_one, Nat.mul_comm] at h
  omega

theorem pageCount_mul_lt (n s p : Nat) (hs : 1 ≤ s) (hp : p < pageCount n s) : p * s < n := by
  unfold pageCount at hp
  have h1 : (p + 1) * s ≤ n + s - 1 := by
    have := (Nat.le_div_iff_mul_le (show 0 < s by omega)).1 (Nat.succ_le_of_lt hp)
    exact this
  rw [Nat.add_mul, Nat.one_mul] at h1
  omega

theorem slug_of_loadRows {U : Unicode} {lines : List Line} {docs : List Document}
    (hload : loadRows U lines = Except.ok docs) :
    ∀ d ∈ docs, d.slug = toSlug U d.doc_id := by
  unfold loadRows at hload
  cases hg : groupLines U [] lines with
  | error err => rw [hg] at hload; cases hload
  | ok map =>
    rw [hg] at hload
    cases hload
    intro d hd
    obtain ⟨kv, -, rfl⟩ := List.mem_map.1 hd
    rfl

theorem toSlug_chars (U : Unicode) (input : JVal) :
    (∀ c ∈ toSlug U input, isLowerAlnum c = true ∨ c = '-') ∧
    (toSlug U input).head? ≠ some '-' ∧
    (toSlug U input).getLast? ≠ some '-' ∧
    (toSlug U input).Chain' NoHyphenPair := by
  unfold toSlug
  obtain ⟨h1, h2, h3, h4⟩ := stripEdgeHyphens_spec _ (chain_collapse_hyphens
    (replaceRuns isWhiteSpace ['-'] false
      (List.filter isSlugChar
        (List.filter (fun c => !isCombiningMark c)
          (U.nfd (U.toLowerCase (normalize input)))))) false).1
  refine ⟨?_, h1, h2, h3⟩
  intro c hc
  rcases mem_replaceRuns (h4 c hc) with hm | ⟨hm, hne⟩
  · right; simpa using hm
  · rcases mem_replaceRuns hm with hm2 | ⟨hm2, hws⟩
    · right; simpa using hm2
    · rcases isSlugChar_cases (List.mem_filter.1 hm2).2 with h | h | h
      · exact Or.inl h
      · rw [h] at hws; exact Bool.noConfusion hws
      · exact Or.inr h

theorem toLower_of_slug_char (c : Char) (h : isLowerAlnum c = true ∨ c = '-') :
    c.toLower = c := by
  have hn : ¬ (c.toNat ≥ 65 ∧ c.toNat ≤ 90) := by
    rcases h with h | h
    · unfold isLowerAlnum at h
      simp only [Bool.or_eq_true, Bool.and_eq_true, decide_eq_true_eq] at h
      omega
    · rw [h]; decide
  unfold Char.toLower
  simp only [hn, if_false]

theorem asciiUnicode_fixes_slugs (z : JStr) (hz : ∀ c ∈ z, isLowerAlnum c = true ∨ c = '-') :
    asciiUnicode.toLowerCase z = z ∧ asciiUnicode.nfd (asciiUnicode.toLowerCase z) = z := by
  have h : asciiUnicode.toLowerCase z = z := by
    show z.map Char.toLower = z
    conv_rhs => rw [← List.map_id z]
    exact List.map_congr_left (fun c hc => toLower_of_slug_char c (hz c hc))
  exact ⟨h, by rw [h]; rfl⟩

theorem trim_of_no_white_space (z : JStr) (hz : ∀ c ∈ z, isWhiteSpace c = false) :
    trim z = z := by
  unfold trim
  have h1 : z.dropWhile isWhiteSpace = z := by
    cases z with
    | nil => rfl
    | cons a t =>
      rw [List.dropWhile_cons_of_neg]
      simp [hz a (List.mem_cons_self _ _)]
  rw [h1, List.rdropWhile_eq_self_iff]
  intro hl
  simp [hz _ (List.getLast_mem hl)]

theorem replaceRuns_of_none {p : Char → Bool} {rep : JStr} (z : JStr) (b : Bool)
    (hz : ∀ c ∈ z, p c = false) : replaceRuns p rep b z = z := by
  induction z generalizing b with
  | nil => rfl
  | cons a t ih =>
    have ha : ¬ p a = true := by simp [hz a (List.mem_cons_self _ _)]
    rw [replaceRuns, if_neg ha, ih false (fun c hc => hz c (List.mem_cons_of_mem _ hc))]

theorem collapse_hyphens_id (z : JStr) (b : Bool) (hc : z.Chain' NoHyphenPair)
    (hb : b = true → z.head? ≠ some '-') :
    replaceRuns (· == '-') ['-'] b z = z := by
  induction z generalizing b with
  | nil => rfl
  | cons a t ih =>
    rw [List.chain'_cons'] at hc
    unfold replaceRuns
    by_cases ha : a = '-'
    · subst ha
      have hbf : b = false := by
        cases b with
        | false => rfl
        | true => exact absurd rfl (hb rfl)
      subst hbf
      rw [if_pos (by decide), if_neg (by decide), ih true hc.2]
      · rfl
      · intro _ hh
        exact hc.1 '-' (by simp [hh]) ⟨rfl, rfl⟩
    · have hpa : ¬ (a == '-') = true := by simpa using ha
      rw [if_neg hpa, ih false hc.2 (fun h => by cases h)]

theorem collapse_after_hyphenate (y : JStr) (b1 b2 : Bool) (h : b1 = true → b2 = true) :
    replaceRuns (· == '-') ['-'] b2 (replaceRuns isWhiteSpace ['-'] b1 y)
      = replaceRuns isSeparator ['-'] b2 y := by
  induction y generalizing b1 b2 with
  | nil => rfl
  | cons c t ih =>
    have ih11 := ih true true (fun _ => rfl)
    have ih01 := ih false true (fun h => by cases h)
    have ih00 := ih false false (fun h => by cases h)
    by_cases hws : isWhiteSpace c = true
    · have hsep : isSeparator c = true := by simp [isSeparator, hws]
      cases b1 with
      | true =>
        have hb2 : b2 = true := h rfl
        subst hb2
        simp only [replaceRuns, hws, hsep, if_true, List.nil_append]
        exact ih11
      | false =>
        cases b2 with
        | true =>
          simp only [replaceRuns, hws, hsep, if_true, List.nil_append, Bool.false_eq_true,
            if_false, List.singleton_append, beq_self_eq_true]
          exact ih11
        | false =>
          simp only [replaceRuns, hws, hsep, if_true, List.nil_append, Bool.false_eq_true,
            if_false, List.singleton_append, beq_self_eq_true, List.cons.injEq, true_and]
          exact ih11
    · by_cases hh : c = '-'
      · subst hh
        have hsep : isSeparator '-' = true := by decide
        cases b2 with
        | true =>
          simp only [replaceRuns, hws, hsep, if_true, List.nil_append, Bool.false_eq_true,
            if_false, List.singleton_append, beq_self_eq_true]
          exact ih01
        | false =>
          simp only [replaceRuns, hws, hsep, if_true, List.nil_append, Bool.false_eq_true,
            if_false, List.singleton_append, beq_self_eq_true, List.cons.injEq, true_and]
          exact ih01
      · have hsep : isSeparator c = false := by simp [isSeparator, hws, hh]
        have hpc : (c == '-') = false := by simpa using hh
        simp only [replaceRuns, hws, hsep, hpc, Bool.false_eq_true, if_false, List.cons.injEq,
          true_and]
        exact ih00

theorem replaceRuns_snoc_append {p : Char → Bool} {rep : JStr} (y : JStr) (c : Char)
    (t : JStr) (b : Bool) :
    replaceRuns p rep b (y ++ c :: t)
      = replaceRuns p rep b (y ++ [c]) ++ replaceRuns p rep (p c) t := by
  induction y generalizing b with
  | nil =>
    by_cases hp : p c = true
    · simp [replaceRuns, hp]
    · simp [replaceRuns, hp]
  | cons a r ih =>
    rw [List.cons_append, List.cons_append, replaceRuns, replaceRuns.eq_2 p rep b a (r ++ [c]),
      ih true, ih false]
    by_cases hp : p a = true
    · rw [if_pos hp, if_pos hp, List.append_assoc]
    · rw [if_neg hp, if_neg hp, List.cons_append]

theorem replaceRuns_snoc_word {p : Char → Bool} {rep : JStr} (y : JStr) (c : Char) (b : Bool)
    (hc : p c = false) : replaceRuns p rep b (y ++ [c]) = replaceRuns p rep b y ++ [c] := by
  induction y generalizing b with
  | nil => simp [replaceRuns, hc]
  | cons a r ih =>
    rw [List.cons_append, replaceRuns, replaceRuns.eq_2 p rep b a r, ih true, ih false]
    by_cases hp : p a = true
    · rw [if_pos hp, if_pos hp, List.append_assoc]
    · rw [if_neg hp, if_neg hp, List.cons_append]

theorem separated_in_run_head (y : JStr) :
    (replaceRuns isSeparator ['-'] true y).head? ≠ some '-' := by
  induction y with
  | nil => simp [replaceRuns]
  | cons c t ih =>
    unfold replaceRuns
    by_cases hp : isSeparator c = true
    · rw [if_pos hp, if_pos rfl, List.nil_append]
      exact ih
    · rw [if_neg hp]
      intro h
      apply hp
      have : c = '-' := by simpa using h
      rw [this]
      decide

theorem separated_false_or (y : JStr) :
    replaceRuns isSeparator ['-'] false y = replaceRuns isSeparator ['-'] true y ∨
    replaceRuns isSeparator ['-'] false y = '-' :: replaceRuns isSeparator ['-'] true y := by
  cases y with
  | nil => left; rfl
  | cons c t =>
    by_cases hp : isSeparator c = true
    · right
      rw [replaceRuns, if_pos hp, if_neg (by simp), replaceRuns, if_pos hp, if_pos rfl]
      rfl
    · left
      rw [replaceRuns, if_neg hp, replaceRuns, if_neg hp]

theorem stripEdgeHyphens_no_head (z : JStr) (hz : z.head? ≠ some '-') :
    stripEdgeHyphens z = if z.getLast? = some '-' then z.dropLast else z := by
  unfold stripEdgeHyphens
  split
  · rename_i t
    exact absurd rfl hz
  · rfl

theorem stripEdgeHyphens_cons_hyphen (z : JStr) (hz : z.head? ≠ some '-') :
    stripEdgeHyphens ('-' :: z) = stripEdgeHyphens z := by
  rw [stripEdgeHyphens_no_head z hz]
  rfl

theorem stripEdgeHyphens_snoc_hyphen (w : JStr) (hne : w ≠ [])
    (hl : w.getLast? ≠ some '-') : stripEdgeHyphens (w ++ ['-']) = stripEdgeHyphens w := by
  cases w with
  | nil => exact absurd rfl hne
  | cons a t =>
    by_cases ha : a = '-'
    · subst ha
      have ht : t ≠ [] := by
        intro h
        subst h
        exact hl rfl
      have hlt : t.getLast? ≠ some '-' := by
        cases t with
        | nil => exact absurd rfl ht
        | cons b r => simpa [List.getLast?_cons_cons] using hl
      show (if (t ++ ['-']).getLast? = some '-' then (t ++ ['-']).dropLast else t ++ ['-'])
        = if t.getLast? = some '-' then t.dropLast else t
      rw [if_neg hlt, if_pos (by simp), List.dropLast_concat]
    · have hh : (a :: t).head? ≠ some '-' := by simpa using ha
      have hh2 : (a :: t ++ ['-']).head? ≠ some '-' := by simpa using ha
      have hl2 : (a :: t ++ ['-']).getLast? = some '-' := List.getLast?_concat _
      rw [stripEdgeHyphens_no_head _ hh, stripEdgeHyphens_no_head _ hh2, if_neg hl,
        if_pos hl2, List.dropLast_concat]

theorem slug_of_lead (lead y : JStr) (hlead : ∀ c ∈ lead, isSeparator c = true) :
    stripEdgeHyphens (replaceRuns isSeparator ['-'] false (lead ++ y))
      = stripEdgeHyphens (replaceRuns isSeparator ['-'] false y) := by
  by_cases hne : lead = []
  · rw [hne, List.nil_append]
  · rw [replaceRuns_sep lead y hne hlead, List.singleton_append]
    rcases separated_false_or y with h | h
    · rw [h, stripEdgeHyphens_cons_hyphen _ (separated_in_run_head y)]
    · rw [h]

theorem slug_of_trail (y trail : JStr) (htrail : ∀ c ∈ trail, isSeparator c = true) :
    stripEdgeHyphens (replaceRuns isSeparator ['-'] false (y ++ trail))
      = stripEdgeHyphens (replaceRuns isSeparator ['-'] false y) := by
  by_cases hne : trail = []
  · rw [hne, List.append_nil]
  · have hfalse : replaceRuns isSeparator ['-'] false trail = ['-'] := by
      have := @replaceRuns_sep isSeparator ['-'] trail [] hne htrail
      rw [List.append_nil] at this
      rw [this]
      rfl
    have htrue : replaceRuns isSeparator ['-'] true trail = [] := by
      have := @replaceRuns_in_run isSeparator ['-'] trail [] htrail
      rw [List.append_nil] at this
      rw [this]
      rfl
    rcases List.eq_nil_or_concat y with h | ⟨r, c, h⟩
    · subst h
      rw [List.nil_append, hfalse]
      rfl
    · subst h
      rw [List.concat_eq_append]
      have hcat : r ++ [c] ++ trail = r ++ c :: trail := by simp
      rw [hcat, replaceRuns_snoc_append]
      by_cases hp : isSeparator c = true
      · rw [hp, htrue, List.append_nil]
      · have hpc : isSeparator c = false := by simpa using hp
        rw [hpc, hfalse, replaceRuns_snoc_word r c false hpc]
        apply stripEdgeHyphens_snoc_hyphen
        · simp
        · rw [List.getLast?_concat]
          intro h
          apply hp
          have : c = '-' := by simpa using h
          rw [this]
          decide

theorem filters_of_white_space (w : JStr) (hw : ∀ c ∈ w, isWhiteSpace c = true) :
    List.filter isSlugChar (List.filter (fun c => !isCombiningMark c) w) = w := by
  have h1 : List.filter (fun c => !isCombiningMark c) w = w := by
    rw [List.filter_eq_self]
    intro c hc
    simp [(isWhiteSpace_facts (hw c hc)).2.2]
  rw [h1, List.filter_eq_self]
  intro c hc
  exact (isWhiteSpace_facts (hw c hc)).1

/-! ## The claims C21 to C30 -/

/-- C21 as stated fails at `n = 0`: the requested page size `0` gives the effective page
size 12, where the clamp of 0 to the range from 1 to 50 is 1. -/
theorem parsePageSize_zero_gives_default :
    parsePageSize (JVal.str (toString (0 : Int)).toList) = 12 ∧
    min (max (0 : Int) 1) 50 = 1 ∧
    parsePageSize (JVal.str (toString (0 : Int)).toList) ≠ min (max (0 : Int) 1) 50 := by
  decide

/-- C21 (amended): for every integer `n` other than 0 supplied as the requested page size,
in decimal or as any string that `parseInt` reads as `n`, the effective page size is
`min(max(n, 1), 50)`; a requested 0 counts as no request and gives the default 12. -/
theorem parsePageSize_clamps_nonzero (n : Int) :
    (n ≠ 0 → parsePageSize (JVal.str (toString n).toList) = min (max n 1) 50) ∧
    (n ≠ 0 → ∀ s, parseInt10 s = some n → parsePageSize (JVal.str s) = min (max n 1) 50) ∧
    (∀ s, parseInt10 s = some 0 → parsePageSize (JVal.str s) = 12) := by
  refine ⟨?_, ?_, ?_⟩
  · intro hn
    rw [parsePageSize_of_parse _ n (parseInt10_toString n), if_neg hn]
  · intro hn s hs
    rw [parsePageSize_of_parse s n hs, if_neg hn]
  · intro s hs
    rw [parsePageSize_of_parse s 0 hs, if_pos rfl]

/-- Witness of C21 (amended): the requested sizes 7, -3, 1000 and ` 07x` give 7, 1, 50
and 7; the requested `-0` gives 12. -/
theorem parsePageSize_clamps_nonzero_witness :
    ((7 : Int) ≠ 0 ∧ parsePageSize (JVal.str "7".toList) = 7 ∧
      parsePageSize (JVal.str "-3".toList) = 1 ∧
      parsePageSize (JVal.str "1000".toList) = 50 ∧
      parseInt10 " 07x".toList = some 7 ∧ parseInt10 "-0".toList = some 0) ∧
    parsePageSize (JVal.str (toString (7 : Int)).toList) = min (max 7 1) 50 ∧
    parsePageSize (JVal.str " 07x".toList) = min (max 7 1) 50 ∧
    parsePageSize (JVal.str "-0".toList) = 12 :=
  ⟨by decide, (parsePageSize_clamps_nonzero 7).1 (by decide),
    (parsePageSize_clamps_nonzero 7).2.1 (by decide) " 07x".toList (by decide),
    (parsePageSize_clamps_nonzero 7).2.2 "-0".toList (by decide)⟩

set_option maxRecDepth 100000 in
/-- C22 as stated fails: the chunk ids `n9007199254740992` and `n9007199254740993` hold
runs whose integers differ, yet both are read as the double 2^53, so the documents `d` and
`c` tie and keep their order, where the integers put `c` first; and a chunk id that is a
run of 400 digits is read as `Infinity` and left aside, so its document scores 0 and comes
after the document with the chunk id 5. -/
theorem sortDocs_newest_rounds_runs :
    (sortDocs asciiUnicode (fun _ _ => 0) "newest".toList roundedDocs).map Document.doc_id
      = [JVal.str "d".toList, JVal.str "c".toList] ∧
    roundedDocs.map score = [9007199254740992, 9007199254740992] ∧
    roundedDocs.map maxRunValue = [9007199254740992, 9007199254740993] ∧
    ¬ (sortDocs asciiUnicode (fun _ _ => 0) "newest".toList roundedDocs).Pairwise
      (fun a b => maxRunValue b ≤ maxRunValue a) ∧
    (sortDocs asciiUnicode (fun _ _ => 0) "newest".toList overflowDocs).map Document.doc_id
      = [JVal.str "a".toList, JVal.str "b".toList] ∧
    overflowDocs.map score = [5, 0] ∧
    overflowDocs.map (fun d => decide (5 < maxRunValue d)) = [false, true] := by
  decide

/-- C22 (amended): with a sort value that lower-cases to `newest`, for documents whose
chunk ids are strings or safe integers, the sorted list is a permutation of the filtered
list `F` in which the recency score never increases from one document to the next and the
documents of one score keep their order of `F`.  The score that the handler computes is
the greatest Number value of a run of digits of a chunk id (the nearest double; a run whose
value is not finite is left aside), and 0 when there is none; when every run is below 2^53
it is the greatest of the runs read as integers.  The runs of a string are found from left
to right: after a gap without digits, a non-empty run of digits that ends at the end of the
string or before a character that is not a digit is the next run, and a string without
digits has none. -/
theorem sortDocs_newest (U : Unicode) (localeCompare : JStr → JStr → Int) (sortParam : JStr)
    (F : List Document) (hne : sortParam ≠ [])
    (hsort : U.toLowerCase sortParam = "newest".toList)
    (_hids : ∀ d ∈ F, ∀ id ∈ d.chunk_ids, plainChunkId id = true) :
    (sortDocs U localeCompare sortParam F).Perm F ∧
    (sortDocs U localeCompare sortParam F).Pairwise
      (fun a b => maxRunNumber b ≤ maxRunNumber a) ∧
    (∀ v, (sortDocs U localeCompare sortParam F).filter (fun d => decide (maxRunNumber d = v))
      = F.filter (fun d => decide (maxRunNumber d = v))) ∧
    (∀ d ∈ F, score d = maxRunNumber d) ∧
    (∀ d ∈ F, (∀ id ∈ d.chunk_ids, ∀ run ∈ digitRuns id.toJStr, runValue run < 2 ^ 53) →
      score d = maxRunValue d) ∧
    (∀ run : JStr, runValue run < 2 ^ 53 → runNumber run = runValue run) ∧
    (∀ gap run rest : JStr, (∀ c ∈ gap, c.isDigit = false) → run ≠ [] →
      (∀ c ∈ run, c.isDigit = true) → (∀ c, rest.head? = some c → c.isDigit = false) →
      digitRuns (gap ++ run ++ rest) = run :: digitRuns rest) ∧
    (∀ gap : JStr, (∀ c ∈ gap, c.isDigit = false) → digitRuns gap = []) := by
  have hfun : (fun a b : Document => score b - score a)
      = (fun a b => maxRunNumber b - maxRunNumber a) := by
    funext a b
    rw [score_eq_maxRunNumber, score_eq_maxRunNumber]
  rw [(sortDocs_of_sort U localeCompare sortParam F hne).2 hsort, hfun]
  obtain ⟨h1, h2, h3⟩ := sortBy_desc maxRunNumber F
  refine ⟨h1, h2, h3, fun d _ => score_eq_maxRunNumber d, ?_, runNumber_small,
    digitRuns_run, ?_⟩
  · intro d _ hsmall
    rw [score_eq_maxRunNumber, maxRunNumber_eq_maxRunValue d hsmall]
  · intro gap hgap
    have := digitRuns_gap gap [] hgap
    rw [List.append_nil] at this
    rw [this]
    rfl

/-- Witness of C22 (amended): the scores 7, 120, 7, 0 of the documents a, b, c, d give the
order b, a, c, d. -/
theorem sortDocs_newest_witness :
    ("Newest".toList ≠ [] ∧ asciiUnicode.toLowerCase "Newest".toList = "newest".toList ∧
      (∀ d ∈ chunkDocs, ∀ id ∈ d.chunk_ids, plainChunkId id = true) ∧
      chunkDocs.map score = [7, 120, 7, 0] ∧
      (sortDocs asciiUnicode (fun _ _ => 0) "Newest".toList chunkDocs).map Document.doc_id
        = [JVal.str "b".toList, JVal.str "a".toList, JVal.str "c".toList,
            JVal.str "d".toList]) ∧
    (sortDocs asciiUnicode (fun _ _ => 0) "Newest".toList chunkDocs).Perm chunkDocs ∧
    (sortDocs asciiUnicode (fun _ _ => 0) "Newest".toList chunkDocs).Pairwise
      (fun a b => maxRunNumber b ≤ maxRunNumber a) :=
  ⟨by decide,
    (sortDocs_newest asciiUnicode (fun _ _ => 0) "Newest".toList chunkDocs (by decide)
      (by decide) (by decide)).1,
    (sortDocs_newest asciiUnicode (fun _ _ => 0) "Newest".toList chunkDocs (by decide)
      (by decide) (by decide)).2.1⟩

/-- C23: with a sort value that lower-cases to `desc_len`, the sorted list is a
permutation of the filtered list `F` in which the length of `text` (of `text_preview` when
`text` is empty) never increases from one document to the next, documents of one length
keeping their order of `F`; with no sort value, and with one whose lower-cased form is none
of `name`, `desc_len`, `newest`, the list is `F` unchanged. -/
theorem sortDocs_desc_len (U : Unicode) (localeCompare : JStr → JStr → Int)
    (sortParam : JStr) (F : List Document) :
    (sortParam ≠ [] → U.toLowerCase sortParam = "desc_len".toList →
      (sortDocs U localeCompare sortParam F).Perm F ∧
      (sortDocs U localeCompare sortParam F).Pairwise (fun a b => descLen b ≤ descLen a) ∧
      (∀ v, (sortDocs U localeCompare sortParam F).filter (fun d => decide (descLen d = v))
        = F.filter (fun d => decide (descLen d = v))) ∧
      ∀ d, len d = descLen d) ∧
    sortDocs U localeCompare (paramString JVal.undefined) F = F ∧
    (U.toLowerCase sortParam ≠ "name".toList → U.toLowerCase sortParam ≠ "desc_len".toList →
      U.toLowerCase sortParam ≠ "newest".toList →
      sortDocs U localeCompare sortParam F = F) := by
  refine ⟨?_, rfl, ?_⟩
  · intro hne hsort
    have hfun : (fun a b : Document => len b - len a)
        = (fun a b => descLen b - descLen a) := by
      funext a b
      rw [len_eq_descLen, len_eq_descLen]
    rw [(sortDocs_of_sort U localeCompare sortParam F hne).1 hsort, hfun]
    obtain ⟨h1, h2, h3⟩ := sortBy_desc descLen F
    exact ⟨h1, h2, h3, len_eq_descLen⟩
  · intro h1 h2 h3
    unfold sortDocs
    split
    · simp only [h1, h2, h3, if_false]
    · rfl

/-- Witness of C23: the text lengths 2, 1, 3, 2 of the documents a, b, c, d give the order
c, a, d, b; the sort value `oldest` and a missing one leave the order a, b, c, d. -/
theorem sortDocs_desc_len_witness :
    ("DESC_LEN".toList ≠ [] ∧
      asciiUnicode.toLowerCase "DESC_LEN".toList = "desc_len".toList ∧
      chunkDocs.map len = [2, 1, 3, 2] ∧
      (sortDocs asciiUnicode (fun _ _ => 0) "DESC_LEN".toList chunkDocs).map Document.doc_id
        = [JVal.str "c".toList, JVal.str "a".toList, JVal.str "d".toList,
            JVal.str "b".toList] ∧
      asciiUnicode.toLowerCase "oldest".toList ≠ "name".toList ∧
      asciiUnicode.toLowerCase "oldest".toList ≠ "desc_len".toList ∧
      asciiUnicode.toLowerCase "oldest".toList ≠ "newest".toList) ∧
    ((sortDocs asciiUnicode (fun _ _ => 0) "DESC_LEN".toList chunkDocs).Perm chunkDocs ∧
      (sortDocs asciiUnicode (fun _ _ => 0) "DESC_LEN".toList chunkDocs).Pairwise
        (fun a b => descLen b ≤ descLen a)) ∧
    sortDocs asciiUnicode (fun _ _ => 0) "oldest".toList chunkDocs = chunkDocs :=
  ⟨by decide,
    ⟨((sortDocs_desc_len asciiUnicode (fun _ _ => 0) "DESC_LEN".toList chunkDocs).1
        (by decide) (by decide)).1,
      ((sortDocs_desc_len asciiUnicode (fun _ _ => 0) "DESC_LEN".toList chunkDocs).1
        (by decide) (by decide)).2.1⟩,
    (sortDocs_desc_len asciiUnicode (fun _ _ => 0) "oldest".toList chunkDocs).2.2
      (by decide) (by decide) (by decide)⟩

/-- C24: a file with a line whose JSON value is `null` is not loaded: the read of the key
of that value throws, whatever the other lines are, and a first call of `loadDocs` on such
a file throws as well.  On every file without such a line the load succeeds and returns
what it returns on the file without its blank, unparseable and keyless lines. -/
theorem loadRows_null_line_throws (U : Unicode) (lines : List Line) :
    ((Line.parsed JVal.null ∈ lines ∨ ∃ l ∈ lines, l.throws = true) →
      loadRows U lines = Except.error JsError.typeError ∧
      ∀ others, loadDocs U none (some lines :: others) = Except.error JsError.typeError) ∧
    ((∀ l ∈ lines, l.throws = false) →
      ∃ docs, loadRows U lines = Except.ok docs ∧
        loadRows U (lines.filter (fun l => !l.skipped)) = Except.ok docs) := by
  constructor
  · intro h
    have h2 : ∃ l ∈ lines, l.throws = true := by
      rcases h with h | h
      · exact ⟨_, h, rfl⟩
      · exact h
    have hrows : loadRows U lines = Except.error JsError.typeError := by
      unfold loadRows
      rw [groupLines_throws U lines [] h2]
    refine ⟨hrows, ?_⟩
    intro others
    simp only [loadDocs, findFile, hrows]
  · intro hok
    refine ⟨_, loadRows_eq U lines hok, ?_⟩
    rw [← loadRows_eq U lines hok]
    unfold loadRows
    rw [groupLines_filter_skipped U lines [] hok]

/-- Witness of C24: the file of the three lines `A`, `null`, `B` throws; the sample file,
which has a blank and an unparseable line, loads the same two documents with and without
them. -/
theorem loadRows_null_line_throws_witness :
    ((Line.parsed JVal.null ∈ nullLines ∨ ∃ l ∈ nullLines, l.throws = true) ∧
      (∀ l ∈ sampleLines, l.throws = false) ∧
      (sampleLines.filter (fun l => !l.skipped)).length = 4 ∧ sampleLines.length = 6 ∧
      (loadRows asciiUnicode sampleLines).toOption.map (List.map Document.doc_id)
        = some [JVal.str "Saola".toList, JVal.str "Son Duong".toList]) ∧
    (loadRows asciiUnicode nullLines = Except.error JsError.typeError ∧
      ∀ others, loadDocs asciiUnicode none (some nullLines :: others)
        = Except.error JsError.typeError) ∧
    ∃ docs, loadRows asciiUnicode sampleLines = Except.ok docs ∧
      loadRows asciiUnicode (sampleLines.filter (fun l => !l.skipped)) = Except.ok docs :=
  ⟨⟨Or.inl (by simp [nullLines]), by decide, by decide, by decide, by decide⟩,
    (loadRows_null_line_throws asciiUnicode nullLines).1 (Or.inl (by simp [nullLines])),
    (loadRows_null_line_throws asciiUnicode sampleLines).2 (by decide)⟩

/-- C25: once a first call of `loadDocs` has returned a collection, the module keeps it:
every later call returns the same collection and leaves the cache as it is, whatever the
candidate files hold by then.  When no candidate file exists the first call returns the
empty collection, and this one is kept as well. -/
theorem loadDocs_memoized (U : Unicode) (candidates : List (Option (List Line)))
    (rows : List Document) (cache : Option (List Document)) :
    (loadDocs U none candidates = Except.ok (rows, cache) →
      cache = some rows ∧
      ∀ later : List (Option (List Line)), loadDocs U cache later = Except.ok (rows, cache)) ∧
    (findFile candidates = none →
      loadDocs U none candidates = Except.ok ([], some []) ∧
      ∀ later : List (Option (List Line)),
        loadDocs U (some []) later = Except.ok ([], some [])) := by
  constructor
  · intro h
    have hc : cache = some rows := by
      unfold loadDocs at h
      simp only at h
      split at h
      · cases h; rfl
      · split at h
        · cases h; rfl
        · cases h
    subst hc
    exact ⟨rfl, fun _ => rfl⟩
  · intro h
    refine ⟨?_, fun _ => rfl⟩
    simp only [loadDocs, h]

/-- Witness of C25: after the sample file has been loaded, a call that finds the file
replaced by another one, or gone, returns the two documents of the first load; after a
first call without any file, a call that finds the sample file returns the empty
collection. -/
theorem loadDocs_memoized_witness :
    (loadDocs asciiUnicode none [none, some sampleLines]
        = Except.ok (((loadRows asciiUnicode sampleLines).toOption.getD []),
            some ((loadRows asciiUnicode sampleLines).toOption.getD [])) ∧
      ((loadRows asciiUnicode sampleLines).toOption.getD []).map Document.doc_id
        = [JVal.str "Saola".toList, JVal.str "Son Duong".toList] ∧
      (loadDocs asciiUnicode (some ((loadRows asciiUnicode sampleLines).toOption.getD []))
          [some nullLines]).toOption.map (fun r => r.1.map Document.doc_id)
        = some [JVal.str "Saola".toList, JVal.str "Son Duong".toList] ∧
      (findFile ([none, none] : List (Option (List Line)))).isNone = true) ∧
    (some ((loadRows asciiUnicode sampleLines).toOption.getD [])
        = some ((loadRows asciiUnicode sampleLines).toOption.getD []) ∧
      ∀ later : List (Option (List Line)),
        loadDocs asciiUnicode (some ((loadRows asciiUnicode sampleLines).toOption.getD []))
            later
          = Except.ok (((loadRows asciiUnicode sampleLines).toOption.getD []),
              some ((loadRows asciiUnicode sampleLines).toOption.getD []))) ∧
    (loadDocs asciiUnicode none [none, none] = Except.ok ([], some []) ∧
      ∀ later : List (Option (List Line)),
        loadDocs asciiUnicode (some []) later = Except.ok ([], some [])) :=
  ⟨⟨rfl, by decide, by decide, by decide⟩,
    (loadDocs_memoized asciiUnicode [none, some sampleLines]
      ((loadRows asciiUnicode sampleLines).toOption.getD [])
      (some ((loadRows asciiUnicode sampleLines).toOption.getD []))).1 rfl,
    (loadDocs_memoized asciiUnicode [none, none] [] none).2 rfl⟩

/-- C26: for every document that the load returns, `text_preview` is the prefix of `text`
made of its first 600 characters: its length is `min(600, |text|)`, at most 600, and it is
`text` itself when `text` has at most 600 characters. -/
theorem loadRows_text_preview (U : Unicode) (lines : List Line)
    (hok : ∀ l ∈ lines, l.throws = false) :
    ∃ docs, loadRows U lines = Except.ok docs ∧
      ∀ d ∈ docs,
        d.text_preview = d.text.take 600 ∧ d.text_preview <+: d.text ∧
        d.text_preview.length = min 600 d.text.length ∧ d.text_preview.length ≤ 600 ∧
        (d.text.length ≤ 600 → d.text_preview = d.text) := by
  refine ⟨_, loadRows_eq U lines hok, ?_⟩
  intro d hd
  have h := text_preview_of_loadRows (loadRows_eq U lines hok) d hd
  rw [h]
  refine ⟨rfl, List.take_prefix _ _, List.length_take _ _, ?_, ?_⟩
  · rw [List.length_take]
    omega
  · intro hlen
    exact List.take_of_length_le hlen

set_option maxRecDepth 1000000 in
/-- Witness of C26: a text of 605 characters has a preview of 600; the texts of the sample
file, of 15 and 5 characters, are their own previews. -/
theorem loadRows_text_preview_witness :
    ((∀ l ∈ longTextLines, l.throws = false) ∧
      (loadRows asciiUnicode longTextLines).toOption.map
          (List.map (fun d => (d.text.length, d.text_preview.length)))
        = some [(605, 600)] ∧
      (loadRows asciiUnicode sampleLines).toOption.map
          (List.map (fun d => (d.text.length, decide (d.text_preview = d.text))))
        = some [(15, true), (5, true)]) ∧
    ∃ docs, loadRows asciiUnicode longTextLines = Except.ok docs ∧
      ∀ d ∈ docs,
        d.text_preview = d.text.take 600 ∧ d.text_preview <+: d.text ∧
        d.text_preview.length = min 600 d.text.length ∧ d.text_preview.length ≤ 600 ∧
        (d.text.length ≤ 600 → d.text_preview = d.text) :=
  ⟨by decide, loadRows_text_preview asciiUnicode longTextLines (by decide)⟩

/-- C27: for every filtered and sorted list `F` and page size `s ≥ 1`, the items of the
pages 1, 2, …, ⌈|F|/s⌉ (the last of which is not empty), put one after the other, are the
projections of the documents of `F` in order; the document at position `i` of `F` is the
item at position `i mod s` of page `⌊i/s⌋ + 1`; and every page after ⌈|F|/s⌉ is empty. -/
theorem respond_pages_partition (F : List Document) (s : Nat) (hs : 1 ≤ s) :
    (List.range (pageCount F.length s)).flatMap
        (fun i => (respond F ((i + 1 : Nat) : Int) (s : Int)).items)
      = F.map toItem ∧
    (∀ i : Nat, (respond F ((i / s + 1 : Nat) : Int) (s : Int)).items.get? (i % s)
      = (F.get? i).map toItem) ∧
    (∀ p : Nat, 1 ≤ p → p ≤ pageCount F.length s →
      (respond F (p : Int) (s : Int)).items ≠ []) ∧
    (∀ p : Nat, pageCount F.length s < p → (respond F (p : Int) (s : Int)).items = []) := by
  refine ⟨?_, ?_, ?_, ?_⟩
  · have hfun : (fun i => (respond F ((i + 1 : Nat) : Int) (s : Int)).items)
        = (fun i => ((F.map toItem).drop (i * s)).take s) := by
      funext i
      rw [respond_items, List.map_take, List.map_drop]
    rw [hfun, flatMap_pages]
    apply List.take_of_length_le
    rw [List.length_map]
    exact le_pageCount_mul _ _ hs
  · intro i
    rw [respond_items, List.get?_eq_getElem?, List.get?_eq_getElem?, List.getElem?_map,
      List.getElem?_take_of_lt (Nat.mod_lt _ (by omega)), List.getElem?_drop,
      Nat.div_add_mod']
  · intro p hp1 hp
    obtain ⟨i, rfl⟩ : ∃ i, p = i + 1 := ⟨p - 1, by omega⟩
    rw [respond_items]
    have hlt : i * s < F.length := pageCount_mul_lt _ _ _ hs (by omega)
    intro h
    have hlen := congrArg List.length h
    rw [List.length_map, List.length_take, List.length_drop] at hlen
    simp only [List.length_nil] at hlen
    omega
  · intro p hp
    obtain ⟨i, rfl⟩ : ∃ i, p = i + 1 := ⟨p - 1, by omega⟩
    rw [respond_items]
    have hle : F.length ≤ i * s := by
      have h1 := le_pageCount_mul F.length s hs
      have h2 : pageCount F.length s * s ≤ i * s := Nat.mul_le_mul_right _ (by omega)
      omega
    rw [List.drop_eq_nil_of_le hle]
    simp

/-- Witness of C27: 25 documents at 12 a page fill 3 pages of 12, 12 and 1 items, which
together are the 25 projections; page 4 is empty. -/
theorem respond_pages_partition_witness :
    (1 ≤ 12 ∧ pageCount manyDocs.length 12 = 3 ∧
      (List.range 3).map (fun i => (respond manyDocs ((i + 1 : Nat) : Int)
        ((12 : Nat) : Int)).items.length) = [12, 12, 1]) ∧
    (List.range (pageCount manyDocs.length 12)).flatMap
        (fun i => (respond manyDocs ((i + 1 : Nat) : Int) ((12 : Nat) : Int)).items)
      = manyDocs.map toItem ∧
    (respond manyDocs ((4 : Nat) : Int) ((12 : Nat) : Int)).items = [] :=
  ⟨by decide, (respond_pages_partition manyDocs 12 (by decide)).1,
    (respond_pages_partition manyDocs 12 (by decide)).2.2.2 4 (by decide)⟩

/-- C28: on every loaded collection, on a platform whose lower-casing leaves a string of
a–z, 0–9 and `-` as it is, for every document `d` of the collection and every string `s`
whose lower-cased form is the slug of `d` (the slug itself is one), `getDocBySlug(s)`
returns a document whose slug is the slug of `d`, and it returns `d` when no document
before `d` has that slug. -/
theorem getDocBySlug_round_trip (U : Unicode) (lines : List Line) (docs : List Document)
    (hload : loadRows U lines = Except.ok docs)
    (hU : ∀ z : JStr, (∀ c ∈ z, isLowerAlnum c = true ∨ c = '-') → U.toLowerCase z = z) :
    ∀ d ∈ docs,
      U.toLowerCase d.slug = d.slug ∧
      ∀ s : JStr, U.toLowerCase s = d.slug →
        (∃ found, getDocBySlug U docs (JVal.str s) = some found ∧ found.slug = d.slug) ∧
        (∀ before after, docs = before ++ d :: after → (∀ x ∈ before, x.slug ≠ d.slug) →
          getDocBySlug U docs (JVal.str s) = some d) := by
  intro d hd
  have hslug : U.toLowerCase d.slug = d.slug := by
    apply hU
    rw [slug_of_loadRows hload d hd]
    exact (toSlug_chars U d.doc_id).1
  refine ⟨hslug, ?_⟩
  intro s hs
  rw [getDocBySlug_str, hs]
  constructor
  · cases hf : docs.find? (fun x => decide (x.slug = d.slug)) with
    | none =>
      rw [List.find?_eq_none] at hf
      exact absurd (by simp) (hf d hd)
    | some found =>
      refine ⟨found, rfl, ?_⟩
      simpa using List.find?_some hf
  · intro before after hdocs hbefore
    rw [List.find?_eq_some]
    refine ⟨by simp, before, after, hdocs, ?_⟩
    intro x hx
    simpa using hbefore x hx

/-- Witness of C28: in the sample collection the slugs are `saola` and `son-duong`, and the
lookups of `SAOLA` and of `Son-Duong` return the documents `Saola` and `Son Duong`. -/
theorem getDocBySlug_round_trip_witness :
    (loadRows asciiUnicode sampleLines
        = Except.ok ((loadRows asciiUnicode sampleLines).toOption.getD []) ∧
      ((loadRows asciiUnicode sampleLines).toOption.getD []).map Document.slug
        = ["saola".toList, "son-duong".toList] ∧
      ["SAOLA".toList, "Son-Duong".toList].map
          (fun s => (getDocBySlug asciiUnicode
            ((loadRows asciiUnicode sampleLines).toOption.getD []) (JVal.str s)).map
              Document.doc_id)
        = [some (JVal.str "Saola".toList), some (JVal.str "Son Duong".toList)]) ∧
    ∀ d ∈ (loadRows asciiUnicode sampleLines).toOption.getD [],
      asciiUnicode.toLowerCase d.slug = d.slug ∧
      ∀ s : JStr, asciiUnicode.toLowerCase s = d.slug →
        (∃ found, getDocBySlug asciiUnicode
            ((loadRows asciiUnicode sampleLines).toOption.getD []) (JVal.str s) = some found ∧
          found.slug = d.slug) ∧
        (∀ before after,
          (loadRows asciiUnicode sampleLines).toOption.getD [] = before ++ d :: after →
          (∀ x ∈ before, x.slug ≠ d.slug) →
          getDocBySlug asciiUnicode ((loadRows asciiUnicode sampleLines).toOption.getD [])
            (JVal.str s) = some d) :=
  ⟨⟨rfl, by decide, by decide⟩,
    getDocBySlug_round_trip asciiUnicode sampleLines
      ((loadRows asciiUnicode sampleLines).toOption.getD []) rfl
      (fun z hz => (asciiUnicode_fixes_slugs z hz).1)⟩

/-- C29: for every non-empty string `doc_id`, on a platform whose lower-casing followed by
decomposition treats the white space around the text apart from the text (the result for
the whole string is the result for the trimmed string between two strings of white space),
the slug that `renderSources` computes in the chat widgets, without trimming, is the slug
`toSlug(doc_id)` of the server; for a `doc_id` without white space around it this holds on
every platform. -/
theorem renderSourcesSlug_eq_toSlug (U : Unicode) (s : JStr) (hs : s ≠ []) :
    (∀ lead trail : JStr, (∀ c ∈ lead, isWhiteSpace c = true) →
      (∀ c ∈ trail, isWhiteSpace c = true) →
      U.nfd (U.toLowerCase s) = lead ++ U.nfd (U.toLowerCase (trim s)) ++ trail →
      renderSourcesSlug U (JVal.str s) = toSlug U (JVal.str s)) ∧
    (trim s = s → renderSourcesSlug U (JVal.str s) = toSlug U (JVal.str s)) := by
  have hnorm : normalize (JVal.str s) = trim s := by
    unfold normalize
    rw [toJStr_or_str]
  have hclient : renderSourcesSlug U (JVal.str s)
      = stripEdgeHyphens
        (replaceRuns (· == '-') ['-'] false
          (replaceRuns isWhiteSpace ['-'] false
            (List.filter isSlugChar
              (List.filter (fun c => !isCombiningMark c)
                (U.nfd (U.toLowerCase s)))))) := by
    cases s with
    | nil => exact absurd rfl hs
    | cons a t => rfl
  have main : ∀ lead trail : JStr, (∀ c ∈ lead, isWhiteSpace c = true) →
      (∀ c ∈ trail, isWhiteSpace c = true) →
      U.nfd (U.toLowerCase s) = lead ++ U.nfd (U.toLowerCase (trim s)) ++ trail →
      renderSourcesSlug U (JVal.str s) = toSlug U (JVal.str s) := by
    intro lead trail hlead htrail hU
    have hsepl : ∀ c ∈ lead, isSeparator c = true := fun c hc => by
      simp [isSeparator, hlead c hc]
    have hsept : ∀ c ∈ trail, isSeparator c = true := fun c hc => by
      simp [isSeparator, htrail c hc]
    rw [hclient]
    unfold toSlug
    rw [hnorm, hU, collapse_after_hyphenate _ false false (fun h => by cases h),
      collapse_after_hyphenate _ false false (fun h => by cases h)]
    simp only [List.filter_append]
    rw [filters_of_white_space lead hlead, filters_of_white_space trail htrail,
      List.append_assoc, slug_of_lead _ _ hsepl, slug_of_trail _ _ hsept]
  refine ⟨main, ?_⟩
  intro htrim
  apply main [] [] (by simp) (by simp)
  rw [htrim]
  simp

/-- Witness of C29: for ` Sơn Dương` with a tab and a space behind it, the chat widgets and
the server both compute `son-duong`. -/
theorem renderSourcesSlug_eq_toSlug_witness :
    (" ".toList ++ sonDuong ++ "\t ".toList ≠ [] ∧
      (∀ c ∈ " ".toList, isWhiteSpace c = true) ∧ (∀ c ∈ "\t ".toList, isWhiteSpace c = true) ∧
      hornUnicode.nfd (hornUnicode.toLowerCase (" ".toList ++ sonDuong ++ "\t ".toList))
        = " ".toList
          ++ hornUnicode.nfd (hornUnicode.toLowerCase
            (trim (" ".toList ++ sonDuong ++ "\t ".toList)))
          ++ "\t ".toList ∧
      renderSourcesSlug hornUnicode (JVal.str (" ".toList ++ sonDuong ++ "\t ".toList))
        = "son-duong".toList) ∧
    renderSourcesSlug hornUnicode (JVal.str (" ".toList ++ sonDuong ++ "\t ".toList))
      = toSlug hornUnicode (JVal.str (" ".toList ++ sonDuong ++ "\t ".toList)) :=
  ⟨by decide,
    (renderSourcesSlug_eq_toSlug hornUnicode (" ".toList ++ sonDuong ++ "\t ".toList)
      (by decide)).1 " ".toList "\t ".toList (by decide) (by decide) (by decide)⟩

/-- C30: on a platform whose lower-casing and decomposition leave a string of a–z, 0–9 and
`-` as it is, the slug of a slug is the slug itself, for every input. -/
theorem toSlug_idempotent (U : Unicode) (x : JVal)
    (hU : ∀ z : JStr, (∀ c ∈ z, isLowerAlnum c = true ∨ c = '-') →
      U.nfd (U.toLowerCase z) = z) :
    toSlug U (JVal.str (toSlug U x)) = toSlug U x := by
  obtain ⟨hchars, hhead, hlast, hchain⟩ := toSlug_chars U x
  generalize toSlug U x = z at hchars hhead hlast hchain
  have hws : ∀ c ∈ z, isWhiteSpace c = false := by
    intro c hc
    rcases hchars c hc with h | h
    · exact (isLowerAlnum_facts h).2.1
    · rw [h]; decide
  have hmark : ∀ c ∈ z, (!isCombiningMark c) = true := by
    intro c hc
    rcases hchars c hc with h | h
    · simp [(isLowerAlnum_facts h).2.2.2]
    · rw [h]; decide
  have hslug : ∀ c ∈ z, isSlugChar c = true := by
    intro c hc
    rcases hchars c hc with h | h
    · exact (isLowerAlnum_facts h).1
    · rw [h]; decide
  have hnorm : normalize (JVal.str z) = z := by
    unfold normalize
    rw [toJStr_or_str, trim_of_no_white_space z hws]
  unfold toSlug
  rw [hnorm, hU z hchars, List.filter_eq_self.2 hmark, List.filter_eq_self.2 hslug,
    replaceRuns_of_none z false hws, collapse_hyphens_id z false hchain (fun h => by cases h),
    stripEdgeHyphens_id z hhead hlast]

/-- Witness of C30: the slug of ` --Son Duong   x!-- ` is `son-duong-x`, and so is the
slug of `son-duong-x`. -/
theorem toSlug_idempotent_witness :
    (toSlug asciiUnicode (JVal.str " --Son Duong   x!-- ".toList) = "son-duong-x".toList ∧
      toSlug asciiUnicode (JVal.str "son-duong-x".toList) = "son-duong-x".toList) ∧
    toSlug asciiUnicode (JVal.str (toSlug asciiUnicode (JVal.str " --Son Duong   x!-- ".toList)))
      = toSlug asciiUnicode (JVal.str " --Son Duong   x!-- ".toList) :=
  ⟨by decide,
    toSlug_idempotent asciiUnicode (JVal.str " --Son Duong   x!-- ".toList)
      (fun z hz => (asciiUnicode_fixes_slugs z hz).2)⟩

end Preprocessed
